import Mathlib

/-!
Verification of the core of an ML-KEM-768 reference implementation
(`mlkem.py`, `shakestream.py`, `test_compress.py`).

The Python source is shallowly embedded as follows.

* Python integers are `ℤ`.  Python's `%` and `//` on a positive modulus
  agree with Lean's `%`/`/` on `ℤ` (`Int.emod` / `Int.ediv`, both
  Euclidean, hence floor semantics here since every divisor in the source
  is positive).
* Python byte strings and coefficient lists are both `List ℤ` (Python has
  a single integer type; a byte is just an int in `[0, 256)`).
* The SHA3/SHAKE primitives are out of scope of the specification
  ("assumed available from a trusted cryptographic library"), so they are
  a parameter of the embedding: a `HashModel` record with one field per
  wrapped primitive.  An arbitrary-length SHAKE squeeze is modelled as an
  infinite byte stream `ℕ → ℤ` (position ↦ byte).
* `os.urandom` is modelled as an entropy parameter `ℕ → List ℤ`
  (draw index ↦ 32 fresh bytes).
* The rejection-sampling loop of `sample_ntt` and the buffer-doubling
  loop of `ShakeStream.read` need not terminate for an arbitrary byte
  stream, so both are given explicit fuel and return `Option`;
  `sample_ntt` itself runs with a generous fixed fuel and all pipeline
  theorems are conditioned on a `some` result.

Proofs work on a mirrored copy of the arithmetic over `ZMod 3329`
(`zntt`, ...), related to the integer code by `List.map (Int.cast)`.
-/

set_option maxRecDepth 8000
set_option linter.unusedVariables false

namespace MLKEM

/-- ML-KEM-768 parameters, from the top of `mlkem.py`. -/
def N : ℕ := 256

/-- The prime modulus q = 3329. -/
def Q : ℤ := 3329

/-- Module rank K = 3. -/
def K : ℕ := 3

/-- CBD parameter eta_1 = 2. -/
def ETA1 : ℕ := 2

/-- CBD parameter eta_2 = 2. -/
def ETA2 : ℕ := 2

/-- Ciphertext compression width d_u = 10. -/
def DU : ℕ := 10

/-- Ciphertext compression width d_v = 4. -/
def DV : ℕ := 4

/-- 7-bit bit reversal.  The Python source reverses the string `f"{n:07b}"`;
this is the same function written arithmetically: bit i of the input
becomes bit 6 - i of the output. -/
def bitrev7 (n : ℕ) : ℕ :=
  (n / 1 % 2) * 64 + (n / 2 % 2) * 32 + (n / 4 % 2) * 16 + (n / 8 % 2) * 8 +
  (n / 16 % 2) * 4 + (n / 32 % 2) * 2 + (n / 64 % 2) * 1

/-- ZETA[k] = 17^bitrev7(k) mod Q, the table used by `ntt` and `ntt_inv`.
Python's three-argument `pow(17, e, Q)` is modelled as `17 ^ e % Q`. -/
def ZETA : List ℤ := (List.range 128).map (fun k => (17 : ℤ) ^ bitrev7 k % Q)

/-- GAMMA[k] = 17^(2*bitrev7(k)+1) mod Q, the table used by `ntt_mul`. -/
def GAMMA : List ℤ := (List.range 128).map (fun k => (17 : ℤ) ^ (2 * bitrev7 k + 1) % Q)

/-- Elementwise (x + y) mod Q (`poly256_add`); Python's `zip` truncates to
the shorter list exactly like `List.zipWith`. -/
def poly256_add (a b : List ℤ) : List ℤ := List.zipWith (fun x y => (x + y) % Q) a b

/-- Elementwise (x - y) mod Q (`poly256_sub`). -/
def poly256_sub (a b : List ℤ) : List ℤ := List.zipWith (fun x y => (x - y) % Q) a b

/-- Lossy compression: ((n * 2^d + Q // 2) // Q) % 2^d per coefficient. -/
def compress (d : ℕ) (x : List ℤ) : List ℤ :=
  x.map (fun n => (n * 2 ^ d + Q / 2) / Q % 2 ^ d)

/-- Decompression: ((n * Q + 2^(d-1)) // 2^d) % Q per coefficient.  (The
source never calls this with d = 0, where Python's `2**(d-1)` would be a
fraction; `d - 1` here is truncated ℕ subtraction.) -/
def decompress (d : ℕ) (x : List ℤ) : List ℤ :=
  x.map (fun n => (n * Q + 2 ^ (d - 1)) / 2 ^ d % Q)

/-!
Forward NTT (`ntt` in `mlkem.py`).

The Python loop mutates `f_out` in place.  Each inner iteration touches
only the pair (j, j + length), reading exactly the cells it writes, and
the pairs of one block are disjoint, so the block's effect on the slice
[start, start + 2*length) is: first half becomes (x + zeta*y) % Q, second
half becomes (x - zeta*y) % Q, where x, y are the old first/second
halves.  `nttBlocks len k nb f` runs `nb` consecutive blocks of size
2*len over `f`, threading the running counter k exactly as the source
(`zeta = ZETA[k]; k += 1` per block); `nttLayers` is the outer loop
`for log2len in range(7, 0, -1)` (the layer at `length = 2^log2len` has
`256 / (2*length) = 128/length` blocks).
-/

def nttBlocks (len : ℕ) (k : ℕ) (nb : ℕ) (f : List ℤ) : List ℤ × ℕ :=
  match nb with
  | 0 => (f, k)
  | nb + 1 =>
      let zeta := ZETA.getD k 0
      let xs := (f.take (2 * len)).take len
      let ys := (f.take (2 * len)).drop len
      let blk := List.zipWith (fun x y => (x + zeta * y) % Q) xs ys ++
                 List.zipWith (fun x y => (x - zeta * y) % Q) xs ys
      let rest := nttBlocks len (k + 1) nb (f.drop (2 * len))
      (blk ++ rest.1, rest.2)

def nttLayers (log2len : ℕ) (k : ℕ) (f : List ℤ) : List ℤ × ℕ :=
  match log2len with
  | 0 => (f, k)
  | l + 1 =>
      let len := 2 ^ (l + 1)
      let step := nttBlocks len k (128 / len) f
      nttLayers l step.2 step.1

/-- The forward NTT; the counter starts at 1 as in the source. -/
def ntt (f_in : List ℤ) : List ℤ := (nttLayers 7 1 f_in).1

/-- Instrumented copy of `nttBlocks` that additionally records the list of
ZETA indices read (third component).  Identical butterfly computation. -/
def nttBlocksTr (len : ℕ) (k : ℕ) (nb : ℕ) (f : List ℤ) : List ℤ × ℕ × List ℕ :=
  match nb with
  | 0 => (f, k, [])
  | nb + 1 =>
      let zeta := ZETA.getD k 0
      let xs := (f.take (2 * len)).take len
      let ys := (f.take (2 * len)).drop len
      let blk := List.zipWith (fun x y => (x + zeta * y) % Q) xs ys ++
                 List.zipWith (fun x y => (x - zeta * y) % Q) xs ys
      let rest := nttBlocksTr len (k + 1) nb (f.drop (2 * len))
      (blk ++ rest.1, rest.2.1, k :: rest.2.2)

/-- Instrumented copy of `nttLayers` recording all ZETA indices read. -/
def nttLayersTr (log2len : ℕ) (k : ℕ) (f : List ℤ) : List ℤ × ℕ × List ℕ :=
  match log2len with
  | 0 => (f, k, [])
  | l + 1 =>
      let len := 2 ^ (l + 1)
      let step := nttBlocksTr len k (128 / len) f
      let rest := nttLayersTr l step.2.1 step.1
      (rest.1, rest.2.1, step.2.2 ++ rest.2.2)

/-!
Inverse NTT (`ntt_inv`).  Same in-place loop analysis; the butterfly is
t = f[j]; f[j] = (t + f[j+length]) % Q; f[j+length] = (zeta*(f[j+length] - t)) % Q,
the counter starts at 127 and decrements per block, and the layer loop is
`for log2len in range(1, 8)` (lengths 2, 4, ..., 128; the recursion below
counts the 7 remaining layers, so `len = 2^(8 - r)` at fuel r).
-/

def nttInvBlocks (len : ℕ) (k : ℕ) (nb : ℕ) (f : List ℤ) : List ℤ × ℕ :=
  match nb with
  | 0 => (f, k)
  | nb + 1 =>
      let zeta := ZETA.getD k 0
      let xs := (f.take (2 * len)).take len
      let ys := (f.take (2 * len)).drop len
      let blk := List.zipWith (fun x y => (x + y) % Q) xs ys ++
                 List.zipWith (fun x y => (zeta * (y - x)) % Q) xs ys
      let rest := nttInvBlocks len (k - 1) nb (f.drop (2 * len))
      (blk ++ rest.1, rest.2)

def nttInvLayers (r : ℕ) (k : ℕ) (f : List ℤ) : List ℤ × ℕ :=
  match r with
  | 0 => (f, k)
  | r + 1 =>
      let len := 2 ^ (8 - (r + 1))
      let step := nttInvBlocks len k (128 / len) f
      nttInvLayers r step.2 step.1

/-- The inverse NTT: seven layers (counter from 127 downward), then the
final scaling  f_out[i] = f_out[i] * 3303 % Q  with 3303 = 128⁻¹ mod Q. -/
def ntt_inv (f_in : List ℤ) : List ℤ :=
  ((nttInvLayers 7 127 f_in).1).map (fun x => x * 3303 % Q)

/-- Addition of NTT representatives is elementwise (`ntt_add = poly256_add`). -/
def ntt_add (a b : List ℤ) : List ℤ := poly256_add a b

/-- Worker for `ntt_mul`: the source iterates i over range(128) taking the
pairs a[2i:2i+2], b[2i:2i+2]; on 256-element inputs that is exactly this
two-at-a-time recursion. -/
def nttMulGo (i : ℕ) (a b : List ℤ) : List ℤ :=
  match a, b with
  | a0 :: a1 :: a2, b0 :: b1 :: b2 =>
      (a0 * b0 + a1 * b1 * GAMMA.getD i 0) % Q ::
        ((a0 * b1 + a1 * b0) % Q :: nttMulGo (i + 1) a2 b2)
  | _, _ => []

/-- Pointwise multiplication in the NTT basis (`ntt_mul`). -/
def ntt_mul (a b : List ℤ) : List ℤ := nttMulGo 0 a b

/-- Textbook negacyclic multiplication (`poly256_slow_mul`): accumulate
c[i+j] = (c[i+j] + a[j]*b[i]) % Q over a length-511 buffer, then reduce
c[i] = (c[i] - c[i+256]) % Q for i in range(255), then truncate to 256. -/
def poly256_slow_mul (a b : List ℤ) : List ℤ :=
  let c0 : List ℤ := List.replicate 511 0
  let c1 := (List.range 256).foldl (fun c i =>
    (List.range 256).foldl (fun c j =>
      c.set (i + j) ((c.getD (i + j) 0 + a.getD j 0 * b.getD i 0) % Q)) c) c0
  let c2 := (List.range 255).foldl (fun c i =>
    c.set i ((c.getD i 0 - c.getD (i + 256) 0) % Q)) c1
  c2.take 256

/-- Pack bits into bytes, little-endian within each byte
(`bits_to_bytes`): byte = sum of bits[i+j] << j for j in range(8).  The
source asserts the length is a multiple of 8; a ragged tail is dropped. -/
def bits_to_bytes : List ℤ → List ℤ
  | b0 :: b1 :: b2 :: b3 :: b4 :: b5 :: b6 :: b7 :: rest =>
      (b0 + b1 * 2 + b2 * 4 + b3 * 8 + b4 * 16 + b5 * 32 + b6 * 64 + b7 * 128) ::
        bits_to_bytes rest
  | _ => []

/-- Unpack bytes into bits, little-endian (`bytes_to_bits`):
bit i of a word is (word >> i) & 1 = word / 2^i % 2. -/
def bytes_to_bits (data : List ℤ) : List ℤ :=
  data.foldr (fun w acc => ((List.range 8).map (fun i => w / 2 ^ i % 2)) ++ acc) []

/-- Encode 256 coefficients at d bits each (`byte_encode`); bit i of
coefficient a is (a >> i) & 1 = a / 2^i % 2. -/
def byte_encode (d : ℕ) (f : List ℤ) : List ℤ :=
  bits_to_bytes (f.foldr (fun a acc => ((List.range d).map (fun i => a / 2 ^ i % 2)) ++ acc) [])

/-- Decode 32*d bytes into 256 coefficients (`byte_decode`); an
out-of-range bit index reads 0 (Python would raise, but the source only
calls this with exact-length inputs). -/
def byte_decode (d : ℕ) (data : List ℤ) : List ℤ :=
  let bits := bytes_to_bits data
  (List.range 256).map (fun i => ((List.range d).map (fun j => bits.getD (i * d + j) 0 * 2 ^ j)).sum)

/-!
Sampling.  A SHAKE-128 output stream is a function `ℕ → ℤ`
(byte position ↦ byte value).  `sample_ntt` reads 3-byte chunks (a, b, c)
and forms d1 = ((b & 0xf) << 8) | a and d2 = (c << 4) | (b >> 4); on byte
values (0 ≤ byte < 256) those bit operations are exactly
`b % 16 * 256 + a` and `c * 16 + b / 16` (the OR has disjoint bit
ranges).  The while-loop may diverge on a stream that never yields 256
in-range candidates, so the worker takes fuel = number of chunks still
allowed, and checks the loop condition `len(res) < 256` before consuming
fuel, exactly like the `while` head. -/
def sampleNTTGo (s : ℕ → ℤ) (fuel : ℕ) (pos : ℕ) (res : List ℤ) : Option (List ℤ) :=
  if 256 ≤ res.length then some res
  else
    match fuel with
    | 0 => none
    | fuel + 1 =>
        let a := s pos
        let b := s (pos + 1)
        let c := s (pos + 2)
        let d1 := b % 16 * 256 + a
        let d2 := c * 16 + b / 16
        let res1 := if d1 < Q then res ++ [d1] else res
        let res2 := if d2 < Q ∧ res1.length < 256 then res1 ++ [d2] else res1
        sampleNTTGo s fuel (pos + 3) res2

/-- The rejection sampler (`sample_ntt`), with a generous fixed fuel of
65536 chunks (the real SHAKE streams need just over 128). -/
def sample_ntt (s : ℕ → ℤ) : Option (List ℤ) := sampleNTTGo s 65536 0 []

/-- Centered binomial sampler (`sample_poly_cbd`). -/
def sample_poly_cbd (eta : ℕ) (data : List ℤ) : List ℤ :=
  let bits := bytes_to_bits data
  (List.range 256).map (fun i =>
    (((List.range eta).map (fun j => bits.getD (2 * i * eta + j) 0)).sum -
     ((List.range eta).map (fun j => bits.getD (2 * i * eta + eta + j) 0)).sum) % Q)

/-!
Hash façade.  SHA3/SHAKE are outside the specified core ("assumed
available from a trusted cryptographic library"), so the embedding takes
them as a parameter record.  A SHAKE-128 object with arbitrary-length
squeeze is a seeded infinite byte stream. -/
structure HashModel where
  sha3_256 : List ℤ → List ℤ
  sha3_512 : List ℤ → List ℤ
  shake256 : List ℤ → ℕ → List ℤ
  shake128 : List ℤ → ℕ → ℤ

/-- PRF(eta, data, b) = SHAKE256(data ‖ byte(b)) truncated to 64*eta. -/
def mlkem_prf (C : HashModel) (eta : ℕ) (data : List ℤ) (b : ℤ) : List ℤ :=
  C.shake256 (data ++ [b]) (64 * eta)

/-- XOF(data, i, j) = SHAKE128(data ‖ byte(i) ‖ byte(j)) as a stream:
the second argument is appended first, then the third. -/
def mlkem_xof (C : HashModel) (data : List ℤ) (i j : ℤ) : ℕ → ℤ :=
  C.shake128 (data ++ [i, j])

/-- H = SHA3-256. -/
def mlkem_hash_H (C : HashModel) (data : List ℤ) : List ℤ := C.sha3_256 data

/-- J = SHAKE256 truncated to 32 bytes. -/
def mlkem_hash_J (C : HashModel) (data : List ℤ) : List ℤ := C.shake256 data 32

/-- G = SHA3-512. -/
def mlkem_hash_G (C : HashModel) (data : List ℤ) : List ℤ := C.sha3_512 data

/-- The A-hat construction loop, identical in `kpke_keygen` and
`kpke_encrypt` (the source notes "this is identical to as in
kpke_keygen"); the double loop `for i in range(K): for j in range(K):
row.append(sample_ntt(mlkem_xof(rho, i, j)))` unrolled at K = 3.
Row index i is passed as the XOF's second argument (appended first). -/
def buildAhat (C : HashModel) (rho : List ℤ) : Option (List (List (List ℤ))) := do
  let a00 ← sample_ntt (mlkem_xof C rho 0 0)
  let a01 ← sample_ntt (mlkem_xof C rho 0 1)
  let a02 ← sample_ntt (mlkem_xof C rho 0 2)
  let a10 ← sample_ntt (mlkem_xof C rho 1 0)
  let a11 ← sample_ntt (mlkem_xof C rho 1 1)
  let a12 ← sample_ntt (mlkem_xof C rho 1 2)
  let a20 ← sample_ntt (mlkem_xof C rho 2 0)
  let a21 ← sample_ntt (mlkem_xof C rho 2 1)
  let a22 ← sample_ntt (mlkem_xof C rho 2 2)
  pure [[a00, a01, a02], [a10, a11, a12], [a20, a21, a22]]

/-- K-PKE key generation (`kpke_keygen`) on a given 32-byte seed d.  The
comprehensions over range(K) are unrolled at K = 3; `reduce(ntt_add, ...)`
left-folds from the first element.  t uses `ahat[j][i]` (transposed
access), as in the source. -/
def kpke_keygen (C : HashModel) (d : List ℤ) : Option (List ℤ × List ℤ) := do
  let ghash := mlkem_hash_G C d
  let rho := ghash.take 32
  let sigma := ghash.drop 32
  let ahat ← buildAhat C rho
  let s0 := ntt (sample_poly_cbd ETA1 (mlkem_prf C ETA1 sigma 0))
  let s1 := ntt (sample_poly_cbd ETA1 (mlkem_prf C ETA1 sigma 1))
  let s2 := ntt (sample_poly_cbd ETA1 (mlkem_prf C ETA1 sigma 2))
  let e0 := ntt (sample_poly_cbd ETA1 (mlkem_prf C ETA1 sigma 3))
  let e1 := ntt (sample_poly_cbd ETA1 (mlkem_prf C ETA1 sigma 4))
  let e2 := ntt (sample_poly_cbd ETA1 (mlkem_prf C ETA1 sigma 5))
  let t0 := ntt_add (ntt_add (ntt_add (ntt_mul ((ahat.getD 0 []).getD 0 []) s0)
      (ntt_mul ((ahat.getD 1 []).getD 0 []) s1)) (ntt_mul ((ahat.getD 2 []).getD 0 []) s2)) e0
  let t1 := ntt_add (ntt_add (ntt_add (ntt_mul ((ahat.getD 0 []).getD 1 []) s0)
      (ntt_mul ((ahat.getD 1 []).getD 1 []) s1)) (ntt_mul ((ahat.getD 2 []).getD 1 []) s2)) e1
  let t2 := ntt_add (ntt_add (ntt_add (ntt_mul ((ahat.getD 0 []).getD 2 []) s0)
      (ntt_mul ((ahat.getD 1 []).getD 2 []) s1)) (ntt_mul ((ahat.getD 2 []).getD 2 []) s2)) e2
  let ek_pke := byte_encode 12 t0 ++ byte_encode 12 t1 ++ byte_encode 12 t2 ++ rho
  let dk_pke := byte_encode 12 s0 ++ byte_encode 12 s1 ++ byte_encode 12 s2
  pure (ek_pke, dk_pke)

/-- K-PKE encryption (`kpke_encrypt`).  u uses `ahat[i][j]` (the
transpose of keygen's access pattern), as in the source. -/
def kpke_encrypt (C : HashModel) (ek_pke m r : List ℤ) : Option (List ℤ) := do
  let t0 := byte_decode 12 (ek_pke.take 384)
  let t1 := byte_decode 12 ((ek_pke.drop 384).take 384)
  let t2 := byte_decode 12 ((ek_pke.drop 768).take 384)
  let rho := ek_pke.drop (ek_pke.length - 32)
  let ahat ← buildAhat C rho
  let r0 := ntt (sample_poly_cbd ETA1 (mlkem_prf C ETA1 r 0))
  let r1 := ntt (sample_poly_cbd ETA1 (mlkem_prf C ETA1 r 1))
  let r2 := ntt (sample_poly_cbd ETA1 (mlkem_prf C ETA1 r 2))
  let e10 := sample_poly_cbd ETA2 (mlkem_prf C ETA2 r 3)
  let e11 := sample_poly_cbd ETA2 (mlkem_prf C ETA2 r 4)
  let e12 := sample_poly_cbd ETA2 (mlkem_prf C ETA2 r 5)
  let e2 := sample_poly_cbd ETA2 (mlkem_prf C ETA2 r 6)
  let u0 := poly256_add (ntt_inv (ntt_add (ntt_add (ntt_mul ((ahat.getD 0 []).getD 0 []) r0)
      (ntt_mul ((ahat.getD 0 []).getD 1 []) r1)) (ntt_mul ((ahat.getD 0 []).getD 2 []) r2))) e10
  let u1 := poly256_add (ntt_inv (ntt_add (ntt_add (ntt_mul ((ahat.getD 1 []).getD 0 []) r0)
      (ntt_mul ((ahat.getD 1 []).getD 1 []) r1)) (ntt_mul ((ahat.getD 1 []).getD 2 []) r2))) e11
  let u2 := poly256_add (ntt_inv (ntt_add (ntt_add (ntt_mul ((ahat.getD 2 []).getD 0 []) r0)
      (ntt_mul ((ahat.getD 2 []).getD 1 []) r1)) (ntt_mul ((ahat.getD 2 []).getD 2 []) r2))) e12
  let mu := decompress 1 (byte_decode 1 m)
  let v := poly256_add (ntt_inv (ntt_add (ntt_add (ntt_mul t0 r0) (ntt_mul t1 r1))
      (ntt_mul t2 r2))) (poly256_add e2 mu)
  let c1 := byte_encode DU (compress DU u0) ++ byte_encode DU (compress DU u1) ++
      byte_encode DU (compress DU u2)
  let c2 := byte_encode DV (compress DV v)
  pure (c1 ++ c2)

/-- K-PKE decryption (`kpke_decrypt`); consumes no hashes and no
randomness, so it is a plain total function.  32*DU*K = 960,
32*DU = 320, 384 = bytes per 12-bit polynomial. -/
def kpke_decrypt (dk_pke c : List ℤ) : List ℤ :=
  let c1 := c.take 960
  let c2 := c.drop 960
  let u0 := decompress DU (byte_decode DU (c1.take 320))
  let u1 := decompress DU (byte_decode DU ((c1.drop 320).take 320))
  let u2 := decompress DU (byte_decode DU ((c1.drop 640).take 320))
  let v := decompress DV (byte_decode DV c2)
  let s0 := byte_decode 12 (dk_pke.take 384)
  let s1 := byte_decode 12 ((dk_pke.drop 384).take 384)
  let s2 := byte_decode 12 ((dk_pke.drop 768).take 384)
  let w := poly256_sub v (ntt_inv (ntt_add (ntt_add (ntt_mul s0 (ntt u0))
      (ntt_mul s1 (ntt u1))) (ntt_mul s2 (ntt u2))))
  byte_encode 1 (compress 1 w)

/-!
ML-KEM.  `os.urandom(32)` is modelled by an entropy parameter
`ent : ℕ → List ℤ` (draw index ↦ bytes); a `some` seed bypasses it just
like passing an explicit seed in Python. -/

/-- ML-KEM key generation (`mlkem_keygen`): z from seed1 (or entropy
draw 0), K-PKE seed d from seed2 (or entropy draw 1);
dk = dk_pke ‖ ek ‖ H(ek) ‖ z. -/
def mlkem_keygen (C : HashModel) (ent : ℕ → List ℤ) (seed1 seed2 : Option (List ℤ)) :
    Option (List ℤ × List ℤ) := do
  let z := seed1.getD (ent 0)
  let kp ← kpke_keygen C (seed2.getD (ent 1))
  let ek := kp.1
  let dk := kp.2 ++ ek ++ mlkem_hash_H C ek ++ z
  pure (ek, dk)

/-- ML-KEM encapsulation (`mlkem_encaps`): m from the seed (or entropy
draw 0); (k, r) = split G(m ‖ H(ek)); c = K-PKE encryption of m. -/
def mlkem_encaps (C : HashModel) (ent : ℕ → List ℤ) (ek : List ℤ) (seed : Option (List ℤ)) :
    Option (List ℤ × List ℤ) := do
  let m := seed.getD (ent 0)
  let ghash := mlkem_hash_G C (m ++ mlkem_hash_H C ek)
  let k := ghash.take 32
  let r := ghash.drop 32
  let c ← kpke_encrypt C ek m r
  pure (k, c)

/-- ML-KEM decapsulation (`mlkem_decaps`).  It receives the entropy
source (as any top-level operation of the module does) but never reads
it, mirroring the Python function's never calling `os.urandom`.  Slices:
dk_pke = dk[0:1152], ek_pke = dk[1152:2336], h = dk[2336:2368],
z = dk[2368:2400] (384*K = 1152, 768*K + 32 = 2336, 768*K + 64 = 2368). -/
def mlkem_decaps (C : HashModel) (ent : ℕ → List ℤ) (c dk : List ℤ) : Option (List ℤ) := do
  let dk_pke := dk.take 1152
  let ek_pke := (dk.drop 1152).take 1184
  let h := (dk.drop 2336).take 32
  let z := (dk.drop 2368).take 32
  let mdash := kpke_decrypt dk_pke c
  let ghash := mlkem_hash_G C (mdash ++ h)
  let kdash := ghash.take 32
  let rdash := ghash.drop 32
  let kbar := mlkem_hash_J C (z ++ c)
  let cdash ← kpke_encrypt C ek_pke mdash rdash
  pure (if cdash ≠ c then kbar else kdash)

/-!
The `ShakeStream` wrapper from `shakestream.py`: an object holding a
re-squeezable digest function, a buffer, and a read offset.  `read`
doubles the buffer (by re-digesting at twice the length) until it covers
offset + n; the while-loop gets explicit fuel. -/
structure ShakeStream where
  digest : ℕ → List ℤ
  buf : List ℤ
  offset : ℕ

/-- Constructor: `self.buf = self.digest(32); self.offset = 0`. -/
def ShakeStream.init (digestfn : ℕ → List ℤ) : ShakeStream :=
  ⟨digestfn, digestfn 32, 0⟩

/-- The body of `ShakeStream.read` with fuel for the doubling loop. -/
def ShakeStream.readGo (fuel : ℕ) (s : ShakeStream) (n : ℕ) : Option (List ℤ × ShakeStream) :=
  match fuel with
  | 0 => none
  | fuel + 1 =>
      if s.buf.length < s.offset + n then
        ShakeStream.readGo fuel ⟨s.digest, s.digest (s.buf.length * 2), s.offset⟩ n
      else
        some ((s.buf.drop s.offset).take n, ⟨s.digest, s.buf, s.offset + n⟩)

/-- The sequence of 12-bit candidates that `sample_ntt` extracts from the
chunks at byte positions pos, pos+3, ..., for `nchunks` chunks: each
chunk (a, b, c) contributes d1 = ((b & 0xf) << 8) | a then
d2 = (c << 4) | (b >> 4). -/
def xofCandidates (s : ℕ → ℤ) (pos : ℕ) (nchunks : ℕ) : List ℤ :=
  match nchunks with
  | 0 => []
  | nc + 1 =>
      (s (pos + 1) % 16 * 256 + s pos) ::
        ((s (pos + 2) * 16 + s (pos + 1) / 16) :: xofCandidates s (pos + 3) nc)

/-- Hash model used to separate the two possible XOF byte orders: every
SHAKE-128 stream yields zero bytes except the one whose seed data is
exactly [0, 1], which yields ones. -/
def c3Model : HashModel :=
  ⟨fun _ => [], fun _ => [], fun _ _ => [], fun data _ => if data = [0, 1] then 1 else 0⟩

/-- All-zero hash model with the standard output lengths: SHA3-256 gives
32 zero bytes, SHA3-512 gives 64, SHAKE-256 gives n, SHAKE-128 streams
are all-zero. -/
def zeroModel : HashModel :=
  ⟨fun _ => List.replicate 32 0, fun _ => List.replicate 64 0,
   fun _ n => List.replicate n 0, fun _ _ => 0⟩

/-- Hash model for the C2 counterexample: like `zeroModel` but SHAKE-256
returns bytes of value 5.  Byte 5 has bit pattern 1010 0000 (lsb first),
so each eta = 2 group sums to x = y and the CBD sampler still returns the
zero polynomial, while J = SHAKE256(...)[0:32] returns 32 fives, distinct
from the all-zero K output. -/
def c2Model : HashModel :=
  ⟨fun _ => List.replicate 32 0, fun _ => List.replicate 64 0,
   fun _ n => List.replicate n 5, fun _ _ => 0⟩

/-- Hash model for the C1 counterexample: H returns 31 bytes (one short),
misaligning the fixed parse offsets of the decapsulation key, and G
distinguishes the encapsulation-side preimage m ‖ H(ek) (63 bytes) from
the decapsulation-side preimage m' ‖ h (64 bytes, because h picks up one
byte of z). -/
def c1Model : HashModel :=
  ⟨fun _ => List.replicate 31 9,
   fun x => if x.length = 63 then List.replicate 32 4 ++ List.replicate 32 0
            else List.replicate 64 0,
   fun _ n => List.replicate n 0, fun _ _ => 0⟩

/-- Round-half-up on rationals, from `test_compress.py`:
`(n + Fraction(1, 2)).__floor__()`. -/
def round_half_up (n : ℚ) : ℤ := ⌊n + 1 / 2⌋

/-- The reference closed form `compress_proper` from `test_compress.py`:
round-half-up of the exact rational 2^d * x / Q, taken mod 2^d. -/
def compress_proper (d : ℕ) (x : ℤ) : ℤ :=
  round_half_up ((2 ^ d * x : ℤ) / (Q : ℚ)) % 2 ^ d


/-!
Verification layer for the NTT claims: a mirror of the transform over the
field Z_q (q = 3329 is prime), where the arithmetic is exact and linear-
algebraic reasoning is available.  Each mirror definition reproduces the
integer definition's structure with `% Q` dropped (the cast ℤ → Z_q is a
ring homomorphism collapsing `% Q`).
-/

/-- The coefficient ring Z_3329. -/
abbrev Rq : Type := ZMod 3329

/-- Coefficientwise cast of an integer polynomial into Z_q. -/
def mapc (l : List ℤ) : List Rq := l.map (Int.cast : ℤ → Rq)

/-- The ZETA table cast into Z_q. -/
def ZETAM : List Rq := ZETA.map (Int.cast : ℤ → Rq)

/-- The GAMMA table cast into Z_q. -/
def GAMMAM : List Rq := GAMMA.map (Int.cast : ℤ → Rq)

/-- Scalar multiple of a coefficient list. -/
def smulL (s : Rq) (f : List Rq) : List Rq := f.map (fun x => s * x)

/-- Mirror of `nttBlocks` over Z_q. -/
def nttBlocksM (len : ℕ) (k : ℕ) (nb : ℕ) (f : List Rq) : List Rq × ℕ :=
  match nb with
  | 0 => (f, k)
  | nb + 1 =>
      let zeta := ZETAM.getD k 0
      let xs := (f.take (2 * len)).take len
      let ys := (f.take (2 * len)).drop len
      let blk := List.zipWith (fun x y => x + zeta * y) xs ys ++
                 List.zipWith (fun x y => x - zeta * y) xs ys
      let rest := nttBlocksM len (k + 1) nb (f.drop (2 * len))
      (blk ++ rest.1, rest.2)

/-- Mirror of `nttLayers` over Z_q. -/
def nttLayersM (log2len : ℕ) (k : ℕ) (f : List Rq) : List Rq × ℕ :=
  match log2len with
  | 0 => (f, k)
  | l + 1 =>
      let len := 2 ^ (l + 1)
      let step := nttBlocksM len k (128 / len) f
      nttLayersM l step.2 step.1

/-- Mirror of `ntt` over Z_q. -/
def nttM (f : List Rq) : List Rq := (nttLayersM 7 1 f).1

/-- Mirror of `nttInvBlocks` over Z_q. -/
def nttInvBlocksM (len : ℕ) (k : ℕ) (nb : ℕ) (f : List Rq) : List Rq × ℕ :=
  match nb with
  | 0 => (f, k)
  | nb + 1 =>
      let zeta := ZETAM.getD k 0
      let xs := (f.take (2 * len)).take len
      let ys := (f.take (2 * len)).drop len
      let blk := List.zipWith (fun x y => x + y) xs ys ++
                 List.zipWith (fun x y => zeta * (y - x)) xs ys
      let rest := nttInvBlocksM len (k - 1) nb (f.drop (2 * len))
      (blk ++ rest.1, rest.2)

/-- Mirror of `nttInvLayers` over Z_q. -/
def nttInvLayersM (r : ℕ) (k : ℕ) (f : List Rq) : List Rq × ℕ :=
  match r with
  | 0 => (f, k)
  | r + 1 =>
      let len := 2 ^ (8 - (r + 1))
      let step := nttInvBlocksM len k (128 / len) f
      nttInvLayersM r step.2 step.1

/-- Mirror of `ntt_inv` over Z_q. -/
def nttInvM (f : List Rq) : List Rq :=
  ((nttInvLayersM 7 127 f).1).map (fun x => x * 3303)

/-- One forward butterfly pass over a list of chunks (each of length
2 * len), threading the ZETA index like `nttBlocks` but keeping the
chunk structure. -/
def bfChunksM (len : ℕ) (k : ℕ) : List (List Rq) → List (List Rq)
  | [] => []
  | c :: cs =>
      (List.zipWith (fun x y => x + ZETAM.getD k 0 * y) (c.take len) (c.drop len) ++
       List.zipWith (fun x y => x - ZETAM.getD k 0 * y) (c.take len) (c.drop len)) ::
        bfChunksM len (k + 1) cs

/-- Same butterfly pass with each output chunk split into its two halves:
the chunk list at the next (finer) level of the transform. -/
def bfSplitM (len : ℕ) (k : ℕ) : List (List Rq) → List (List Rq)
  | [] => []
  | c :: cs =>
      List.zipWith (fun x y => x + ZETAM.getD k 0 * y) (c.take len) (c.drop len) ::
        (List.zipWith (fun x y => x - ZETAM.getD k 0 * y) (c.take len) (c.drop len) ::
          bfSplitM len (k + 1) cs)


/-!
Additional verification-layer definitions for the NTT-multiplication
claim: a depth-first form of the butterfly recursion, the companion-matrix
evaluation representing residues mod (X^2 - gamma), and a clean
convolution characterisation of the schoolbook multiplier.
-/

/-- 8-bit bit reversal (leaf indices of the NTT recursion tree are 8-bit:
a leading 1 followed by the 7-bit position). -/
def bitrev8 (n : ℕ) : ℕ :=
  (n / 1 % 2) * 128 + (n / 2 % 2) * 64 + (n / 4 % 2) * 32 + (n / 8 % 2) * 16 +
  (n / 16 % 2) * 8 + (n / 32 % 2) * 4 + (n / 64 % 2) * 2 + (n / 128 % 2) * 1

/-- Depth-first form of the forward butterfly recursion: node (l+1, j)
butterflies its chunk with ZETAM[j] and recurses into children indexed
2j and 2j+1, exactly the breadth-first counter order of `ntt`. -/
def nttRecM : ℕ → ℕ → List Rq → List Rq
  | 0, _, f => f
  | l + 1, j, f =>
      nttRecM l (2 * j) (List.zipWith (fun x y => x + ZETAM.getD j 0 * y)
          (f.take (2 ^ (l + 1))) (f.drop (2 ^ (l + 1)))) ++
        nttRecM l (2 * j + 1) (List.zipWith (fun x y => x - ZETAM.getD j 0 * y)
          (f.take (2 ^ (l + 1))) (f.drop (2 ^ (l + 1))))

/-- Apply depth-first subtrees to a chunk list with consecutive root
indices. -/
def chunkMapM (l : ℕ) : ℕ → List (List Rq) → List (List Rq)
  | _, [] => []
  | base, c :: cs => nttRecM l base c :: chunkMapM l (base + 1) cs

/-- Companion matrix of X^2 - g over Z_q. -/
def compM (g : Rq) : Matrix (Fin 2) (Fin 2) Rq := !![0, g; 1, 0]

/-- Horner evaluation of a coefficient list at the companion matrix of
X^2 - g: the matrix image of the residue mod (X^2 - g). -/
def matEval (g : Rq) (f : List Rq) : Matrix (Fin 2) (Fin 2) Rq :=
  f.foldr (fun a M => a • 1 + compM g * M) 0

/-- Mirror of `nttMulGo` over Z_q. -/
def nttMulGoM (i : ℕ) (a b : List Rq) : List Rq :=
  match a, b with
  | a0 :: a1 :: a2, b0 :: b1 :: b2 =>
      (a0 * b0 + a1 * b1 * GAMMAM.getD i 0) ::
        ((a0 * b1 + a1 * b0) :: nttMulGoM (i + 1) a2 b2)
  | _, _ => []

/-- Mirror of `ntt_mul` over Z_q. -/
def nttMulM (a b : List Rq) : List Rq := nttMulGoM 0 a b

/-- Length-tolerant elementwise sum of coefficient lists (the shorter list
is zero-padded). -/
def addL : List Rq → List Rq → List Rq
  | [], y => y
  | x :: xs, [] => x :: xs
  | x :: xs, y :: ys => (x + y) :: addL xs ys

/-- n zero coefficients prefixed: multiplication by X^n. -/
def shiftN (n : ℕ) (f : List Rq) : List Rq := List.replicate n 0 ++ f

/-- Polynomial product of coefficient lists, recursing on the second
factor. -/
def convR (a : List Rq) : List Rq → List Rq
  | [] => []
  | b :: bs => addL (a.map (fun x => x * b)) (0 :: convR a bs)

/-- Mirror of `poly256_slow_mul` over Z_q. -/
def slowMulM (a b : List Rq) : List Rq :=
  let c0 : List Rq := List.replicate 511 0
  let c1 := (List.range 256).foldl (fun c i =>
    (List.range 256).foldl (fun c j =>
      c.set (i + j) (c.getD (i + j) 0 + a.getD j 0 * b.getD i 0)) c) c0
  let c2 := (List.range 255).foldl (fun c i =>
    c.set i (c.getD i 0 - c.getD (i + 256) 0)) c1
  c2.take 256

/-- The first 256 getD entries of a coefficient list as a list. -/
def tab256 (a : List Rq) : List Rq := (List.range 256).map (fun j => a.getD j 0)

/-- Key arithmetic fact behind C6: floor division by Q with offset 1664
agrees with floor division by 2Q with offset Q, because 2a + Q is odd. -/
theorem ediv_offset_eq (y : ℤ) : (2 * y + 3329) / 6658 = (y + 1664) / 3329 := by
  omega

/-- Per-coefficient form of C6, for every d and every x. -/
theorem compress_elem_eq_proper (d : ℕ) (x : ℤ) :
    (x * 2 ^ d + Q / 2) / Q % 2 ^ d = compress_proper d x := by
  unfold compress_proper round_half_up
  have hq : ((2 ^ d * x : ℤ) : ℚ) / ((Q : ℤ) : ℚ) + 1 / 2 =
      ((2 * (2 ^ d * x) + 3329 : ℤ) : ℚ) / ((6658 : ℕ) : ℚ) := by
    simp only [Q]
    push_cast
    field_simp
    ring
  rw [hq, Rat.floor_intCast_div_natCast, show ((6658 : ℕ) : ℤ) = 6658 from rfl,
    ediv_offset_eq, show Q / 2 = 1664 from rfl, mul_comm x, show Q = (3329 : ℤ) from rfl]

/--
C6: for every d in [1, 12] and every x in [0, 3329), the implemented
compress formula ((x*2^d + 1664) // 3329) mod 2^d equals round-half-up of
the exact rational 2^d*x/3329, taken mod 2^d (`compress_proper` from
`test_compress.py`).  The equality in fact needs none of the bounds: the
two floors always agree because 2*(x*2^d) + 3329 is odd.
-/
theorem c6_compress_round_half_up (d : ℕ) (x : ℤ)
    (hd1 : 1 ≤ d) (hd2 : d ≤ 12) (hx0 : 0 ≤ x) (hxq : x < 3329) :
    compress d [x] = [compress_proper d x] := by
  unfold compress
  simp only [List.map_cons, List.map_nil, List.cons.injEq, and_true]
  exact compress_elem_eq_proper d x

/-- The instrumented blocks compute the same output list and counter as
the plain ones. -/
theorem nttBlocksTr_agrees : ∀ (nb len k : ℕ) (f : List ℤ),
    (nttBlocksTr len k nb f).1 = (nttBlocks len k nb f).1 ∧
    (nttBlocksTr len k nb f).2.1 = (nttBlocks len k nb f).2 := by
  intro nb
  induction nb with
  | zero => intro len k f; exact ⟨rfl, rfl⟩
  | succ n ih =>
      intro len k f
      simp only [nttBlocksTr, nttBlocks]
      exact ⟨by rw [(ih len (k + 1) _).1], (ih len (k + 1) _).2⟩

/-- The instrumented layers compute the same output list as `nttLayers`. -/
theorem nttLayersTr_agrees : ∀ (l k : ℕ) (f : List ℤ),
    (nttLayersTr l k f).1 = (nttLayers l k f).1 := by
  intro l
  induction l with
  | zero => intro k f; rfl
  | succ n ih =>
      intro k f
      simp only [nttLayersTr, nttLayers]
      rw [(nttBlocksTr_agrees _ _ _ _).1, (nttBlocksTr_agrees _ _ _ _).2, ih]

/-- Each block reads exactly one ZETA index and increments the counter:
`nb` blocks starting at counter k read indices k, k+1, ..., k+nb-1. -/
theorem nttBlocksTr_trace : ∀ (nb len k : ℕ) (f : List ℤ),
    (nttBlocksTr len k nb f).2.2 = List.range' k nb ∧
    (nttBlocksTr len k nb f).2.1 = k + nb := by
  intro nb
  induction nb with
  | zero => intro len k f; exact ⟨rfl, rfl⟩
  | succ n ih =>
      intro len k f
      simp only [nttBlocksTr]
      refine ⟨?_, ?_⟩
      · rw [(ih len (k + 1) _).1, List.range'_succ]
      · rw [(ih len (k + 1) _).2]; omega

/-- Over the seven layers of the forward NTT the counter goes from 1 to
128 and the ZETA indices read are exactly 1, ..., 127 (so 127 values). -/
theorem nttLayersTr_spec (f : List ℤ) :
    (nttLayersTr 7 1 f).2.1 = 128 ∧ (nttLayersTr 7 1 f).2.2 = List.range' 1 127 := by
  simp only [nttLayersTr, (nttBlocksTr_trace _ _ _ _).1, (nttBlocksTr_trace _ _ _ _).2]
  norm_num
  decide

/--
C8 (amended): the forward NTT's running counter starts at 1 and ends at
128 after the seven layers, but the transform consumes 127 ZETA table
values (indices 1 through 127), not 128; ZETA[0] is never read.
`nttLayersTr` is the instrumented copy of the `ntt` loop; its output list
is `ntt f` itself.
-/
theorem c8_ntt_counter (f : List ℤ) :
    (nttLayersTr 7 1 f).2.1 = 128 ∧
    (nttLayersTr 7 1 f).2.2 = List.range' 1 127 ∧
    (nttLayersTr 7 1 f).2.2.length = 127 ∧
    (nttLayersTr 7 1 f).1 = ntt f := by
  refine ⟨(nttLayersTr_spec f).1, (nttLayersTr_spec f).2, ?_, nttLayersTr_agrees 7 1 f⟩
  rw [(nttLayersTr_spec f).2]; decide

/-- Counterexample to C8 as stated: on a concrete input the NTT reads 127
ZETA values, not 128. -/
theorem c8_counterexample :
    ¬ ((nttLayersTr 7 1 (List.replicate 256 (0 : ℤ))).2.2.length = 128) := by
  rw [(nttLayersTr_spec (List.replicate 256 (0 : ℤ))).2]
  decide

/-- Flatten of a replicated block, one step. -/
theorem flatten_replicate_succ {α : Type} (n : ℕ) (blk : List α) :
    (List.replicate (n + 1) blk).flatten = blk ++ (List.replicate n blk).flatten := rfl

/-- Flatten of replicated replicate collapses to a single replicate. -/
theorem flatten_replicate_same {α : Type} (n m : ℕ) (a : α) :
    (List.replicate n (List.replicate m a)).flatten = List.replicate (n * m) a := by
  induction n with
  | zero => simp
  | succ k ih =>
      rw [flatten_replicate_succ, ih, ← List.replicate_add]
      congr 1
      ring

/-- Length of a flattened replicated block. -/
theorem length_flatten_replicate {α : Type} (n : ℕ) (blk : List α) :
    (List.replicate n blk).flatten.length = n * blk.length := by
  induction n with
  | zero => simp
  | succ k ih =>
      rw [flatten_replicate_succ, List.length_append, ih]
      ring

/-- Unfolding: at fuel 0 the sampler checks the loop condition and stops. -/
theorem sampleNTTGo_zero_fuel (s : ℕ → ℤ) (pos : ℕ) (res : List ℤ) :
    sampleNTTGo s 0 pos res = if 256 ≤ res.length then some res else none := rfl

/-- Unfolding: at fuel+1 the sampler checks the loop condition, then
processes one 3-byte chunk. -/
theorem sampleNTTGo_succ (s : ℕ → ℤ) (fuel pos : ℕ) (res : List ℤ) :
    sampleNTTGo s (fuel + 1) pos res =
      if 256 ≤ res.length then some res
      else
        sampleNTTGo s fuel (pos + 3)
          (if s (pos + 2) * 16 + s (pos + 1) / 16 < Q ∧
              (if s (pos + 1) % 16 * 256 + s pos < Q then res ++ [s (pos + 1) % 16 * 256 + s pos]
               else res).length < 256 then
            (if s (pos + 1) % 16 * 256 + s pos < Q then res ++ [s (pos + 1) % 16 * 256 + s pos]
             else res) ++ [s (pos + 2) * 16 + s (pos + 1) / 16]
          else
            if s (pos + 1) % 16 * 256 + s pos < Q then res ++ [s (pos + 1) % 16 * 256 + s pos]
            else res) := rfl

/-- Once 256 coefficients are collected the sampler returns them, for any
remaining fuel. -/
theorem sampleNTTGo_of_full (s : ℕ → ℤ) (fuel pos : ℕ) (res : List ℤ)
    (h : 256 ≤ res.length) : sampleNTTGo s fuel pos res = some res := by
  cases fuel with
  | zero => rw [sampleNTTGo_zero_fuel, if_pos h]
  | succ n => rw [sampleNTTGo_succ, if_pos h]

/-- On a constant stream whose two candidates are both accepted, the
sampler appends the candidate pair once per chunk until full. -/
theorem sampleNTTGo_const_fill (cv : ℤ)
    (hd1 : cv % 16 * 256 + cv < Q) (hd2 : cv * 16 + cv / 16 < Q) :
    ∀ (k fuel pos : ℕ) (res : List ℤ), k ≤ fuel → res.length + 2 * k = 256 →
      sampleNTTGo (fun _ => cv) fuel pos res =
        some (res ++ (List.replicate k [cv % 16 * 256 + cv, cv * 16 + cv / 16]).flatten) := by
  intro k
  induction k with
  | zero =>
      intro fuel pos res hk hlen
      rw [sampleNTTGo_of_full _ _ _ _ (by omega)]
      simp
  | succ k ih =>
      intro fuel pos res hk hlen
      obtain ⟨fuel, rfl⟩ : ∃ f, fuel = f + 1 := ⟨fuel - 1, by omega⟩
      rw [sampleNTTGo_succ]
      rw [if_neg (by omega : ¬ 256 ≤ res.length)]
      simp only [if_pos hd1]
      rw [if_pos ⟨hd2, by simp; omega⟩]
      rw [ih fuel (pos + 3) _ (by omega) (by simp; omega)]
      rw [flatten_replicate_succ]
      simp

/-- On a constant stream whose candidates are both rejected, the sampler
never makes progress and runs out of any amount of fuel. -/
theorem sampleNTTGo_stuck (cv : ℤ)
    (hd1 : ¬ cv % 16 * 256 + cv < Q) (hd2 : ¬ cv * 16 + cv / 16 < Q) :
    ∀ (fuel pos : ℕ), sampleNTTGo (fun _ => cv) fuel pos [] = none := by
  intro fuel
  induction fuel with
  | zero => intro pos; rw [sampleNTTGo_zero_fuel]; simp
  | succ n ih =>
      intro pos
      rw [sampleNTTGo_succ]
      rw [if_neg (by simp : ¬ 256 ≤ ([] : List ℤ).length)]
      simp only [if_neg hd1]
      rw [if_neg (by simp [hd2])]
      exact ih (pos + 3)

/-- The zero stream fills the sampler with 256 zero coefficients. -/
theorem sample_ntt_zero_stream : sample_ntt (fun _ => 0) = some (List.replicate 256 0) := by
  have h := sampleNTTGo_const_fill 0 (by decide) (by decide) 128 65536 0 [] (by omega) (by simp)
  rw [sample_ntt, h]
  norm_num [flatten_replicate_same]
  rfl

/-- The all-ones stream fills the sampler with alternating candidates
257 = ((1 & 0xf) << 8) | 1 and 16 = (1 << 4) | (1 >> 4). -/
theorem sample_ntt_one_stream :
    sample_ntt (fun _ => 1) = some ((List.replicate 128 [257, 16]).flatten) := by
  have h := sampleNTTGo_const_fill 1 (by decide) (by decide) 128 65536 0 [] (by omega)
    (by simp)
  rw [sample_ntt, h]
  norm_num

/-- A successful sampler run collects exactly 256 coefficients. -/
theorem sampleNTTGo_some_length : ∀ (fuel : ℕ) (s : ℕ → ℤ) (pos : ℕ) (res out : List ℤ),
    res.length ≤ 256 → sampleNTTGo s fuel pos res = some out → out.length = 256 := by
  intro fuel
  induction fuel with
  | zero =>
      intro s pos res out hle h
      rw [sampleNTTGo_zero_fuel] at h
      by_cases hfull : 256 ≤ res.length
      · rw [if_pos hfull] at h; cases h; omega
      · rw [if_neg hfull] at h; cases h
  | succ n ih =>
      intro s pos res out hle h
      rw [sampleNTTGo_succ] at h
      by_cases hfull : 256 ≤ res.length
      · rw [if_pos hfull] at h; cases h; omega
      · rw [if_neg hfull] at h
        set D1 := s (pos + 1) % 16 * 256 + s pos with hD1
        set D2 := s (pos + 2) * 16 + s (pos + 1) / 16 with hD2
        by_cases h1 : D1 < Q
        · simp only [if_pos h1] at h
          by_cases h2 : D2 < Q ∧ (res ++ [D1]).length < 256
          · rw [if_pos h2] at h
            have h2len := h2.2
            simp only [List.length_append, List.length_cons, List.length_nil] at h2len
            exact ih s (pos + 3) _ out (by simp; omega) h
          · rw [if_neg h2] at h
            exact ih s (pos + 3) _ out (by simp; omega) h
        · simp only [if_neg h1] at h
          by_cases h2 : D2 < Q ∧ res.length < 256
          · rw [if_pos h2] at h
            exact ih s (pos + 3) _ out (by simp; omega) h
          · rw [if_neg h2] at h
            exact ih s (pos + 3) _ out (by omega) h

/-- Every coefficient a successful run returns is in [0, Q), provided the
stream yields nonnegative bytes (each accepted candidate passed the
strict `< Q` test, and both candidate formulas are nonnegative). -/
theorem sampleNTTGo_some_range : ∀ (fuel : ℕ) (s : ℕ → ℤ) (pos : ℕ) (res out : List ℤ),
    (∀ p, 0 ≤ s p) → (∀ x ∈ res, 0 ≤ x ∧ x < Q) → sampleNTTGo s fuel pos res = some out →
    ∀ x ∈ out, 0 ≤ x ∧ x < Q := by
  intro fuel
  induction fuel with
  | zero =>
      intro s pos res out hs hres h
      rw [sampleNTTGo_zero_fuel] at h
      by_cases hfull : 256 ≤ res.length
      · rw [if_pos hfull] at h; cases h; exact hres
      · rw [if_neg hfull] at h; cases h
  | succ n ih =>
      intro s pos res out hs hres h
      rw [sampleNTTGo_succ] at h
      by_cases hfull : 256 ≤ res.length
      · rw [if_pos hfull] at h; cases h; exact hres
      · rw [if_neg hfull] at h
        set D1 := s (pos + 1) % 16 * 256 + s pos with hD1
        set D2 := s (pos + 2) * 16 + s (pos + 1) / 16 with hD2
        have hD1nn : 0 ≤ D1 := by
          have := Int.emod_nonneg (s (pos + 1)) (by norm_num : (16 : ℤ) ≠ 0)
          have := hs pos
          positivity
        have hD2nn : 0 ≤ D2 := by
          have := Int.ediv_nonneg (hs (pos + 1)) (by norm_num : (0 : ℤ) ≤ 16)
          have := hs (pos + 2)
          positivity
        by_cases h1 : D1 < Q
        · simp only [if_pos h1] at h
          by_cases h2 : D2 < Q ∧ (res ++ [D1]).length < 256
          · rw [if_pos h2] at h
            refine ih s (pos + 3) _ out hs ?_ h
            intro x hx
            simp only [List.mem_append, List.mem_singleton] at hx
            rcases hx with (hx | hx) | hx
            · exact hres x hx
            · exact hx ▸ ⟨hD1nn, h1⟩
            · exact hx ▸ ⟨hD2nn, h2.1⟩
          · rw [if_neg h2] at h
            refine ih s (pos + 3) _ out hs ?_ h
            intro x hx
            simp only [List.mem_append, List.mem_singleton] at hx
            rcases hx with hx | hx
            · exact hres x hx
            · exact hx ▸ ⟨hD1nn, h1⟩
        · simp only [if_neg h1] at h
          by_cases h2 : D2 < Q ∧ res.length < 256
          · rw [if_pos h2] at h
            refine ih s (pos + 3) _ out hs ?_ h
            intro x hx
            simp only [List.mem_append, List.mem_singleton] at hx
            rcases hx with hx | hx
            · exact hres x hx
            · exact hx ▸ ⟨hD2nn, h2.1⟩
          · rw [if_neg h2] at h
            exact ih s (pos + 3) _ out hs hres h

/-- Characterization of a successful sampler run: the result is the first
256 in-range candidates, in candidate order.  In particular, if the 256th
slot is filled by a chunk's first candidate, the chunk's second candidate
is dropped even when it is valid (it is cut off by the take). -/
theorem sampleNTTGo_some_eq : ∀ (fuel : ℕ) (s : ℕ → ℤ) (pos : ℕ) (res out : List ℤ),
    res.length ≤ 256 → sampleNTTGo s fuel pos res = some out →
    out = (res ++ (xofCandidates s pos fuel).filter (fun d => decide (d < Q))).take 256 := by
  intro fuel
  induction fuel with
  | zero =>
      intro s pos res out hle h
      rw [sampleNTTGo_zero_fuel] at h
      by_cases hfull : 256 ≤ res.length
      · rw [if_pos hfull] at h
        cases h
        rw [show xofCandidates s pos 0 = [] from rfl]
        simp only [List.filter_nil, List.append_nil]
        exact (List.take_of_length_le (by omega)).symm
      · rw [if_neg hfull] at h; cases h
  | succ n ih =>
      intro s pos res out hle h
      rw [sampleNTTGo_succ] at h
      by_cases hfull : 256 ≤ res.length
      · rw [if_pos hfull] at h
        cases h
        rw [List.take_append_eq_append_take, List.take_of_length_le (by omega),
          show res.length = 256 from by omega]
        simp
      · rw [if_neg hfull] at h
        set D1 := s (pos + 1) % 16 * 256 + s pos with hD1
        set D2 := s (pos + 2) * 16 + s (pos + 1) / 16 with hD2
        rw [show xofCandidates s pos (n + 1) = D1 :: D2 :: xofCandidates s (pos + 3) n from rfl]
        by_cases h1 : D1 < Q
        · simp only [if_pos h1] at h
          by_cases h2 : D2 < Q ∧ (res ++ [D1]).length < 256
          · rw [if_pos h2] at h
            have h2len := h2.2
            simp only [List.length_append, List.length_cons, List.length_nil] at h2len
            rw [ih s (pos + 3) _ out (by simp; omega) h]
            rw [List.filter_cons, List.filter_cons, if_pos (by simpa using h1),
              if_pos (by simpa using h2.1)]
            simp [List.append_assoc]
          · rw [if_neg h2] at h
            by_cases h2v : D2 < Q
            · have hfull1 : (res ++ [D1]).length = 256 := by
                simp only [List.length_append, List.length_cons, List.length_nil]
                simp only [not_and, not_lt] at h2
                have := h2 h2v
                simp only [List.length_append, List.length_cons, List.length_nil] at this
                omega
              have key : ∀ tail : List ℤ, ((res ++ [D1]) ++ tail).take 256 = res ++ [D1] := by
                intro tail
                rw [List.take_append_eq_append_take, List.take_of_length_le (le_of_eq hfull1),
                  hfull1]
                simp
              rw [ih s (pos + 3) _ out (by omega) h]
              rw [List.filter_cons, List.filter_cons, if_pos (by simpa using h1),
                if_pos (by simpa using h2v)]
              rw [key, show (res ++ D1 :: D2 :: List.filter (fun d => decide (d < Q))
                  (xofCandidates s (pos + 3) n)) = (res ++ [D1]) ++ (D2 :: List.filter
                  (fun d => decide (d < Q)) (xofCandidates s (pos + 3) n)) from by
                simp [List.append_assoc], key]
            · rw [ih s (pos + 3) _ out (by simp; omega) h]
              rw [List.filter_cons, List.filter_cons, if_pos (by simpa using h1),
                if_neg (by simpa using h2v)]
              simp [List.append_assoc]
        · simp only [if_neg h1] at h
          by_cases h2 : D2 < Q ∧ res.length < 256
          · rw [if_pos h2] at h
            rw [ih s (pos + 3) _ out (by simp; omega) h]
            rw [List.filter_cons, List.filter_cons, if_neg (by simpa using h1),
              if_pos (by simpa using h2.1)]
            simp [List.append_assoc]
          · rw [if_neg h2] at h
            have h2v : ¬ D2 < Q := fun hv => h2 ⟨hv, by omega⟩
            rw [ih s (pos + 3) _ out (by omega) h]
            rw [List.filter_cons, List.filter_cons, if_neg (by simpa using h1),
              if_neg (by simpa using h2v)]

/--
C7: whenever `sample_ntt` returns on a byte stream, it returns exactly
256 coefficients, each in [0, 3329); the result equals the first 256 of
the candidate sequence d1 = ((b & 0xf) << 8) | a, d2 = (c << 4) | (b >> 4)
(one chunk (a, b, c) read per iteration) filtered by the strict `< Q`
test.  The take-256 of the filtered candidate stream expresses the
discard rule: a valid second candidate of the chunk that fills the 256th
slot is cut off.
-/
theorem c7_sample_ntt_result (s : ℕ → ℤ) (out : List ℤ)
    (hbytes : ∀ p, 0 ≤ s p ∧ s p < 256)
    (hsome : sample_ntt s = some out) :
    out.length = 256 ∧ (∀ x ∈ out, 0 ≤ x ∧ x < Q) ∧
      out = ((xofCandidates s 0 65536).filter (fun d => decide (d < Q))).take 256 := by
  refine ⟨sampleNTTGo_some_length 65536 s 0 [] out (by simp) hsome,
    sampleNTTGo_some_range 65536 s 0 [] out (fun p => (hbytes p).1) (by simp) hsome, ?_⟩
  have := sampleNTTGo_some_eq 65536 s 0 [] out (by simp) hsome
  simpa using this

/-- Witness for C7: the zero stream.  Its candidates are all 0, so the
sampler returns 256 zeros. -/
theorem c7_sample_ntt_result_witness :
    (∀ p : ℕ, 0 ≤ (fun _ => (0 : ℤ)) p ∧ (fun _ => (0 : ℤ)) p < 256) ∧
      sample_ntt (fun _ => 0) = some (List.replicate 256 0) ∧
      ((List.replicate 256 (0 : ℤ)).length = 256 ∧
        (∀ x ∈ List.replicate 256 (0 : ℤ), 0 ≤ x ∧ x < Q) ∧
        List.replicate 256 (0 : ℤ) =
          ((xofCandidates (fun _ => 0) 0 65536).filter (fun d => decide (d < Q))).take 256) :=
  ⟨fun p => by norm_num, sample_ntt_zero_stream,
    c7_sample_ntt_result (fun _ => 0) (List.replicate 256 0) (fun p => by norm_num)
      sample_ntt_zero_stream⟩

/-- If the candidate stream offers at least 256 in-range values within
the allotted chunks, the sampler terminates with a `some` result. -/
theorem sampleNTTGo_supply : ∀ (fuel : ℕ) (s : ℕ → ℤ) (pos : ℕ) (res : List ℤ),
    256 ≤ res.length + ((xofCandidates s pos fuel).filter (fun d => decide (d < Q))).length →
    ∃ out, sampleNTTGo s fuel pos res = some out := by
  intro fuel
  induction fuel with
  | zero =>
      intro s pos res hsup
      rw [show xofCandidates s pos 0 = [] from rfl] at hsup
      simp only [List.filter_nil, List.length_nil, Nat.add_zero] at hsup
      rw [sampleNTTGo_zero_fuel, if_pos hsup]
      exact ⟨res, rfl⟩
  | succ n ih =>
      intro s pos res hsup
      rw [sampleNTTGo_succ]
      by_cases hfull : 256 ≤ res.length
      · rw [if_pos hfull]; exact ⟨res, rfl⟩
      · rw [if_neg hfull]
        set D1 := s (pos + 1) % 16 * 256 + s pos with hD1
        set D2 := s (pos + 2) * 16 + s (pos + 1) / 16 with hD2
        rw [show xofCandidates s pos (n + 1) = D1 :: D2 :: xofCandidates s (pos + 3) n from rfl,
          List.filter_cons, List.filter_cons] at hsup
        by_cases h1 : D1 < Q
        · rw [if_pos (by simpa using h1)] at hsup
          simp only [if_pos h1]
          by_cases h2 : D2 < Q ∧ (res ++ [D1]).length < 256
          · rw [if_pos h2]
            refine ih s (pos + 3) _ ?_
            rw [if_pos (by simpa using h2.1)] at hsup
            simp only [List.length_cons, List.length_append, List.length_nil] at hsup ⊢
            omega
          · rw [if_neg h2]
            refine ih s (pos + 3) _ ?_
            by_cases h2v : D2 < Q
            · have : (res ++ [D1]).length = 256 := by
                simp only [not_and, not_lt] at h2
                have := h2 h2v
                simp only [List.length_append, List.length_cons, List.length_nil] at this ⊢
                omega
              omega
            · rw [if_neg (by simpa using h2v)] at hsup
              simp only [List.length_cons, List.length_append, List.length_nil] at hsup ⊢
              omega
        · rw [if_neg (by simpa using h1)] at hsup
          simp only [if_neg h1]
          by_cases h2 : D2 < Q ∧ res.length < 256
          · rw [if_pos h2]
            refine ih s (pos + 3) _ ?_
            rw [if_pos (by simpa using h2.1)] at hsup
            simp only [List.length_cons, List.length_append, List.length_nil] at hsup ⊢
            omega
          · rw [if_neg h2]
            refine ih s (pos + 3) _ ?_
            have h2v : ¬ D2 < Q := fun hv => h2 ⟨hv, by omega⟩
            rw [if_neg (by simpa using h2v)] at hsup
            omega

/-- Unfolding of the `ShakeStream.read` loop body. -/
theorem readGo_succ (fuel : ℕ) (s : ShakeStream) (n : ℕ) :
    ShakeStream.readGo (fuel + 1) s n =
      if s.buf.length < s.offset + n then
        ShakeStream.readGo fuel ⟨s.digest, s.digest (s.buf.length * 2), s.offset⟩ n
      else some ((s.buf.drop s.offset).take n, ⟨s.digest, s.buf, s.offset + n⟩) := rfl

/-- With a digest function that honours requested lengths, fuel
sufficient for the doubling to cover offset + n makes `read` return. -/
theorem readGo_isSome (dfn : ℕ → List ℤ) (hd : ∀ m, (dfn m).length = m) :
    ∀ (fuel : ℕ) (s : ShakeStream) (n : ℕ), s.digest = dfn → 1 ≤ s.buf.length →
      s.offset + n ≤ s.buf.length * 2 ^ fuel →
      ∃ r, ShakeStream.readGo (fuel + 1) s n = some r := by
  intro fuel
  induction fuel with
  | zero =>
      intro s n hdig hbuf hle
      rw [readGo_succ, if_neg (by simpa using hle)]
      exact ⟨_, rfl⟩
  | succ m ih =>
      intro s n hdig hbuf hle
      rw [readGo_succ]
      by_cases hc : s.buf.length < s.offset + n
      · rw [if_pos hc]
        refine ih ⟨s.digest, s.digest (s.buf.length * 2), s.offset⟩ n hdig ?_ ?_
        · simp only [hdig, hd]
          omega
        · simp only [hdig, hd]
          calc s.offset + n ≤ s.buf.length * 2 ^ (m + 1) := hle
            _ = s.buf.length * 2 * 2 ^ m := by ring
      · rw [if_neg hc]
        exact ⟨_, rfl⟩

/-- The doubling loop of `ShakeStream.read` terminates from any state
with a nonempty buffer (in particular from `ShakeStream.init`, whose
buffer is the 32-byte initial squeeze). -/
theorem readGo_terminates (dfn : ℕ → List ℤ) (hd : ∀ m, (dfn m).length = m)
    (s : ShakeStream) (n : ℕ) (hdig : s.digest = dfn) (hbuf : 1 ≤ s.buf.length) :
    ∃ fuel r, ShakeStream.readGo fuel s n = some r := by
  have hbound : s.offset + n ≤ s.buf.length * 2 ^ (s.offset + n) := by
    calc s.offset + n ≤ 2 ^ (s.offset + n) := (Nat.lt_two_pow _).le
      _ = 1 * 2 ^ (s.offset + n) := (one_mul _).symm
      _ ≤ s.buf.length * 2 ^ (s.offset + n) := Nat.mul_le_mul_right _ hbuf
  obtain ⟨r, hr⟩ := readGo_isSome dfn hd (s.offset + n) s n hdig hbuf hbound
  exact ⟨s.offset + n + 1, r, hr⟩

/-- Candidates of a constant stream: the same pair every chunk. -/
theorem xofCandidates_const (cv : ℤ) : ∀ (nc pos : ℕ),
    xofCandidates (fun _ => cv) pos nc =
      (List.replicate nc [cv % 16 * 256 + cv, cv * 16 + cv / 16]).flatten := by
  intro nc
  induction nc with
  | zero => intro pos; rfl
  | succ k ih =>
      intro pos
      rw [show xofCandidates (fun _ => cv) pos (k + 1) =
        (cv % 16 * 256 + cv) :: ((cv * 16 + cv / 16) :: xofCandidates (fun _ => cv) (pos + 3) k)
        from rfl, ih (pos + 3), flatten_replicate_succ]
      rfl

/--
C9 (amended): the two loops do terminate in the circumstances the code
actually runs them in, but not unconditionally.  (a) The buffer-doubling
loop of `ShakeStream.read` terminates for every requested length and
every start state with a nonempty buffer, provided the digest function
returns outputs of the requested length (as a SHAKE squeeze does).
(b) `sample_ntt`'s rejection loop terminates whenever the byte stream
offers at least 256 in-range candidates within the allotted chunks; it
does not terminate on a stream that never yields an in-range candidate
(see the counterexample on the all-0xFF stream).
-/
theorem c9_loops_terminate :
    (∀ (dfn : ℕ → List ℤ) (s : ShakeStream) (n : ℕ),
        (∀ m, (dfn m).length = m) → s.digest = dfn → 1 ≤ s.buf.length →
        ∃ fuel r, ShakeStream.readGo fuel s n = some r) ∧
    (∀ (s : ℕ → ℤ) (fuel pos : ℕ),
        256 ≤ ((xofCandidates s pos fuel).filter (fun d => decide (d < Q))).length →
        ∃ out, sampleNTTGo s fuel pos [] = some out) :=
  ⟨fun dfn s n hd hdig hbuf => readGo_terminates dfn hd s n hdig hbuf,
   fun s fuel pos hsup => sampleNTTGo_supply fuel s pos [] (by simpa using hsup)⟩

/-- Counterexample for C9 as stated: on the all-0xFF stream every
candidate is 4095 ≥ Q, so the rejection loop never terminates — no
amount of fuel produces a result. -/
theorem c9_counterexample :
    ¬ ∃ (fuel : ℕ) (out : List ℤ), sampleNTTGo (fun _ => 255) fuel 0 [] = some out := by
  rintro ⟨fuel, out, h⟩
  rw [sampleNTTGo_stuck 255 (by decide) (by decide) fuel 0] at h
  cases h

/-- Witness for C9 on concrete inputs: the zero digest function and the
zero byte stream. -/
theorem c9_loops_terminate_witness :
    (∃ fuel r, ShakeStream.readGo fuel (ShakeStream.init (fun m => List.replicate m 0)) 3
      = some r) ∧
    (256 ≤ ((xofCandidates (fun _ => (0 : ℤ)) 0 128).filter
        (fun d => decide (d < Q))).length ∧
      ∃ out, sampleNTTGo (fun _ => (0 : ℤ)) 128 0 [] = some out) := by
  have hsup : 256 ≤ ((xofCandidates (fun _ => (0 : ℤ)) 0 128).filter
      (fun d => decide (d < Q))).length := by
    rw [xofCandidates_const 0 128 0]
    decide
  exact ⟨c9_loops_terminate.1 (fun m => List.replicate m 0)
      (ShakeStream.init (fun m => List.replicate m 0)) 3 (fun m => by simp) rfl
      (by simp [ShakeStream.init]),
    hsup, c9_loops_terminate.2 (fun _ => 0) 128 0 hsup⟩

/-- Whenever the A-hat construction succeeds, its entry at row i,
column j is the value sampled from the XOF stream seeded with
rho ‖ byte(i) ‖ byte(j) — row byte appended first. -/
theorem buildAhat_entry (C : HashModel) (rho : List ℤ) (A : List (List (List ℤ)))
    (hA : buildAhat C rho = some A) (i j : ℕ) (hi : i < 3) (hj : j < 3) :
    sample_ntt (C.shake128 (rho ++ [(i : ℤ), (j : ℤ)])) = some ((A.getD i []).getD j []) := by
  simp only [buildAhat, Option.bind_eq_bind, Option.bind_eq_some, Option.some.injEq,
    Option.pure_def] at hA
  obtain ⟨a00, h00, a01, h01, a02, h02, a10, h10, a11, h11, a12, h12, a20, h20, a21, h21,
    a22, h22, hAeq⟩ := hA
  subst hAeq
  interval_cases i <;> interval_cases j <;>
    first
    | exact h00 | exact h01 | exact h02
    | exact h10 | exact h11 | exact h12
    | exact h20 | exact h21 | exact h22

/--
C3 (amended): in the A-hat construction shared by K-PKE keygen and
encrypt, the entry at row i, column j is obtained by running `sample_ntt`
on the XOF stream seeded with rho ‖ byte(i) ‖ byte(j): the ROW index i is
the first byte appended after rho and the column index j is the second —
the opposite order from the claim (which follows FIPS 203's final
ρ ‖ j ‖ i convention; this implementation follows the initial public
draft's ρ ‖ i ‖ j order).
-/
theorem c3_ahat_xof_byte_order (C : HashModel) (rho : List ℤ) (A : List (List (List ℤ)))
    (hA : buildAhat C rho = some A) (i j : ℕ) (hi : i < 3) (hj : j < 3) :
    mlkem_xof C rho (i : ℤ) (j : ℤ) = C.shake128 (rho ++ [(i : ℤ), (j : ℤ)]) ∧
      sample_ntt (mlkem_xof C rho (i : ℤ) (j : ℤ)) = some ((A.getD i []).getD j []) :=
  ⟨rfl, buildAhat_entry C rho A hA i j hi hj⟩

/-- Evaluation of the A-hat construction on the separating model. -/
theorem c3Model_buildAhat :
    buildAhat c3Model [] = some [[List.replicate 256 0,
      (List.replicate 128 [257, 16]).flatten, List.replicate 256 0],
    [List.replicate 256 0, List.replicate 256 0, List.replicate 256 0],
    [List.replicate 256 0, List.replicate 256 0, List.replicate 256 0]] := by
  simp only [buildAhat,
    show mlkem_xof c3Model [] 0 0 = (fun _ => (0 : ℤ)) from rfl,
    show mlkem_xof c3Model [] 0 1 = (fun _ => (1 : ℤ)) from rfl,
    show mlkem_xof c3Model [] 0 2 = (fun _ => (0 : ℤ)) from rfl,
    show mlkem_xof c3Model [] 1 0 = (fun _ => (0 : ℤ)) from rfl,
    show mlkem_xof c3Model [] 1 1 = (fun _ => (0 : ℤ)) from rfl,
    show mlkem_xof c3Model [] 1 2 = (fun _ => (0 : ℤ)) from rfl,
    show mlkem_xof c3Model [] 2 0 = (fun _ => (0 : ℤ)) from rfl,
    show mlkem_xof c3Model [] 2 1 = (fun _ => (0 : ℤ)) from rfl,
    show mlkem_xof c3Model [] 2 2 = (fun _ => (0 : ℤ)) from rfl,
    sample_ntt_zero_stream, sample_ntt_one_stream, Option.bind_eq_bind, Option.some_bind]
  rfl

/-- Witness for C3 on a concrete hash model (the separating model): entry
(0, 1) is sampled from the stream seeded with data [0, 1]. -/
theorem c3_ahat_xof_byte_order_witness :
    ∃ A, buildAhat c3Model [] = some A ∧ (0 : ℕ) < 3 ∧ (1 : ℕ) < 3 ∧
      (mlkem_xof c3Model [] ((0 : ℕ) : ℤ) ((1 : ℕ) : ℤ) =
          c3Model.shake128 ([] ++ [((0 : ℕ) : ℤ), ((1 : ℕ) : ℤ)]) ∧
        sample_ntt (mlkem_xof c3Model [] ((0 : ℕ) : ℤ) ((1 : ℕ) : ℤ)) =
          some ((([[List.replicate 256 0, (List.replicate 128 [257, 16]).flatten,
            List.replicate 256 (0 : ℤ)],
            [List.replicate 256 0, List.replicate 256 0, List.replicate 256 0],
            [List.replicate 256 0, List.replicate 256 0,
              List.replicate 256 0]].getD 0 []).getD 1 []))) :=
  ⟨_, c3Model_buildAhat, by norm_num, by norm_num,
    c3_ahat_xof_byte_order c3Model [] _ c3Model_buildAhat 0 1 (by norm_num) (by norm_num)⟩

/-- Counterexample for C3 as stated: on the separating model, the entry
at row 0, column 1 is NOT the value sampled from the stream seeded with
rho ‖ byte(col) ‖ byte(row) = [] ‖ 1 ‖ 0 (that stream is all zeros and
samples to 256 zeros, while the entry alternates 257, 16). -/
theorem c3_counterexample :
    ¬ (∀ (A : List (List (List ℤ))), buildAhat c3Model [] = some A →
        ∀ (i j : ℕ), i < 3 → j < 3 →
          sample_ntt (c3Model.shake128 ([] ++ [(j : ℤ), (i : ℤ)])) =
            some ((A.getD i []).getD j [])) := by
  intro hclaim
  have h01 := hclaim _ c3Model_buildAhat 0 1 (by norm_num) (by norm_num)
  rw [show c3Model.shake128 ([] ++ [((1 : ℕ) : ℤ), ((0 : ℕ) : ℤ)]) = (fun _ => (0 : ℤ))
    from rfl, sample_ntt_zero_stream] at h01
  simp only [Option.some.injEq] at h01
  have : List.replicate 256 (0 : ℤ) ≠ (List.replicate 128 [257, 16]).flatten := by decide
  exact this (by simpa using h01)

/-- A block pass preserves the length when the input splits exactly into
nb blocks of size 2*len. -/
theorem nttBlocks_fst_length : ∀ (nb len k : ℕ) (f : List ℤ), f.length = 2 * len * nb →
    (nttBlocks len k nb f).1.length = f.length := by
  intro nb
  induction nb with
  | zero => intro len k f h; rfl
  | succ n ih =>
      intro len k f h
      have hsplit : f.length = 2 * (len * n) + 2 * len := by rw [h]; ring
      have hdrop : (f.drop (2 * len)).length = 2 * len * n := by
        simp only [List.length_drop]
        have : 2 * len * n = 2 * (len * n) := by ring
        omega
      simp only [nttBlocks, List.length_append, List.length_zipWith, List.length_take,
        List.length_drop]
      rw [ih len (k + 1) (f.drop (2 * len)) hdrop]
      simp only [List.length_drop]
      omega

/-- Same for the inverse butterfly blocks. -/
theorem nttInvBlocks_fst_length : ∀ (nb len k : ℕ) (f : List ℤ), f.length = 2 * len * nb →
    (nttInvBlocks len k nb f).1.length = f.length := by
  intro nb
  induction nb with
  | zero => intro len k f h; rfl
  | succ n ih =>
      intro len k f h
      have hsplit : f.length = 2 * (len * n) + 2 * len := by rw [h]; ring
      have hdrop : (f.drop (2 * len)).length = 2 * len * n := by
        simp only [List.length_drop]
        have : 2 * len * n = 2 * (len * n) := by ring
        omega
      simp only [nttInvBlocks, List.length_append, List.length_zipWith, List.length_take,
        List.length_drop]
      rw [ih len (k - 1) (f.drop (2 * len)) hdrop]
      simp only [List.length_drop]
      omega

/-- The seven forward layers preserve length 256. -/
theorem nttLayers_fst_length : ∀ (l : ℕ), l ≤ 7 → ∀ (k : ℕ) (f : List ℤ), f.length = 256 →
    ((nttLayers l k f).1).length = 256 := by
  intro l
  induction l with
  | zero => intro _ k f h; exact h
  | succ n ih =>
      intro hl k f h
      have hn : n ≤ 6 := by omega
      have hb : f.length = 2 * 2 ^ (n + 1) * (128 / 2 ^ (n + 1)) := by
        rw [h]; interval_cases n <;> norm_num
      simp only [nttLayers]
      exact ih (by omega) _ _ (by rw [nttBlocks_fst_length _ _ _ _ hb, h])

/-- The seven inverse layers preserve length 256. -/
theorem nttInvLayers_fst_length : ∀ (l : ℕ), l ≤ 7 → ∀ (k : ℕ) (f : List ℤ), f.length = 256 →
    ((nttInvLayers l k f).1).length = 256 := by
  intro l
  induction l with
  | zero => intro _ k f h; exact h
  | succ n ih =>
      intro hl k f h
      have hn : n ≤ 6 := by omega
      have hb : f.length = 2 * 2 ^ (8 - (n + 1)) * (128 / 2 ^ (8 - (n + 1))) := by
        rw [h]; interval_cases n <;> norm_num
      simp only [nttInvLayers]
      exact ih (by omega) _ _ (by rw [nttInvBlocks_fst_length _ _ _ _ hb, h])

/-- The forward NTT of a 256-coefficient polynomial has 256 coefficients. -/
theorem ntt_length (f : List ℤ) (h : f.length = 256) : (ntt f).length = 256 :=
  nttLayers_fst_length 7 (by omega) 1 f h

/-- The inverse NTT of a 256-coefficient polynomial has 256 coefficients. -/
theorem ntt_inv_length (f : List ℤ) (h : f.length = 256) : (ntt_inv f).length = 256 := by
  rw [ntt_inv, List.length_map]
  exact nttInvLayers_fst_length 7 (by omega) 127 f h

/-- The pointwise product worker keeps the (even) common length. -/
theorem nttMulGo_length : ∀ (n : ℕ) (a b : List ℤ) (i : ℕ),
    a.length = 2 * n → b.length = 2 * n → (nttMulGo i a b).length = 2 * n := by
  intro n
  induction n with
  | zero =>
      intro a b i ha hb
      rw [List.length_eq_zero] at ha hb
      subst ha; subst hb; rfl
  | succ m ih =>
      intro a b i ha hb
      match a, b with
      | a0 :: a1 :: a2, b0 :: b1 :: b2 =>
          simp only [nttMulGo, List.length_cons]
          rw [ih a2 b2 (i + 1) (by simp at ha; omega) (by simp at hb; omega)]
          omega

/-- `ntt_mul` on 256-coefficient inputs returns 256 coefficients. -/
theorem ntt_mul_length (a b : List ℤ) (ha : a.length = 256) (hb : b.length = 256) :
    (ntt_mul a b).length = 256 :=
  nttMulGo_length 128 a b 0 (by omega) (by omega)

/-- `poly256_add` of equal-length lists keeps the length. -/
theorem poly256_add_length (a b : List ℤ) (h : a.length = b.length) :
    (poly256_add a b).length = a.length := by
  simp [poly256_add, h]

/-- `poly256_sub` of equal-length lists keeps the length. -/
theorem poly256_sub_length (a b : List ℤ) (h : a.length = b.length) :
    (poly256_sub a b).length = a.length := by
  simp [poly256_sub, h]

/-- `bits_to_bytes` of fewer than 8 bits is empty (the catchall branch). -/
theorem bits_to_bytes_short : ∀ (l : List ℤ), l.length < 8 → bits_to_bytes l = [] := by
  intro l h
  match l, h with
  | [], _ => rfl
  | [_], _ => rfl
  | [_, _], _ => rfl
  | [_, _, _], _ => rfl
  | [_, _, _, _], _ => rfl
  | [_, _, _, _, _], _ => rfl
  | [_, _, _, _, _, _], _ => rfl
  | [_, _, _, _, _, _, _], _ => rfl
  | _ :: _ :: _ :: _ :: _ :: _ :: _ :: _ :: _, h => (simp at h; omega)

/-- `bits_to_bytes` packs 8 bits per byte, flooring a ragged tail. -/
theorem bits_to_bytes_length : ∀ (n : ℕ) (l : List ℤ), l.length ≤ n →
    (bits_to_bytes l).length = l.length / 8 := by
  intro n
  induction n with
  | zero =>
      intro l hl
      rw [bits_to_bytes_short l (by omega)]
      simp only [List.length_nil]
      omega
  | succ n ih =>
      intro l hl
      match l with
      | [] => rfl
      | [_] => rw [bits_to_bytes_short _ (by simp)]; simp
      | [_, _] => rw [bits_to_bytes_short _ (by simp)]; simp
      | [_, _, _] => rw [bits_to_bytes_short _ (by simp)]; simp
      | [_, _, _, _] => rw [bits_to_bytes_short _ (by simp)]; simp
      | [_, _, _, _, _] => rw [bits_to_bytes_short _ (by simp)]; simp
      | [_, _, _, _, _, _] => rw [bits_to_bytes_short _ (by simp)]; simp
      | [_, _, _, _, _, _, _] => rw [bits_to_bytes_short _ (by simp)]; simp
      | b0 :: b1 :: b2 :: b3 :: b4 :: b5 :: b6 :: b7 :: rest =>
          rw [show bits_to_bytes (b0 :: b1 :: b2 :: b3 :: b4 :: b5 :: b6 :: b7 :: rest) =
            (b0 + b1 * 2 + b2 * 4 + b3 * 8 + b4 * 16 + b5 * 32 + b6 * 64 + b7 * 128) ::
              bits_to_bytes rest from rfl]
          simp only [List.length_cons]
          rw [ih rest (by simp only [List.length_cons] at hl; omega)]
          omega

/-- The bit list fed to `bits_to_bytes` by `byte_encode` has d bits per
coefficient. -/
theorem byte_encode_bits_length (d : ℕ) : ∀ (f : List ℤ),
    (f.foldr (fun a acc => ((List.range d).map (fun i => a / 2 ^ i % 2)) ++ acc) []).length =
      d * f.length := by
  intro f
  induction f with
  | nil => simp
  | cons x xs ih =>
      simp only [List.foldr_cons, List.length_append, List.length_map, List.length_range, ih,
        List.length_cons]
      ring

/-- `byte_encode` produces d * len / 8 bytes (32 * d on length-256 input). -/
theorem byte_encode_length (d : ℕ) (f : List ℤ) :
    (byte_encode d f).length = d * f.length / 8 := by
  rw [byte_encode, bits_to_bytes_length _ _ (le_refl _), byte_encode_bits_length]

/-- `byte_decode` always yields 256 coefficients. -/
theorem byte_decode_length (d : ℕ) (data : List ℤ) : (byte_decode d data).length = 256 := by
  simp [byte_decode]

/-- `sample_poly_cbd` always yields 256 coefficients. -/
theorem sample_poly_cbd_length (eta : ℕ) (data : List ℤ) :
    (sample_poly_cbd eta data).length = 256 := by
  simp [sample_poly_cbd]

/-- `compress` keeps the length. -/
theorem compress_length (d : ℕ) (x : List ℤ) : (compress d x).length = x.length := by
  simp [compress]

/-- `decompress` keeps the length. -/
theorem decompress_length (d : ℕ) (x : List ℤ) : (decompress d x).length = x.length := by
  simp [decompress]

/-- Entries of a successfully built A-hat are 256-coefficient lists. -/
theorem buildAhat_entry_length (C : HashModel) (rho : List ℤ) (A : List (List (List ℤ)))
    (hA : buildAhat C rho = some A) (i j : ℕ) (hi : i < 3) (hj : j < 3) :
    ((A.getD i []).getD j []).length = 256 :=
  sampleNTTGo_some_length 65536 _ 0 [] _ (by simp) (buildAhat_entry C rho A hA i j hi hj)

/-- NTT of the zero polynomial. -/
theorem ntt_zero : ntt (List.replicate 256 0) = List.replicate 256 0 := by decide

/-- Inverse NTT of the zero polynomial. -/
theorem ntt_inv_zero : ntt_inv (List.replicate 256 0) = List.replicate 256 0 := by decide

/-- Pointwise NTT product with a zero left factor is zero (used with the
zero secret polynomial against arbitrary right factors). -/
theorem nttMulGo_zero_left : ∀ (n : ℕ) (b : List ℤ) (i : ℕ), b.length = 2 * n →
    nttMulGo i (List.replicate (2 * n) 0) b = List.replicate (2 * n) 0 := by
  intro n
  induction n with
  | zero =>
      intro b i hb
      rw [List.length_eq_zero] at hb
      subst hb
      rfl
  | succ m ih =>
      intro b i hb
      match b with
      | b0 :: b1 :: b2 =>
          rw [show 2 * (m + 1) = 2 * m + 1 + 1 from by ring, List.replicate_succ,
            List.replicate_succ]
          rw [show nttMulGo i (0 :: 0 :: List.replicate (2 * m) 0) (b0 :: b1 :: b2) =
            (0 * b0 + 0 * b1 * GAMMA.getD i 0) % Q ::
              ((0 * b1 + 0 * b0) % Q :: nttMulGo (i + 1) (List.replicate (2 * m) 0) b2)
            from rfl]
          rw [ih b2 (i + 1) (by simp only [List.length_cons] at hb; omega)]
          norm_num

/-- `ntt_mul` with the zero polynomial on the left is zero. -/
theorem ntt_mul_zero_left (b : List ℤ) (hb : b.length = 256) :
    ntt_mul (List.replicate 256 0) b = List.replicate 256 0 := by
  have h := nttMulGo_zero_left 128 b 0 (by omega)
  norm_num at h
  exact h

/-- Elementwise add of uniform lists. -/
theorem poly256_add_replicate (n : ℕ) (a b : ℤ) :
    poly256_add (List.replicate n a) (List.replicate n b) =
      List.replicate n ((a + b) % Q) := by
  simp [poly256_add, List.zipWith_replicate]

/-- Elementwise subtract of uniform lists. -/
theorem poly256_sub_replicate (n : ℕ) (a b : ℤ) :
    poly256_sub (List.replicate n a) (List.replicate n b) =
      List.replicate n ((a - b) % Q) := by
  simp [poly256_sub, List.zipWith_replicate]

/-- `compress` on a uniform list. -/
theorem compress_replicate (d : ℕ) (n : ℕ) (a : ℤ) :
    compress d (List.replicate n a) =
      List.replicate n ((a * 2 ^ d + Q / 2) / Q % 2 ^ d) := by
  simp [compress, List.map_replicate]

/-- `decompress` on a uniform list. -/
theorem decompress_replicate (d : ℕ) (n : ℕ) (a : ℤ) :
    decompress d (List.replicate n a) =
      List.replicate n ((a * Q + 2 ^ (d - 1)) / 2 ^ d % Q) := by
  simp [decompress, List.map_replicate]

/-- Flatten of replicated singletons. -/
theorem flatten_replicate_singleton (m : ℕ) (a : ℤ) :
    (List.replicate m [a]).flatten = List.replicate m a := by
  induction m with
  | zero => rfl
  | succ k ih => rw [List.replicate_succ, List.replicate_succ, List.flatten_cons, ih]; rfl

/-- `getD` on a replicated list, with matching default. -/
theorem getD_replicate (a : ℤ) (n i : ℕ) :
    (List.replicate n a).getD i 0 = if i < n then a else 0 := by
  by_cases h : i < n
  · rw [if_pos h, List.getD_eq_getElem _ _ (by simpa using h), List.getElem_replicate]
  · rw [if_neg h, List.getD_eq_default _ _ (by simpa using h)]

/-- `getD` on a flattened replicated 8-bit block is periodic with
period 8. -/
theorem getD_flatten_replicate (blk : List ℤ) (h8 : blk.length = 8) : ∀ (n i : ℕ),
    ((List.replicate n blk).flatten).getD i 0 =
      if i < 8 * n then blk.getD (i % 8) 0 else 0 := by
  intro n
  induction n with
  | zero => intro i; simp
  | succ m ih =>
      intro i
      rw [flatten_replicate_succ]
      by_cases hlt : i < 8
      · rw [List.getD_append _ _ _ _ (by omega), if_pos (by omega), Nat.mod_eq_of_lt hlt]
      · rw [List.getD_append_right _ _ _ _ (by rw [h8]; omega), h8, ih (i - 8)]
        have hmod : (i - 8) % 8 = i % 8 := by omega
        rw [hmod]
        by_cases hin : i < 8 * (m + 1)
        · rw [if_pos (by omega), if_pos hin]
        · rw [if_neg (by omega), if_neg hin]

/-- `bytes_to_bits` of a replicated byte is the flattened replication of
that byte's 8-bit block. -/
theorem bytes_to_bits_replicate (w : ℤ) : ∀ (n : ℕ),
    bytes_to_bits (List.replicate n w) =
      (List.replicate n ((List.range 8).map (fun i => w / 2 ^ i % 2))).flatten := by
  intro n
  induction n with
  | zero => rfl
  | succ m ih =>
      rw [List.replicate_succ, flatten_replicate_succ, ← ih]
      rfl

/-- Replication by a product flattens in stages. -/
theorem flatten_replicate_mul (a b : ℕ) (blk : List ℤ) :
    (List.replicate (a * b) blk).flatten =
      (List.replicate a ((List.replicate b blk).flatten)).flatten := by
  induction a with
  | zero => simp
  | succ m ih =>
      rw [show (m + 1) * b = b + m * b from by ring, List.replicate_add,
        List.flatten_append, ih, flatten_replicate_succ]

/-- `bits_to_bytes` commutes with flattened replication of a block whose
byte image is known. -/
theorem bits_to_bytes_flatten (blk bs : List ℤ)
    (hstep : ∀ rest, bits_to_bytes (blk ++ rest) = bs ++ bits_to_bytes rest) :
    ∀ n, bits_to_bytes ((List.replicate n blk).flatten) =
      (List.replicate n bs).flatten := by
  intro n
  induction n with
  | zero => rfl
  | succ m ih => rw [flatten_replicate_succ, hstep, ih, flatten_replicate_succ]

/-- Packing 8m zero bits gives m zero bytes. -/
theorem bits_to_bytes_rep_zero (m : ℕ) :
    bits_to_bytes (List.replicate (8 * m) 0) = List.replicate m 0 := by
  rw [show (8 : ℕ) * m = m * 8 from by ring, ← flatten_replicate_same m 8 (0 : ℤ),
    bits_to_bytes_flatten (List.replicate 8 0) [0] (fun rest => rfl) m,
    flatten_replicate_singleton]

/-- The d bits of the zero coefficient are all zero. -/
theorem bit_block_zero (d : ℕ) :
    (List.range d).map (fun i => (0 : ℤ) / 2 ^ i % 2) = List.replicate d 0 := by
  refine List.eq_replicate_iff.mpr ⟨by simp, ?_⟩
  intro b hb
  simp only [List.mem_map, List.mem_range] at hb
  obtain ⟨i, hi, rfl⟩ := hb
  simp

/-- The bit list built by `byte_encode` on a uniform polynomial. -/
theorem byte_encode_bits_replicate (d : ℕ) (v : ℤ) : ∀ (n : ℕ),
    (List.replicate n v).foldr
        (fun a acc => ((List.range d).map (fun i => a / 2 ^ i % 2)) ++ acc) [] =
      (List.replicate n ((List.range d).map (fun i => v / 2 ^ i % 2))).flatten := by
  intro n
  induction n with
  | zero => rfl
  | succ m ih => rw [List.replicate_succ, List.foldr_cons, ih, flatten_replicate_succ]

/-- Encoding the zero polynomial at any width gives zero bytes. -/
theorem byte_encode_zero (d : ℕ) :
    byte_encode d (List.replicate 256 0) = List.replicate (32 * d) 0 := by
  rw [byte_encode, byte_encode_bits_replicate, bit_block_zero, flatten_replicate_same,
    show (256 : ℕ) * d = 8 * (32 * d) from by ring, bits_to_bytes_rep_zero]

/-- 4-bit encode of the constant-8 polynomial: nibbles 1000 1000, byte 136. -/
theorem byte_encode_4_eight : byte_encode 4 (List.replicate 256 8) =
    List.replicate 128 136 := by
  rw [byte_encode, byte_encode_bits_replicate,
    show (List.range 4).map (fun i => (8 : ℤ) / 2 ^ i % 2) = [0, 0, 0, 1] from by decide,
    show (256 : ℕ) = 128 * 2 from by norm_num, flatten_replicate_mul,
    show (List.replicate 2 [(0 : ℤ), 0, 0, 1]).flatten = [0, 0, 0, 1, 0, 0, 0, 1] from rfl,
    bits_to_bytes_flatten [(0 : ℤ), 0, 0, 1, 0, 0, 0, 1] [136] (fun rest => rfl),
    flatten_replicate_singleton]

/-- 1-bit encode of the all-ones polynomial: bytes 255. -/
theorem byte_encode_1_one : byte_encode 1 (List.replicate 256 1) =
    List.replicate 32 255 := by
  rw [byte_encode, byte_encode_bits_replicate,
    show (List.range 1).map (fun i => (1 : ℤ) / 2 ^ i % 2) = [1] from by decide,
    show (256 : ℕ) = 32 * 8 from by norm_num, flatten_replicate_mul,
    show (List.replicate 8 [(1 : ℤ)]).flatten = List.replicate 8 1 from by decide,
    bits_to_bytes_flatten (List.replicate 8 (1 : ℤ)) [255] (fun rest => rfl),
    flatten_replicate_singleton]

/-- Decoding zero bytes at any width gives the zero polynomial. -/
theorem byte_decode_zero (d n : ℕ) :
    byte_decode d (List.replicate n 0) = List.replicate 256 0 := by
  rw [byte_decode, bytes_to_bits_replicate, bit_block_zero, flatten_replicate_same]
  refine List.eq_replicate_iff.mpr ⟨by simp, ?_⟩
  intro b hb
  simp only [List.mem_map, List.mem_range] at hb
  obtain ⟨i, hi, rfl⟩ := hb
  have hg : ∀ j, (List.replicate (n * 8) (0 : ℤ)).getD j 0 = 0 := by
    intro j
    rw [getD_replicate]
    split <;> rfl
  refine List.sum_eq_zero ?_
  intro x hx
  simp only [List.mem_map, List.mem_range] at hx
  obtain ⟨j, hj, rfl⟩ := hx
  rw [hg]
  ring

/-- 4-bit decode of bytes 136 = 1000 1000: both nibbles decode to 8. -/
theorem byte_decode_4_136 : byte_decode 4 (List.replicate 128 136) =
    List.replicate 256 8 := by
  rw [byte_decode, bytes_to_bits_replicate,
    show (List.range 8).map (fun i => (136 : ℤ) / 2 ^ i % 2) = [0, 0, 0, 1, 0, 0, 0, 1]
      from by decide]
  refine List.eq_replicate_iff.mpr ⟨by simp, ?_⟩
  intro b hb
  simp only [List.mem_map, List.mem_range] at hb
  obtain ⟨i, hi, rfl⟩ := hb
  have hgf := getD_flatten_replicate [(0 : ℤ), 0, 0, 1, 0, 0, 0, 1] (by decide) 128
  rw [show List.range 4 = [0, 1, 2, 3] from by decide]
  simp only [List.map_cons, List.map_nil, List.sum_cons, List.sum_nil]
  rw [hgf (i * 4 + 0), hgf (i * 4 + 1), hgf (i * 4 + 2), hgf (i * 4 + 3),
    if_pos (by omega), if_pos (by omega), if_pos (by omega), if_pos (by omega)]
  rw [show (i * 4 + 0) % 8 = 4 * (i % 2) + 0 from by omega,
    show (i * 4 + 1) % 8 = 4 * (i % 2) + 1 from by omega,
    show (i * 4 + 2) % 8 = 4 * (i % 2) + 2 from by omega,
    show (i * 4 + 3) % 8 = 4 * (i % 2) + 3 from by omega]
  rcases Nat.mod_two_eq_zero_or_one i with h2 | h2 <;> rw [h2] <;> decide

/-- 4-bit decode of bytes 255: both nibbles decode to 15. -/
theorem byte_decode_4_255 : byte_decode 4 (List.replicate 128 255) =
    List.replicate 256 15 := by
  rw [byte_decode, bytes_to_bits_replicate,
    show (List.range 8).map (fun i => (255 : ℤ) / 2 ^ i % 2) = List.replicate 8 1
      from by decide, flatten_replicate_same]
  refine List.eq_replicate_iff.mpr ⟨by simp, ?_⟩
  intro b hb
  simp only [List.mem_map, List.mem_range] at hb
  obtain ⟨i, hi, rfl⟩ := hb
  rw [show List.range 4 = [0, 1, 2, 3] from by decide]
  simp only [List.map_cons, List.map_nil, List.sum_cons, List.sum_nil]
  rw [getD_replicate, getD_replicate, getD_replicate, getD_replicate,
    if_pos (by omega), if_pos (by omega), if_pos (by omega), if_pos (by omega)]
  decide

/-- 1-bit decode of bytes 255: every coefficient is 1. -/
theorem byte_decode_1_255 : byte_decode 1 (List.replicate 32 255) =
    List.replicate 256 1 := by
  rw [byte_decode, bytes_to_bits_replicate,
    show (List.range 8).map (fun i => (255 : ℤ) / 2 ^ i % 2) = List.replicate 8 1
      from by decide, flatten_replicate_same]
  refine List.eq_replicate_iff.mpr ⟨by simp, ?_⟩
  intro b hb
  simp only [List.mem_map, List.mem_range] at hb
  obtain ⟨i, hi, rfl⟩ := hb
  rw [show List.range 1 = [0] from by decide]
  simp only [List.map_cons, List.map_nil, List.sum_cons, List.sum_nil]
  rw [getD_replicate, if_pos (by omega)]
  decide

/-- CBD of all-zero bytes is the zero polynomial. -/
theorem sample_poly_cbd_zero : sample_poly_cbd 2 (List.replicate 128 0) =
    List.replicate 256 0 := by
  rw [sample_poly_cbd, bytes_to_bits_replicate, bit_block_zero, flatten_replicate_same]
  refine List.eq_replicate_iff.mpr ⟨by simp, ?_⟩
  intro b hb
  simp only [List.mem_map, List.mem_range] at hb
  obtain ⟨i, hi, rfl⟩ := hb
  have hg : ∀ j, (List.replicate (128 * 8) (0 : ℤ)).getD j 0 = 0 := by
    intro j
    rw [getD_replicate]
    split <;> rfl
  rw [List.sum_eq_zero, List.sum_eq_zero]
  · decide
  all_goals
    intro x hx
    simp only [List.mem_map, List.mem_range] at hx
    obtain ⟨j, hj, rfl⟩ := hx
    exact hg _

/-- CBD of bytes of value 5 (bits 1,0,1,0,0,0,0,0) is the zero
polynomial: each eta = 2 group has x = y. -/
theorem sample_poly_cbd_five : sample_poly_cbd 2 (List.replicate 128 5) =
    List.replicate 256 0 := by
  rw [sample_poly_cbd, bytes_to_bits_replicate,
    show (List.range 8).map (fun i => (5 : ℤ) / 2 ^ i % 2) = [1, 0, 1, 0, 0, 0, 0, 0]
      from by decide]
  refine List.eq_replicate_iff.mpr ⟨by simp, ?_⟩
  intro b hb
  simp only [List.mem_map, List.mem_range] at hb
  obtain ⟨i, hi, rfl⟩ := hb
  have hgf := getD_flatten_replicate [(1 : ℤ), 0, 1, 0, 0, 0, 0, 0] (by decide) 128
  rw [show List.range 2 = [0, 1] from by decide]
  simp only [List.map_cons, List.map_nil, List.sum_cons, List.sum_nil]
  rw [hgf (2 * i * 2 + 0), hgf (2 * i * 2 + 1), hgf (2 * i * 2 + 2 + 0),
    hgf (2 * i * 2 + 2 + 1), if_pos (by omega), if_pos (by omega), if_pos (by omega),
    if_pos (by omega)]
  rw [show (2 * i * 2 + 0) % 8 = 4 * (i % 2) + 0 from by omega,
    show (2 * i * 2 + 1) % 8 = 4 * (i % 2) + 1 from by omega,
    show (2 * i * 2 + 2 + 0) % 8 = 4 * (i % 2) + 2 from by omega,
    show (2 * i * 2 + 2 + 1) % 8 = 4 * (i % 2) + 3 from by omega]
  rcases Nat.mod_two_eq_zero_or_one i with h2 | h2 <;> rw [h2] <;> decide

/-- Product of two zero polynomials. -/
theorem ntt_mul_zero_zero :
    ntt_mul (List.replicate 256 0) (List.replicate 256 0) = List.replicate 256 0 :=
  ntt_mul_zero_left _ (by simp)

/-- Sum of two zero polynomials. -/
theorem poly256_add_zero_zero :
    poly256_add (List.replicate 256 0) (List.replicate 256 0) = List.replicate 256 0 := by
  rw [poly256_add_replicate]
  norm_num

/-- `ntt_add` of two zero polynomials. -/
theorem ntt_add_zero_zero :
    ntt_add (List.replicate 256 0) (List.replicate 256 0) = List.replicate 256 0 :=
  poly256_add_zero_zero

/-- On a hash model with all-zero XOF streams, the A-hat matrix is all
zero polynomials. -/
theorem buildAhat_uniform (C : HashModel) (rho : List ℤ)
    (h128 : ∀ x, C.shake128 x = fun _ => 0) :
    buildAhat C rho = some [[List.replicate 256 0, List.replicate 256 0, List.replicate 256 0],
      [List.replicate 256 0, List.replicate 256 0, List.replicate 256 0],
      [List.replicate 256 0, List.replicate 256 0, List.replicate 256 0]] := by
  simp only [buildAhat, mlkem_xof, h128, sample_ntt_zero_stream, Option.bind_eq_bind,
    Option.some_bind, Option.pure_def]

/-- K-PKE keygen on a model whose G output (on this seed), PRF-fed CBD
samples, and XOF streams are all zero: both keys are all-zero. -/
theorem kpke_keygen_uniform (C : HashModel) (d : List ℤ)
    (hG : C.sha3_512 d = List.replicate 64 0)
    (hprf : ∀ (x : List ℤ) (b : ℤ), sample_poly_cbd ETA1 (mlkem_prf C ETA1 x b) =
      List.replicate 256 0)
    (h128 : ∀ x, C.shake128 x = fun _ => 0) :
    kpke_keygen C d = some (List.replicate 1184 0, List.replicate 1152 0) := by
  have hbuild : ∀ rho, buildAhat C rho = some
      [[List.replicate 256 0, List.replicate 256 0, List.replicate 256 0],
       [List.replicate 256 0, List.replicate 256 0, List.replicate 256 0],
       [List.replicate 256 0, List.replicate 256 0, List.replicate 256 0]] :=
    fun rho => buildAhat_uniform C rho h128
  have hgetD : ∀ i j : ℕ,
      (([[List.replicate 256 (0 : ℤ), List.replicate 256 0, List.replicate 256 0],
        [List.replicate 256 0, List.replicate 256 0, List.replicate 256 0],
        [List.replicate 256 0, List.replicate 256 0, List.replicate 256 0]].getD i
          []).getD j []) = if i < 3 ∧ j < 3 then List.replicate 256 0 else [] := by
    intro i j
    match i, j with
    | 0, 0 => rfl
    | 0, 1 => rfl
    | 0, 2 => rfl
    | 1, 0 => rfl
    | 1, 1 => rfl
    | 1, 2 => rfl
    | 2, 0 => rfl
    | 2, 1 => rfl
    | 2, 2 => rfl
    | 0, j + 3 => simp [List.getD]
    | 1, j + 3 => simp [List.getD]
    | 2, j + 3 => simp [List.getD]
    | i + 3, j => simp [List.getD]
  simp only [kpke_keygen, mlkem_hash_G, hG, List.take_replicate, List.drop_replicate,
    hbuild, Option.bind_eq_bind, Option.some_bind, hprf, ntt_zero, hgetD]
  norm_num [ntt_mul_zero_zero, ntt_add_zero_zero, byte_encode_zero]

/-- Witness for C6 at d = 12, x = 3328. -/
theorem c6_compress_round_half_up_witness :
    (1 ≤ 12 ∧ 12 ≤ 12 ∧ (0 : ℤ) ≤ 3328 ∧ (3328 : ℤ) < 3329) ∧
      compress 12 [3328] = [compress_proper 12 3328] :=
  ⟨by norm_num,
   c6_compress_round_half_up 12 3328 (by norm_num) (by norm_num) (by norm_num) (by norm_num)⟩

/-- getD accessors into the all-zero 3x3 matrix of zero polynomials. -/
theorem zeroMat_getD (i j : ℕ) :
    (([[List.replicate 256 (0 : ℤ), List.replicate 256 0, List.replicate 256 0],
      [List.replicate 256 0, List.replicate 256 0, List.replicate 256 0],
      [List.replicate 256 0, List.replicate 256 0, List.replicate 256 0]].getD i
        []).getD j []) = if i < 3 ∧ j < 3 then List.replicate 256 0 else [] := by
  match i, j with
  | 0, 0 => rfl
  | 0, 1 => rfl
  | 0, 2 => rfl
  | 1, 0 => rfl
  | 1, 1 => rfl
  | 1, 2 => rfl
  | 2, 0 => rfl
  | 2, 1 => rfl
  | 2, 2 => rfl
  | 0, j + 3 => simp [List.getD]
  | 1, j + 3 => simp [List.getD]
  | 2, j + 3 => simp [List.getD]
  | i + 3, j => simp [List.getD]

/-- K-PKE encryption of the all-zero message under the all-zero public key,
on a model whose CBD samples and XOF streams are all zero: the ciphertext
is 1088 zero bytes. -/
theorem kpke_encrypt_zero_uniform (C : HashModel) (r : List ℤ)
    (hprf1 : ∀ (x : List ℤ) (b : ℤ), sample_poly_cbd ETA1 (mlkem_prf C ETA1 x b) =
      List.replicate 256 0)
    (hprf2 : ∀ (x : List ℤ) (b : ℤ), sample_poly_cbd ETA2 (mlkem_prf C ETA2 x b) =
      List.replicate 256 0)
    (h128 : ∀ x, C.shake128 x = fun _ => 0) :
    kpke_encrypt C (List.replicate 1184 0) (List.replicate 32 0) r =
      some (List.replicate 1088 0) := by
  have hbuild : ∀ rho, buildAhat C rho = some
      [[List.replicate 256 0, List.replicate 256 0, List.replicate 256 0],
       [List.replicate 256 0, List.replicate 256 0, List.replicate 256 0],
       [List.replicate 256 0, List.replicate 256 0, List.replicate 256 0]] :=
    fun rho => buildAhat_uniform C rho h128
  simp only [kpke_encrypt, List.take_replicate, List.drop_replicate, List.length_replicate,
    hbuild, Option.bind_eq_bind, Option.some_bind, hprf1, hprf2, ntt_zero, zeroMat_getD]
  norm_num [byte_decode_zero, ntt_mul_zero_zero, ntt_add_zero_zero, ntt_inv_zero,
    poly256_add_zero_zero, decompress_replicate, compress_replicate, byte_encode_zero,
    poly256_add_replicate, Q, DU, DV, ← List.replicate_add]

/-- K-PKE encryption of the all-ones message (32 bytes 0xFF) under the
all-zero public key on such a model: mu decompresses to 1665 everywhere,
v compresses to 8, and the ciphertext is 960 zero bytes then 128 bytes 136. -/
theorem kpke_encrypt_m255_uniform (C : HashModel) (r : List ℤ)
    (hprf1 : ∀ (x : List ℤ) (b : ℤ), sample_poly_cbd ETA1 (mlkem_prf C ETA1 x b) =
      List.replicate 256 0)
    (hprf2 : ∀ (x : List ℤ) (b : ℤ), sample_poly_cbd ETA2 (mlkem_prf C ETA2 x b) =
      List.replicate 256 0)
    (h128 : ∀ x, C.shake128 x = fun _ => 0) :
    kpke_encrypt C (List.replicate 1184 0) (List.replicate 32 255) r =
      some (List.replicate 960 0 ++ List.replicate 128 136) := by
  have hbuild : ∀ rho, buildAhat C rho = some
      [[List.replicate 256 0, List.replicate 256 0, List.replicate 256 0],
       [List.replicate 256 0, List.replicate 256 0, List.replicate 256 0],
       [List.replicate 256 0, List.replicate 256 0, List.replicate 256 0]] :=
    fun rho => buildAhat_uniform C rho h128
  simp only [kpke_encrypt, List.take_replicate, List.drop_replicate, List.length_replicate,
    hbuild, Option.bind_eq_bind, Option.some_bind, hprf1, hprf2, ntt_zero, zeroMat_getD]
  norm_num [byte_decode_zero, byte_decode_1_255, decompress_replicate, ntt_mul_zero_zero,
    ntt_add_zero_zero, ntt_inv_zero, poly256_add_zero_zero, poly256_add_replicate,
    byte_encode_4_eight, compress_replicate, byte_encode_zero, Q, DU, DV]

/-- K-PKE decryption of the all-zero ciphertext under the all-zero secret
key recovers the all-zero message. -/
theorem kpke_decrypt_zero_zero :
    kpke_decrypt (List.replicate 1152 0) (List.replicate 1088 0) = List.replicate 32 0 := by
  simp only [kpke_decrypt, List.take_replicate, List.drop_replicate, List.length_replicate]
  norm_num [byte_decode_zero, decompress_replicate, ntt_zero, ntt_mul_zero_zero,
    ntt_add_zero_zero, ntt_inv_zero, poly256_sub_replicate, compress_replicate,
    byte_encode_zero, Q, DU, DV]

/-- K-PKE decryption of the ciphertext 960 zero bytes ++ 128 bytes 136
under the all-zero secret key: v decodes to the constant 8 and decompresses
to 1665, which compresses (1 bit) to 1, so the message is 32 bytes 0xFF. -/
theorem kpke_decrypt_zero_c136 :
    kpke_decrypt (List.replicate 1152 0) (List.replicate 960 0 ++ List.replicate 128 136) =
      List.replicate 32 255 := by
  have h1 : (List.replicate 960 (0 : ℤ) ++ List.replicate 128 136).take 960 =
      List.replicate 960 0 := List.take_left' (by simp)
  have h2 : (List.replicate 960 (0 : ℤ) ++ List.replicate 128 136).drop 960 =
      List.replicate 128 136 := List.drop_left' (by simp)
  have hv : decompress DV (byte_decode DV (List.replicate 128 136)) =
      List.replicate 256 1665 := by
    rw [DV, byte_decode_4_136, decompress_replicate]
    norm_num [Q]
  simp only [kpke_decrypt, h1, h2, List.take_replicate, List.drop_replicate,
    List.length_replicate, hv]
  norm_num [byte_decode_zero, decompress_replicate, ntt_zero, ntt_mul_zero_zero,
    ntt_add_zero_zero, ntt_inv_zero, poly256_sub_replicate, compress_replicate,
    byte_encode_1_one, Q, DU, DV]

/-- ML-KEM keygen with explicit seeds on a model with zero G output on the
K-PKE seed, zero CBD samples, and zero XOF streams: ek is 1184 zero bytes
and dk is the concatenation dk_pke ++ ek ++ H(ek) ++ z. -/
theorem mlkem_keygen_uniform (C : HashModel) (ent : ℕ → List ℤ) (z d : List ℤ)
    (hG : C.sha3_512 d = List.replicate 64 0)
    (hprf : ∀ (x : List ℤ) (b : ℤ), sample_poly_cbd ETA1 (mlkem_prf C ETA1 x b) =
      List.replicate 256 0)
    (h128 : ∀ x, C.shake128 x = fun _ => 0) :
    mlkem_keygen C ent (some z) (some d) =
      some (List.replicate 1184 0,
        List.replicate 1152 0 ++ List.replicate 1184 0 ++
          C.sha3_256 (List.replicate 1184 0) ++ z) := by
  simp only [mlkem_keygen, Option.getD_some, kpke_keygen_uniform C d hG hprf h128,
    Option.bind_eq_bind, Option.some_bind, Option.pure_def, mlkem_hash_H]

/-- ML-KEM keygen at the zero model with zero seeds: dk collapses to 2400
zero bytes. -/
theorem mlkem_keygen_zeroModel :
    mlkem_keygen zeroModel (fun _ => []) (some (List.replicate 32 0))
        (some (List.replicate 32 0)) =
      some (List.replicate 1184 0, List.replicate 2400 0) := by
  rw [mlkem_keygen_uniform zeroModel _ _ _ rfl (fun x b => sample_poly_cbd_zero)
    (fun x => rfl)]
  rw [show zeroModel.sha3_256 (List.replicate 1184 0) = List.replicate 32 0 from rfl,
    ← List.replicate_add, ← List.replicate_add, ← List.replicate_add]

/-- ML-KEM keygen at the c2 model with zero seeds: same as the zero model
(the SHAKE-256 fives only affect the PRF, whose CBD samples are still zero,
and J). -/
theorem mlkem_keygen_c2Model :
    mlkem_keygen c2Model (fun _ => []) (some (List.replicate 32 0))
        (some (List.replicate 32 0)) =
      some (List.replicate 1184 0, List.replicate 2400 0) := by
  rw [mlkem_keygen_uniform c2Model _ _ _ rfl (fun x b => sample_poly_cbd_five)
    (fun x => rfl)]
  rw [show c2Model.sha3_256 (List.replicate 1184 0) = List.replicate 32 0 from rfl,
    ← List.replicate_add, ← List.replicate_add, ← List.replicate_add]

/-- ML-KEM keygen at the c1 model with zero seeds: H(ek) is only 31 bytes,
so dk is 2399 bytes and the fixed parse offsets of decapsulation are
misaligned. -/
theorem mlkem_keygen_c1Model :
    mlkem_keygen c1Model (fun _ => []) (some (List.replicate 32 0))
        (some (List.replicate 32 0)) =
      some (List.replicate 1184 0,
        List.replicate 2336 0 ++ List.replicate 31 9 ++ List.replicate 32 0) := by
  rw [mlkem_keygen_uniform c1Model _ _ _ (by norm_num [c1Model])
    (fun x b => sample_poly_cbd_zero) (fun x => rfl)]
  rw [show c1Model.sha3_256 (List.replicate 1184 0) = List.replicate 31 9 from rfl,
    show List.replicate 1152 (0 : ℤ) ++ List.replicate 1184 0 = List.replicate 2336 0 by
      rw [← List.replicate_add]]

/-- ML-KEM encapsulation of the zero seed under the zero model. -/
theorem mlkem_encaps_zeroModel :
    mlkem_encaps zeroModel (fun _ => []) (List.replicate 1184 0)
        (some (List.replicate 32 0)) =
      some (List.replicate 32 0, List.replicate 1088 0) := by
  simp only [mlkem_encaps, Option.getD_some, mlkem_hash_H,
    show zeroModel.sha3_256 (List.replicate 1184 (0 : ℤ)) = List.replicate 32 0 from rfl,
    show List.replicate 32 (0 : ℤ) ++ List.replicate 32 0 = List.replicate 64 0 by
      rw [← List.replicate_add],
    mlkem_hash_G,
    show zeroModel.sha3_512 (List.replicate 64 (0 : ℤ)) = List.replicate 64 0 from rfl,
    List.take_replicate, List.drop_replicate]
  norm_num
  rw [kpke_encrypt_zero_uniform zeroModel _ (fun x b => sample_poly_cbd_zero)
    (fun x b => sample_poly_cbd_zero) (fun x => rfl)]
  rfl

/-- ML-KEM encapsulation of the all-ones seed under the zero model: the
shared secret is still zero but the ciphertext differs. -/
theorem mlkem_encaps_zeroModel_m255 :
    mlkem_encaps zeroModel (fun _ => []) (List.replicate 1184 0)
        (some (List.replicate 32 255)) =
      some (List.replicate 32 0, List.replicate 960 0 ++ List.replicate 128 136) := by
  simp only [mlkem_encaps, Option.getD_some, mlkem_hash_H,
    show zeroModel.sha3_256 (List.replicate 1184 (0 : ℤ)) = List.replicate 32 0 from rfl,
    mlkem_hash_G,
    show zeroModel.sha3_512 (List.replicate 32 (255 : ℤ) ++ List.replicate 32 0) =
      List.replicate 64 0 from rfl,
    List.take_replicate, List.drop_replicate]
  norm_num
  rw [kpke_encrypt_m255_uniform zeroModel _ (fun x b => sample_poly_cbd_zero)
    (fun x b => sample_poly_cbd_zero) (fun x => rfl)]
  rfl

/-- ML-KEM encapsulation of the zero seed under the c2 model. -/
theorem mlkem_encaps_c2Model :
    mlkem_encaps c2Model (fun _ => []) (List.replicate 1184 0)
        (some (List.replicate 32 0)) =
      some (List.replicate 32 0, List.replicate 1088 0) := by
  simp only [mlkem_encaps, Option.getD_some, mlkem_hash_H,
    show c2Model.sha3_256 (List.replicate 1184 (0 : ℤ)) = List.replicate 32 0 from rfl,
    show List.replicate 32 (0 : ℤ) ++ List.replicate 32 0 = List.replicate 64 0 by
      rw [← List.replicate_add],
    mlkem_hash_G,
    show c2Model.sha3_512 (List.replicate 64 (0 : ℤ)) = List.replicate 64 0 from rfl,
    List.take_replicate, List.drop_replicate]
  norm_num
  rw [kpke_encrypt_zero_uniform c2Model _ (fun x b => sample_poly_cbd_five)
    (fun x b => sample_poly_cbd_five) (fun x => rfl)]
  rfl

/-- ML-KEM encapsulation of the zero seed under the c1 model: H(ek) is 31
bytes, so G is applied to a 63-byte string and returns the distinguished
value whose first half is the constant 4; the shared secret is 32 bytes 4. -/
theorem mlkem_encaps_c1Model :
    mlkem_encaps c1Model (fun _ => []) (List.replicate 1184 0)
        (some (List.replicate 32 0)) =
      some (List.replicate 32 4, List.replicate 1088 0) := by
  have hg : c1Model.sha3_512 (List.replicate 32 (0 : ℤ) ++ List.replicate 31 9) =
      List.replicate 32 4 ++ List.replicate 32 0 := by
    simp only [c1Model]
    rw [if_pos (by simp)]
  simp only [mlkem_encaps, Option.getD_some, mlkem_hash_H,
    show c1Model.sha3_256 (List.replicate 1184 (0 : ℤ)) = List.replicate 31 9 from rfl,
    mlkem_hash_G, hg]
  rw [List.take_left' (by simp), List.drop_left' (by simp)]
  rw [kpke_encrypt_zero_uniform c1Model _ (fun x b => sample_poly_cbd_zero)
    (fun x b => sample_poly_cbd_zero) (fun x => rfl)]
  simp

/-- ML-KEM decapsulation of the zero ciphertext with the zero key under the
zero model: the re-encryption matches and the derived key is returned. -/
theorem mlkem_decaps_zeroModel :
    mlkem_decaps zeroModel (fun _ => []) (List.replicate 1088 0) (List.replicate 2400 0) =
      some (List.replicate 32 0) := by
  have h1 : (List.replicate 2400 (0 : ℤ)).take 1152 = List.replicate 1152 0 := by
    norm_num [List.take_replicate]
  have h2 : ((List.replicate 2400 (0 : ℤ)).drop 1152).take 1184 = List.replicate 1184 0 := by
    norm_num [List.take_replicate, List.drop_replicate]
  have h3 : ((List.replicate 2400 (0 : ℤ)).drop 2336).take 32 = List.replicate 32 0 := by
    norm_num [List.take_replicate, List.drop_replicate]
  have h4 : ((List.replicate 2400 (0 : ℤ)).drop 2368).take 32 = List.replicate 32 0 := by
    norm_num [List.take_replicate, List.drop_replicate]
  have hgh : mlkem_hash_G zeroModel (List.replicate 32 (0 : ℤ) ++ List.replicate 32 0) =
      List.replicate 64 0 := rfl
  have htk : (List.replicate 64 (0 : ℤ)).take 32 = List.replicate 32 0 := by
    norm_num [List.take_replicate]
  have hdr : (List.replicate 64 (0 : ℤ)).drop 32 = List.replicate 32 0 := by
    norm_num [List.drop_replicate]
  have henc := kpke_encrypt_zero_uniform zeroModel (List.replicate 32 0)
    (fun x b => sample_poly_cbd_zero) (fun x b => sample_poly_cbd_zero) (fun x => rfl)
  simp only [mlkem_decaps, h1, h2, h3, h4, kpke_decrypt_zero_zero, hgh, htk, hdr, henc,
    Option.bind_eq_bind, Option.some_bind]
  simp

/-- ML-KEM decapsulation of the forged ciphertext (960 zero bytes ++ 128
bytes 136) with the zero key under the c2 model: decryption yields the
all-ones message, whose re-encryption reproduces the forged ciphertext
exactly, so decapsulation returns the derived key, not the implicit
rejection key. -/
theorem mlkem_decaps_c2Model_forged :
    mlkem_decaps c2Model (fun _ => [])
        (List.replicate 960 0 ++ List.replicate 128 136) (List.replicate 2400 0) =
      some (List.replicate 32 0) := by
  have h1 : (List.replicate 2400 (0 : ℤ)).take 1152 = List.replicate 1152 0 := by
    norm_num [List.take_replicate]
  have h2 : ((List.replicate 2400 (0 : ℤ)).drop 1152).take 1184 = List.replicate 1184 0 := by
    norm_num [List.take_replicate, List.drop_replicate]
  have h3 : ((List.replicate 2400 (0 : ℤ)).drop 2336).take 32 = List.replicate 32 0 := by
    norm_num [List.take_replicate, List.drop_replicate]
  have h4 : ((List.replicate 2400 (0 : ℤ)).drop 2368).take 32 = List.replicate 32 0 := by
    norm_num [List.take_replicate, List.drop_replicate]
  have hgh : mlkem_hash_G c2Model (List.replicate 32 (255 : ℤ) ++ List.replicate 32 0) =
      List.replicate 64 0 := rfl
  have htk : (List.replicate 64 (0 : ℤ)).take 32 = List.replicate 32 0 := by
    norm_num [List.take_replicate]
  have hdr : (List.replicate 64 (0 : ℤ)).drop 32 = List.replicate 32 0 := by
    norm_num [List.drop_replicate]
  have henc := kpke_encrypt_m255_uniform c2Model (List.replicate 32 0)
    (fun x b => sample_poly_cbd_five) (fun x b => sample_poly_cbd_five) (fun x => rfl)
  simp only [mlkem_decaps, h1, h2, h3, h4, kpke_decrypt_zero_c136, hgh, htk, hdr, henc,
    Option.bind_eq_bind, Option.some_bind]
  simp

/-- ML-KEM decapsulation under the c1 model with the misaligned 2399-byte
key: the hash slice h picks up one byte of z, G sees a 64-byte preimage
(not the 63-byte one used at encapsulation) and returns all zeros, the
re-encryption still matches, and the returned key is 32 zero bytes. -/
theorem mlkem_decaps_c1Model :
    mlkem_decaps c1Model (fun _ => []) (List.replicate 1088 0)
        (List.replicate 2336 0 ++ List.replicate 31 9 ++ List.replicate 32 0) =
      some (List.replicate 32 0) := by
  have hassoc : List.replicate 2336 (0 : ℤ) ++ List.replicate 31 9 ++ List.replicate 32 0 =
      List.replicate 2336 0 ++ (List.replicate 31 9 ++ List.replicate 32 0) := by
    rw [List.append_assoc]
  have h1 : (List.replicate 2336 (0 : ℤ) ++ List.replicate 31 9 ++
      List.replicate 32 0).take 1152 = List.replicate 1152 0 := by
    rw [hassoc, List.take_append_of_le_length (by simp)]
    norm_num [List.take_replicate]
  have h2 : ((List.replicate 2336 (0 : ℤ) ++ List.replicate 31 9 ++
      List.replicate 32 0).drop 1152).take 1184 = List.replicate 1184 0 := by
    rw [hassoc, List.drop_append_of_le_length (by simp)]
    rw [List.take_append_of_le_length (by simp [List.length_drop])]
    norm_num [List.take_replicate, List.drop_replicate]
  have h3 : ((List.replicate 2336 (0 : ℤ) ++ List.replicate 31 9 ++
      List.replicate 32 0).drop 2336).take 32 =
      List.replicate 31 9 ++ List.replicate 1 0 := by
    rw [hassoc, List.drop_left' (by simp),
      show (32 : ℕ) = (List.replicate 31 (9 : ℤ)).length + 1 by simp,
      List.take_append]
    norm_num [List.take_replicate]
  have hgh : mlkem_hash_G c1Model (List.replicate 32 (0 : ℤ) ++
      (List.replicate 31 9 ++ List.replicate 1 0)) = List.replicate 64 0 := by
    simp only [mlkem_hash_G, c1Model]
    rw [if_neg (by simp)]
  have htk : (List.replicate 64 (0 : ℤ)).take 32 = List.replicate 32 0 := by
    norm_num [List.take_replicate]
  have hdr : (List.replicate 64 (0 : ℤ)).drop 32 = List.replicate 32 0 := by
    norm_num [List.drop_replicate]
  have henc := kpke_encrypt_zero_uniform c1Model (List.replicate 32 0)
    (fun x b => sample_poly_cbd_zero) (fun x b => sample_poly_cbd_zero) (fun x => rfl)
  simp only [mlkem_decaps, h1, h2, h3, kpke_decrypt_zero_zero, hgh, htk, hdr, henc,
    Option.bind_eq_bind, Option.some_bind]
  simp

/-- Whenever K-PKE keygen succeeds and G has its standard 64-byte output,
the encapsulation key is 1184 bytes and the decapsulation key 1152. -/
theorem kpke_keygen_lengths (C : HashModel) (d ek dk : List ℤ)
    (hG : (C.sha3_512 d).length = 64)
    (h : kpke_keygen C d = some (ek, dk)) : ek.length = 1184 ∧ dk.length = 1152 := by
  simp only [kpke_keygen, Option.bind_eq_bind] at h
  cases hA : buildAhat C ((mlkem_hash_G C d).take 32) with
  | none => rw [hA] at h; simp at h
  | some A =>
      rw [hA] at h
      simp only [Option.some_bind, Option.pure_def, Option.some.injEq, Prod.mk.injEq] at h
      obtain ⟨hek, hdk⟩ := h
      have hs : ∀ b : ℤ, (ntt (sample_poly_cbd ETA1
          (mlkem_prf C ETA1 ((mlkem_hash_G C d).drop 32) b))).length = 256 :=
        fun b => ntt_length _ (sample_poly_cbd_length _ _)
      have hAe : ∀ i j : ℕ, i < 3 → j < 3 → ((A.getD i []).getD j []).length = 256 :=
        fun i j hi hj => buildAhat_entry_length C _ A hA i j hi hj
      have hmul : ∀ (i j : ℕ) (b : ℤ), i < 3 → j < 3 →
          (ntt_mul ((A.getD i []).getD j []) (ntt (sample_poly_cbd ETA1
            (mlkem_prf C ETA1 ((mlkem_hash_G C d).drop 32) b)))).length = 256 :=
        fun i j b hi hj => ntt_mul_length _ _ (hAe i j hi hj) (hs b)
      have hadd : ∀ (a b : List ℤ), a.length = 256 → b.length = 256 →
          (ntt_add a b).length = 256 := by
        intro a b ha hb
        rw [ntt_add, poly256_add_length _ _ (by rw [ha, hb]), ha]
      have ht : ∀ (jcol : ℕ), jcol < 3 → ∀ (b : ℤ),
          (ntt_add (ntt_add (ntt_add
            (ntt_mul ((A.getD 0 []).getD jcol []) (ntt (sample_poly_cbd ETA1
              (mlkem_prf C ETA1 ((mlkem_hash_G C d).drop 32) 0))))
            (ntt_mul ((A.getD 1 []).getD jcol []) (ntt (sample_poly_cbd ETA1
              (mlkem_prf C ETA1 ((mlkem_hash_G C d).drop 32) 1)))))
            (ntt_mul ((A.getD 2 []).getD jcol []) (ntt (sample_poly_cbd ETA1
              (mlkem_prf C ETA1 ((mlkem_hash_G C d).drop 32) 2)))))
            (ntt (sample_poly_cbd ETA1
              (mlkem_prf C ETA1 ((mlkem_hash_G C d).drop 32) b)))).length = 256 :=
        fun jcol hj b => hadd _ _ (hadd _ _ (hadd _ _ (hmul 0 jcol 0 (by omega) hj)
          (hmul 1 jcol 1 (by omega) hj)) (hmul 2 jcol 2 (by omega) hj)) (hs b)
      constructor
      · rw [← hek]
        simp only [List.length_append, byte_encode_length, List.length_take]
        rw [ht 0 (by omega) 3, ht 1 (by omega) 4, ht 2 (by omega) 5]
        simp only [mlkem_hash_G]
        rw [hG]
        omega
      · rw [← hdk]
        simp only [List.length_append, byte_encode_length, hs]

/-- C10: decapsulation is deterministic and consumes no randomness: its
result does not depend on the entropy source at all, and (with the hash
functions' standard output lengths) any returned shared secret is 32
bytes; by contrast, key generation and encapsulation read the entropy
source and produce different results for different entropy. -/
theorem c10_decaps_deterministic :
    (∀ (C : HashModel) (ent₁ ent₂ : ℕ → List ℤ) (c dk : List ℤ),
        mlkem_decaps C ent₁ c dk = mlkem_decaps C ent₂ c dk) ∧
    (∀ (C : HashModel) (ent : ℕ → List ℤ) (c dk k : List ℤ),
        (∀ x, (C.sha3_512 x).length = 64) → (∀ x n, (C.shake256 x n).length = n) →
        mlkem_decaps C ent c dk = some k → k.length = 32) ∧
    (∃ (C : HashModel) (ent₁ ent₂ : ℕ → List ℤ),
        mlkem_keygen C ent₁ none none ≠ mlkem_keygen C ent₂ none none) ∧
    (∃ (C : HashModel) (ent₁ ent₂ : ℕ → List ℤ) (ek : List ℤ),
        mlkem_encaps C ent₁ ek none ≠ mlkem_encaps C ent₂ ek none) := by
  refine ⟨fun C e1 e2 c dk => rfl, ?_, ?_, ?_⟩
  · intro C ent c dk k hG hJ h
    simp only [mlkem_decaps, Option.bind_eq_bind] at h
    cases hc : kpke_encrypt C ((dk.drop 1152).take 1184)
        (kpke_decrypt (dk.take 1152) c)
        ((mlkem_hash_G C (kpke_decrypt (dk.take 1152) c ++ (dk.drop 2336).take 32)).drop 32) with
    | none => rw [hc] at h; simp at h
    | some cd =>
        rw [hc] at h
        simp only [Option.some_bind, Option.pure_def, Option.some.injEq] at h
        rw [← h]
        split
        · rw [mlkem_hash_J, hJ]
        · simp only [mlkem_hash_G, List.length_take, hG]
          omega
  · refine ⟨zeroModel, fun _ => List.replicate 32 0, fun _ => List.replicate 32 1, ?_⟩
    intro heq
    have hkgu : ∀ d, kpke_keygen zeroModel d =
        some (List.replicate 1184 0, List.replicate 1152 0) :=
      fun d => kpke_keygen_uniform zeroModel d rfl (fun x b => sample_poly_cbd_zero)
        (fun x => rfl)
    simp only [mlkem_keygen, Option.getD_none, hkgu,
      Option.bind_eq_bind, Option.some_bind, Option.pure_def, Option.some.injEq,
      Prod.mk.injEq] at heq
    have h5 : List.replicate 32 (0 : ℤ) = List.replicate 32 1 :=
      List.append_cancel_left heq.2
    exact absurd h5 (by decide)
  · refine ⟨zeroModel, fun _ => List.replicate 32 0, fun _ => List.replicate 32 255,
      List.replicate 1184 0, ?_⟩
    intro heq
    have he1 : mlkem_encaps zeroModel (fun _ => List.replicate 32 0)
        (List.replicate 1184 0) none =
        some (List.replicate 32 0, List.replicate 1088 0) := by
      rw [show (mlkem_encaps zeroModel (fun _ => List.replicate 32 0)
        (List.replicate 1184 0) none) = mlkem_encaps zeroModel (fun _ => [])
        (List.replicate 1184 0) (some (List.replicate 32 0)) from rfl]
      exact mlkem_encaps_zeroModel
    have he2 : mlkem_encaps zeroModel (fun _ => List.replicate 32 255)
        (List.replicate 1184 0) none =
        some (List.replicate 32 0, List.replicate 960 0 ++ List.replicate 128 136) := by
      rw [show (mlkem_encaps zeroModel (fun _ => List.replicate 32 255)
        (List.replicate 1184 0) none) = mlkem_encaps zeroModel (fun _ => [])
        (List.replicate 1184 0) (some (List.replicate 32 255)) from rfl]
      exact mlkem_encaps_zeroModel_m255
    rw [he1, he2] at heq
    simp only [Option.some.injEq, Prod.mk.injEq] at heq
    have hc := heq.2
    have h960 := congrArg (fun l => l.getD 960 (0 : ℤ)) hc
    simp only [getD_replicate] at h960
    rw [List.getD_append_right _ _ _ _ (by simp), if_pos (by omega)] at h960
    simp [getD_replicate] at h960

/-- Witness for C10: the hash-length hypotheses of the length conjunct at
the zero model and a concrete decapsulation run. -/
theorem c10_decaps_deterministic_witness :
    (List.replicate 32 (0 : ℤ)).length = 32 :=
  c10_decaps_deterministic.2.1 zeroModel (fun _ => []) (List.replicate 1088 0)
    (List.replicate 2400 0) (List.replicate 32 0)
    (fun x => by simp [zeroModel]) (fun x n => by simp [zeroModel])
    mlkem_decaps_zeroModel

/-- C2 (amended): decapsulation returns the implicit-rejection key
J(z ++ c) exactly when re-encrypting the decrypted message under the
re-derived coins does not reproduce c; otherwise it returns the derived
key from G.  (The spec's universal claim - any c other than the honest
encapsulation of some m yields J(z ++ c) - is refuted by
`c2_counterexample`.) -/
theorem c2_implicit_rejection (C : HashModel) (ent : ℕ → List ℤ) (c dk cd : List ℤ)
    (h : kpke_encrypt C ((dk.drop 1152).take 1184) (kpke_decrypt (dk.take 1152) c)
          ((mlkem_hash_G C (kpke_decrypt (dk.take 1152) c ++ (dk.drop 2336).take 32)).drop 32)
        = some cd) :
    mlkem_decaps C ent c dk =
      some (if cd ≠ c then mlkem_hash_J C ((dk.drop 2368).take 32 ++ c)
            else (mlkem_hash_G C
              (kpke_decrypt (dk.take 1152) c ++ (dk.drop 2336).take 32)).take 32) := by
  simp only [mlkem_decaps, h, Option.bind_eq_bind, Option.some_bind, Option.pure_def]

/-- Witness for C2 at the c2 model, zero key and zero ciphertext: the
re-encryption hypothesis is discharged by computation. -/
theorem c2_implicit_rejection_witness :
    mlkem_decaps c2Model (fun _ => []) (List.replicate 1088 0) (List.replicate 2400 0) =
      some (if (List.replicate 1088 (0 : ℤ)) ≠ List.replicate 1088 0
            then mlkem_hash_J c2Model
              (((List.replicate 2400 (0 : ℤ)).drop 2368).take 32 ++ List.replicate 1088 0)
            else (mlkem_hash_G c2Model
              (kpke_decrypt ((List.replicate 2400 (0 : ℤ)).take 1152) (List.replicate 1088 0)
                ++ ((List.replicate 2400 (0 : ℤ)).drop 2336).take 32)).take 32) :=
  c2_implicit_rejection c2Model (fun _ => []) (List.replicate 1088 0)
    (List.replicate 2400 0) (List.replicate 1088 0) (by
      rw [show ((List.replicate 2400 (0 : ℤ)).drop 1152).take 1184 = List.replicate 1184 0 by
            norm_num [List.take_replicate, List.drop_replicate],
          show (List.replicate 2400 (0 : ℤ)).take 1152 = List.replicate 1152 0 by
            norm_num [List.take_replicate],
          show ((List.replicate 2400 (0 : ℤ)).drop 2336).take 32 = List.replicate 32 0 by
            norm_num [List.take_replicate, List.drop_replicate],
          kpke_decrypt_zero_zero, mlkem_hash_G,
          show List.replicate 32 (0 : ℤ) ++ List.replicate 32 0 = List.replicate 64 0 by
            rw [← List.replicate_add],
          show c2Model.sha3_512 (List.replicate 64 (0 : ℤ)) = List.replicate 64 0 from rfl,
          show (List.replicate 64 (0 : ℤ)).drop 32 = List.replicate 32 0 by
            norm_num [List.drop_replicate]]
      exact kpke_encrypt_zero_uniform c2Model _ (fun x b => sample_poly_cbd_five)
        (fun x b => sample_poly_cbd_five) (fun x => rfl))

/-- Counterexample for C2 as stated: under the c2 model, with honestly
generated keys (seeds zero) and honest encapsulation of the zero message
giving ciphertext c* = 1088 zero bytes, the distinct 1088-byte ciphertext
c' = 960 zero bytes ++ 128 bytes 136 (a valid encryption of the all-ones
message under the re-derived coins) decapsulates to the derived key
(32 zero bytes), NOT to the implicit-rejection key J(z ++ c') (32 bytes
5): the claim's universal "any other ciphertext yields J(z ++ c)" fails. -/
theorem c2_counterexample :
    mlkem_keygen c2Model (fun _ => []) (some (List.replicate 32 0))
        (some (List.replicate 32 0)) =
      some (List.replicate 1184 0, List.replicate 2400 0) ∧
    mlkem_encaps c2Model (fun _ => []) (List.replicate 1184 0)
        (some (List.replicate 32 0)) =
      some (List.replicate 32 0, List.replicate 1088 0) ∧
    (List.replicate 960 (0 : ℤ) ++ List.replicate 128 136).length = 1088 ∧
    List.replicate 960 (0 : ℤ) ++ List.replicate 128 136 ≠ List.replicate 1088 0 ∧
    mlkem_decaps c2Model (fun _ => []) (List.replicate 960 0 ++ List.replicate 128 136)
        (List.replicate 2400 0) = some (List.replicate 32 0) ∧
    mlkem_hash_J c2Model (((List.replicate 2400 (0 : ℤ)).drop 2368).take 32 ++
        (List.replicate 960 0 ++ List.replicate 128 136)) = List.replicate 32 5 ∧
    List.replicate 32 (0 : ℤ) ≠ List.replicate 32 5 := by
  refine ⟨mlkem_keygen_c2Model, mlkem_encaps_c2Model, by simp, ?_, 
    mlkem_decaps_c2Model_forged, rfl, by decide⟩
  intro hfalse
  have h960 := congrArg (fun l => l.getD 960 (0 : ℤ)) hfalse
  simp only [getD_replicate] at h960
  rw [List.getD_append_right _ _ _ _ (by simp), if_pos (by omega)] at h960
  simp [getD_replicate] at h960

/-- C1 (amended): KEM correctness holds for honestly generated keys
whenever H and G have their standard output lengths (32 and 64 bytes), the
z seed is 32 bytes, and the underlying K-PKE decryption of the
encapsulation ciphertext recovers the encapsulated message m: then
decapsulation re-derives the same G hash, the re-encryption reproduces c,
and the returned secret equals the encapsulated one.  (Unconditionally -
with no hypothesis on the hash output lengths or on decryption actually
round-tripping - the claim fails, see `c1_counterexample`.) -/
theorem c1_kem_correctness (C : HashModel) (ent : ℕ → List ℤ)
    (z d m ek dk k c : List ℤ)
    (hH : ∀ x, (C.sha3_256 x).length = 32)
    (hG : ∀ x, (C.sha3_512 x).length = 64)
    (hz : z.length = 32)
    (hkg : mlkem_keygen C ent (some z) (some d) = some (ek, dk))
    (henc : mlkem_encaps C ent ek (some m) = some (k, c))
    (hrt : kpke_decrypt (dk.take 1152) c = m) :
    mlkem_decaps C ent c dk = some k := by
  simp only [mlkem_keygen, Option.getD_some, Option.bind_eq_bind] at hkg
  cases hkp : kpke_keygen C d with
  | none => rw [hkp] at hkg; simp at hkg
  | some kp =>
      rw [hkp] at hkg
      simp only [Option.some_bind, Option.pure_def, Option.some.injEq, Prod.mk.injEq] at hkg
      obtain ⟨hekeq, hdkeq⟩ := hkg
      obtain ⟨hL1, hL2⟩ := kpke_keygen_lengths C d kp.1 kp.2 (hG d) (by rw [hkp])
      subst hekeq
      have hs1 : dk.take 1152 = kp.2 := by
        rw [← hdkeq, List.append_assoc, List.append_assoc, List.take_left' hL2]
      have hs2 : (dk.drop 1152).take 1184 = kp.1 := by
        rw [← hdkeq, List.append_assoc, List.append_assoc, List.drop_left' hL2,
          List.take_left' hL1]
      have hs3 : (dk.drop 2336).take 32 = mlkem_hash_H C kp.1 := by
        rw [← hdkeq, List.append_assoc,
          List.drop_left' (by rw [List.length_append, hL1, hL2]),
          List.take_left' (by rw [mlkem_hash_H, hH])]
      simp only [mlkem_encaps, Option.getD_some, Option.bind_eq_bind] at henc
      cases hcv : kpke_encrypt C kp.1 m
          ((mlkem_hash_G C (m ++ mlkem_hash_H C kp.1)).drop 32) with
      | none => rw [hcv] at henc; simp at henc
      | some cv =>
          rw [hcv] at henc
          simp only [Option.some_bind, Option.pure_def, Option.some.injEq,
            Prod.mk.injEq] at henc
          obtain ⟨hk, hcveq⟩ := henc
          rw [hcveq] at hcv
          rw [hs1] at hrt
          simp only [mlkem_decaps, hs1, hs2, hs3, hrt, hcv, Option.bind_eq_bind,
            Option.some_bind]
          simp [hk]

/-- Witness for C1: a full honest run at the zero model (zero seeds, zero
message), where every hypothesis is discharged by computation and the
decapsulated secret is the encapsulated one. -/
theorem c1_kem_correctness_witness :
    mlkem_decaps zeroModel (fun _ => []) (List.replicate 1088 0) (List.replicate 2400 0) =
      some (List.replicate 32 0) :=
  c1_kem_correctness zeroModel (fun _ => []) (List.replicate 32 0) (List.replicate 32 0)
    (List.replicate 32 0) (List.replicate 1184 0) (List.replicate 2400 0)
    (List.replicate 32 0) (List.replicate 1088 0)
    (fun x => by simp [zeroModel]) (fun x => by simp [zeroModel]) (by simp)
    mlkem_keygen_zeroModel mlkem_encaps_zeroModel
    (by rw [show (List.replicate 2400 (0 : ℤ)).take 1152 = List.replicate 1152 0 by
          norm_num [List.take_replicate]]
        exact kpke_decrypt_zero_zero)

/-- Counterexample for C1 as stated: quantifying over the hash model (the
embedding's stand-in for the fixed SHA3/SHAKE functions), unconditional
correctness fails.  Under the c1 model (H one byte short), keygen with
zero 32-byte seeds and encapsulation with a zero 32-byte seed succeed and
give k = 32 bytes 4, but decapsulation of the honest ciphertext returns
32 zero bytes: decaps(encaps(ek, m), dk) differs from k. -/
theorem c1_counterexample :
    mlkem_keygen c1Model (fun _ => []) (some (List.replicate 32 0))
        (some (List.replicate 32 0)) =
      some (List.replicate 1184 0,
        List.replicate 2336 0 ++ List.replicate 31 9 ++ List.replicate 32 0) ∧
    mlkem_encaps c1Model (fun _ => []) (List.replicate 1184 0)
        (some (List.replicate 32 0)) =
      some (List.replicate 32 4, List.replicate 1088 0) ∧
    mlkem_decaps c1Model (fun _ => []) (List.replicate 1088 0)
        (List.replicate 2336 0 ++ List.replicate 31 9 ++ List.replicate 32 0) =
      some (List.replicate 32 0) ∧
    List.replicate 32 (0 : ℤ) ≠ List.replicate 32 4 :=
  ⟨mlkem_keygen_c1Model, mlkem_encaps_c1Model, mlkem_decaps_c1Model, by decide⟩


/-- Casting an integer reduced mod Q into Z_q collapses the reduction. -/
theorem castQ_mod (a : ℤ) : ((a % Q : ℤ) : Rq) = (a : Rq) := by
  rw [show Q = (3329 : ℤ) from rfl]
  have h := ZMod.intCast_mod a 3329
  exact_mod_cast h

/-- Two integers in [0, Q) with the same image in Z_q are equal. -/
theorem castQ_inj (a b : ℤ) (ha : 0 ≤ a) (ha' : a < 3329) (hb : 0 ≤ b) (hb' : b < 3329)
    (h : (a : Rq) = b) : a = b := by
  have h2 : ((a - b : ℤ) : Rq) = 0 := by push_cast; rw [h]; ring
  rw [ZMod.intCast_zmod_eq_zero_iff_dvd] at h2
  have h3 : a - b = 0 := Int.eq_zero_of_abs_lt_dvd h2 (by push_cast; rw [abs_lt]; omega)
  omega

/-- getD through the coefficient cast. -/
theorem getD_mapc (l : List ℤ) (n : ℕ) : (mapc l).getD n 0 = ((l.getD n 0 : ℤ) : Rq) := by
  rw [mapc, show (0 : Rq) = ((Int.cast : ℤ → Rq) (0 : ℤ)) by norm_num]
  exact List.getD_map ..

/-- The cast ZETA table agrees with the integer table entrywise. -/
theorem zetam_getD_cast (k : ℕ) : ZETAM.getD k 0 = ((ZETA.getD k 0 : ℤ) : Rq) := by
  rw [ZETAM, show (0 : Rq) = ((Int.cast : ℤ → Rq) (0 : ℤ)) by norm_num]
  exact List.getD_map ..

/-- The cast GAMMA table agrees with the integer table entrywise. -/
theorem gammam_getD_cast (k : ℕ) : GAMMAM.getD k 0 = ((GAMMA.getD k 0 : ℤ) : Rq) := by
  rw [GAMMAM, show (0 : Rq) = ((Int.cast : ℤ → Rq) (0 : ℤ)) by norm_num]
  exact List.getD_map ..

/-- In-range table entry as a power of 17 in Z_q. -/
theorem zetam_getD_pow (j : ℕ) (hj : j < 128) :
    ZETAM.getD j 0 = (17 : Rq) ^ bitrev7 j := by
  rw [zetam_getD_cast, ZETA]
  rw [List.getD_eq_getElem _ _ (by simpa using hj)]
  simp only [List.getElem_map, List.getElem_range]
  rw [castQ_mod]
  push_cast
  rfl

/-- Coefficient cast commutes with take. -/
theorem mapc_take (n : ℕ) (l : List ℤ) : mapc (l.take n) = (mapc l).take n :=
  List.map_take ..

/-- Coefficient cast commutes with drop. -/
theorem mapc_drop (n : ℕ) (l : List ℤ) : mapc (l.drop n) = (mapc l).drop n :=
  List.map_drop ..

/-- Coefficient cast commutes with append. -/
theorem mapc_append (a b : List ℤ) : mapc (a ++ b) = mapc a ++ mapc b :=
  List.map_append ..

/-- Coefficient cast preserves length. -/
theorem mapc_length (l : List ℤ) : (mapc l).length = l.length := List.length_map ..

/-- The forward butterfly's first half commutes with the cast. -/
theorem mapc_zip_bfadd (z : ℤ) (a b : List ℤ) :
    mapc (List.zipWith (fun x y => (x + z * y) % Q) a b) =
      List.zipWith (fun x y => x + (z : Rq) * y) (mapc a) (mapc b) := by
  rw [mapc, List.map_zipWith, mapc, mapc, List.zipWith_map]
  have hfg : (fun (x y : ℤ) => (((x + z * y) % Q : ℤ) : Rq)) =
      (fun (x y : ℤ) => ((x : ℤ) : Rq) + ((z : ℤ) : Rq) * ((y : ℤ) : Rq)) := by
    funext x y
    rw [castQ_mod]
    push_cast
    ring
  rw [hfg]

/-- The forward butterfly's second half commutes with the cast. -/
theorem mapc_zip_bfsub (z : ℤ) (a b : List ℤ) :
    mapc (List.zipWith (fun x y => (x - z * y) % Q) a b) =
      List.zipWith (fun x y => x - (z : Rq) * y) (mapc a) (mapc b) := by
  rw [mapc, List.map_zipWith, mapc, mapc, List.zipWith_map]
  have hfg : (fun (x y : ℤ) => (((x - z * y) % Q : ℤ) : Rq)) =
      (fun (x y : ℤ) => ((x : ℤ) : Rq) - ((z : ℤ) : Rq) * ((y : ℤ) : Rq)) := by
    funext x y
    rw [castQ_mod]
    push_cast
    ring
  rw [hfg]

/-- The inverse butterfly's first half commutes with the cast. -/
theorem mapc_zip_invadd (a b : List ℤ) :
    mapc (List.zipWith (fun x y => (x + y) % Q) a b) =
      List.zipWith (fun x y => x + y) (mapc a) (mapc b) := by
  rw [mapc, List.map_zipWith, mapc, mapc, List.zipWith_map]
  have hfg : (fun (x y : ℤ) => (((x + y) % Q : ℤ) : Rq)) =
      (fun (x y : ℤ) => ((x : ℤ) : Rq) + ((y : ℤ) : Rq)) := by
    funext x y
    rw [castQ_mod]
    push_cast
    ring
  rw [hfg]

/-- The inverse butterfly's second half commutes with the cast. -/
theorem mapc_zip_invsub (z : ℤ) (a b : List ℤ) :
    mapc (List.zipWith (fun x y => (z * (y - x)) % Q) a b) =
      List.zipWith (fun x y => (z : Rq) * (y - x)) (mapc a) (mapc b) := by
  rw [mapc, List.map_zipWith, mapc, mapc, List.zipWith_map]
  have hfg : (fun (x y : ℤ) => (((z * (y - x)) % Q : ℤ) : Rq)) =
      (fun (x y : ℤ) => ((z : ℤ) : Rq) * (((y : ℤ) : Rq) - ((x : ℤ) : Rq))) := by
    funext x y
    rw [castQ_mod]
    push_cast
    ring
  rw [hfg]

/-- The Z_q block pass mirrors the integer block pass through the cast. -/
theorem nttBlocks_mapc : ∀ (nb len k : ℕ) (f : List ℤ),
    mapc (nttBlocks len k nb f).1 = (nttBlocksM len k nb (mapc f)).1 ∧
      (nttBlocks len k nb f).2 = (nttBlocksM len k nb (mapc f)).2 := by
  intro nb
  induction nb with
  | zero => intro len k f; exact ⟨rfl, rfl⟩
  | succ n ih =>
      intro len k f
      obtain ⟨ih1, ih2⟩ := ih len (k + 1) (f.drop (2 * len))
      simp only [nttBlocks, nttBlocksM]
      constructor
      · rw [mapc_append, mapc_append, mapc_zip_bfadd, mapc_zip_bfsub, ih1]
        simp only [mapc_take, mapc_drop, zetam_getD_cast]
      · rw [ih2, mapc_drop]
  
/-- The Z_q layer pass mirrors the integer layer pass through the cast. -/
theorem nttLayers_mapc : ∀ (l k : ℕ) (f : List ℤ),
    mapc (nttLayers l k f).1 = (nttLayersM l k (mapc f)).1 ∧
      (nttLayers l k f).2 = (nttLayersM l k (mapc f)).2 := by
  intro l
  induction l with
  | zero => intro k f; exact ⟨rfl, rfl⟩
  | succ n ih =>
      intro k f
      simp only [nttLayers, nttLayersM]
      rw [← (nttBlocks_mapc _ _ _ _).1, ← (nttBlocks_mapc _ _ _ _).2]
      exact ih _ _

/-- The forward NTT commutes with the coefficient cast. -/
theorem ntt_mapc (f : List ℤ) : mapc (ntt f) = nttM (mapc f) :=
  (nttLayers_mapc 7 1 f).1

/-- The Z_q inverse block pass mirrors the integer one through the cast. -/
theorem nttInvBlocks_mapc : ∀ (nb len k : ℕ) (f : List ℤ),
    mapc (nttInvBlocks len k nb f).1 = (nttInvBlocksM len k nb (mapc f)).1 ∧
      (nttInvBlocks len k nb f).2 = (nttInvBlocksM len k nb (mapc f)).2 := by
  intro nb
  induction nb with
  | zero => intro len k f; exact ⟨rfl, rfl⟩
  | succ n ih =>
      intro len k f
      obtain ⟨ih1, ih2⟩ := ih len (k - 1) (f.drop (2 * len))
      simp only [nttInvBlocks, nttInvBlocksM]
      constructor
      · rw [mapc_append, mapc_append, mapc_zip_invadd, mapc_zip_invsub, ih1]
        simp only [mapc_take, mapc_drop, zetam_getD_cast]
      · rw [ih2, mapc_drop]

/-- The Z_q inverse layer pass mirrors the integer one through the cast. -/
theorem nttInvLayers_mapc : ∀ (l k : ℕ) (f : List ℤ),
    mapc (nttInvLayers l k f).1 = (nttInvLayersM l k (mapc f)).1 ∧
      (nttInvLayers l k f).2 = (nttInvLayersM l k (mapc f)).2 := by
  intro l
  induction l with
  | zero => intro k f; exact ⟨rfl, rfl⟩
  | succ n ih =>
      intro k f
      simp only [nttInvLayers, nttInvLayersM]
      rw [← (nttInvBlocks_mapc _ _ _ _).1, ← (nttInvBlocks_mapc _ _ _ _).2]
      exact ih _ _

/-- The inverse NTT commutes with the coefficient cast. -/
theorem ntt_inv_mapc (f : List ℤ) : mapc (ntt_inv f) = nttInvM (mapc f) := by
  rw [ntt_inv, nttInvM, ← (nttInvLayers_mapc 7 127 f).1, mapc, mapc, List.map_map,
    List.map_map]
  have hfg : ((Int.cast : ℤ → Rq) ∘ fun x => x * 3303 % Q) =
      ((fun x => x * 3303) ∘ (Int.cast : ℤ → Rq)) := by
    funext x
    show (((x * 3303) % Q : ℤ) : Rq) = ((x : ℤ) : Rq) * 3303
    rw [castQ_mod]
    push_cast
    ring
  rw [hfg]

/-- smulL distributes over append. -/
theorem smulL_append (s : Rq) (a b : List Rq) :
    smulL s (a ++ b) = smulL s a ++ smulL s b := List.map_append ..

/-- smulL by 1 is the identity. -/
theorem smulL_one (f : List Rq) : smulL 1 f = f := by
  simp [smulL]

/-- Length of a scalar multiple. -/
theorem smulL_length (s : Rq) (f : List Rq) : (smulL s f).length = f.length :=
  List.length_map ..

/-- smulL commutes with take. -/
theorem smulL_take (s : Rq) (n : ℕ) (f : List Rq) :
    (smulL s f).take n = smulL s (f.take n) := (List.map_take ..).symm

/-- smulL commutes with drop. -/
theorem smulL_drop (s : Rq) (n : ℕ) (f : List Rq) :
    (smulL s f).drop n = smulL s (f.drop n) := (List.map_drop ..).symm

/-- First half of the inverse butterfly undoes the forward butterfly up to
a factor 2 (no root needed). -/
theorem zip_bf_cancel_fst : ∀ (x y : List Rq) (z s : Rq), x.length = y.length →
    List.zipWith (fun a b => a + b)
      ((List.zipWith (fun a b => a + z * b) x y).map (fun v => s * v))
      ((List.zipWith (fun a b => a - z * b) x y).map (fun v => s * v)) =
      x.map (fun v => 2 * s * v) := by
  intro x
  induction x with
  | nil => intro y z s h; simp
  | cons a as ih =>
      intro y z s h
      cases y with
      | nil => simp at h
      | cons b bs =>
          simp only [List.zipWith_cons_cons, List.map_cons]
          rw [ih bs z s (by simp only [List.length_cons] at h; omega)]
          congr 1
          ring

/-- Second half of the inverse butterfly recovers the odd half times 2,
given the root pairing z' * z = -1. -/
theorem zip_bf_cancel_snd : ∀ (x y : List Rq) (z z' s : Rq), x.length = y.length →
    z' * z = -1 →
    List.zipWith (fun a b => z' * (b - a))
      ((List.zipWith (fun a b => a + z * b) x y).map (fun v => s * v))
      ((List.zipWith (fun a b => a - z * b) x y).map (fun v => s * v)) =
      y.map (fun v => 2 * s * v) := by
  intro x
  induction x with
  | nil =>
      intro y z z' s h hzz
      rw [List.length_nil] at h
      rw [List.eq_nil_of_length_eq_zero h.symm]
      rfl
  | cons a as ih =>
      intro y z z' s h hzz
      cases y with
      | nil => simp at h
      | cons b bs =>
          simp only [List.zipWith_cons_cons, List.map_cons]
          rw [ih bs z z' s (by simp only [List.length_cons] at h; omega) hzz]
          congr 1
          linear_combination (-2) * s * b * hzz

/-- Butterflied chunk pass on a flattened chunk list = blockwise pass. -/
theorem nttBlocksM_flatten : ∀ (cs : List (List Rq)) (len k nb : ℕ),
    nb = cs.length → (∀ c ∈ cs, c.length = 2 * len) →
    nttBlocksM len k nb cs.flatten = ((bfChunksM len k cs).flatten, k + nb) := by
  intro cs
  induction cs with
  | nil =>
      intro len k nb hnb h
      subst hnb
      rfl
  | cons c cs ih =>
      intro len k nb hnb h
      subst hnb
      have hc : c.length = 2 * len := h c (by simp)
      simp only [List.length_cons, nttBlocksM, bfChunksM, List.flatten_cons]
      rw [List.take_left' hc, List.drop_left' hc]
      rw [ih len (k + 1) cs.length rfl (fun c' hc' => h c' (by simp [hc']))]
      rw [Prod.mk.injEq]
      refine ⟨by rw [List.append_assoc], by omega⟩

/-- The inverse block pass exactly undoes a (scaled) butterflied chunk
pass, doubling the scale factor, when the ZETA indices pair to -1. -/
theorem nttInvBlocksM_cancel : ∀ (cs : List (List Rq)) (len kf ki nb : ℕ) (s : Rq),
    nb = cs.length → (∀ c ∈ cs, c.length = 2 * len) →
    (∀ t, t < cs.length → ZETAM.getD (ki - t) 0 * ZETAM.getD (kf + t) 0 = -1) →
    cs.length ≤ ki + 1 →
    nttInvBlocksM len ki nb (smulL s (bfChunksM len kf cs).flatten) =
      (smulL (2 * s) cs.flatten, ki - nb) := by
  intro cs
  induction cs with
  | nil =>
      intro len kf ki nb s hnb hlen hp hki
      subst hnb
      rfl
  | cons c cs ih =>
      intro len kf ki nb s hnb hlen hp hki
      subst hnb
      have hc : c.length = 2 * len := hlen c (by simp)
      have hxl : (c.take len).length = len := by rw [List.length_take]; omega
      have hyl : (c.drop len).length = len := by rw [List.length_drop]; omega
      have hbfl : (List.zipWith (fun x y => x + ZETAM.getD kf 0 * y) (c.take len)
            (c.drop len) ++
          List.zipWith (fun x y => x - ZETAM.getD kf 0 * y) (c.take len)
            (c.drop len)).length = 2 * len := by
        rw [List.length_append, List.length_zipWith, List.length_zipWith, hxl, hyl]
        omega
      have hz1 : (List.zipWith (fun x y => x + ZETAM.getD kf 0 * y) (c.take len)
          (c.drop len)).length = len := by
        rw [List.length_zipWith, hxl, hyl]
        omega
      simp only [List.length_cons, bfChunksM, List.flatten_cons, nttInvBlocksM]
      rw [smulL_append]
      rw [List.take_left' (by rw [smulL_length]; exact hbfl),
        List.drop_left' (by rw [smulL_length]; exact hbfl)]
      rw [show (smulL s (List.zipWith (fun x y => x + ZETAM.getD kf 0 * y) (c.take len)
            (c.drop len) ++
          List.zipWith (fun x y => x - ZETAM.getD kf 0 * y) (c.take len)
            (c.drop len))).take len =
          smulL s (List.zipWith (fun x y => x + ZETAM.getD kf 0 * y) (c.take len)
            (c.drop len)) by
        rw [smulL_take, List.take_left' hz1]]
      rw [show (smulL s (List.zipWith (fun x y => x + ZETAM.getD kf 0 * y) (c.take len)
            (c.drop len) ++
          List.zipWith (fun x y => x - ZETAM.getD kf 0 * y) (c.take len)
            (c.drop len))).drop len =
          smulL s (List.zipWith (fun x y => x - ZETAM.getD kf 0 * y) (c.take len)
            (c.drop len)) by
        rw [smulL_drop, List.drop_left' hz1]]
      have hp0 : ZETAM.getD ki 0 * ZETAM.getD kf 0 = -1 := by
        have := hp 0 (by simp)
        simpa using this
      rw [show smulL s (List.zipWith (fun x y => x + ZETAM.getD kf 0 * y) (c.take len)
            (c.drop len)) =
          (List.zipWith (fun x y => x + ZETAM.getD kf 0 * y) (c.take len)
            (c.drop len)).map (fun v => s * v) from rfl,
        show smulL s (List.zipWith (fun x y => x - ZETAM.getD kf 0 * y) (c.take len)
            (c.drop len)) =
          (List.zipWith (fun x y => x - ZETAM.getD kf 0 * y) (c.take len)
            (c.drop len)).map (fun v => s * v) from rfl]
      rw [zip_bf_cancel_fst (c.take len) (c.drop len) _ s (by omega),
        zip_bf_cancel_snd (c.take len) (c.drop len) _ _ s (by omega) hp0]
      rw [ih len (kf + 1) (ki - 1) cs.length s rfl
        (fun c' hc' => hlen c' (by simp [hc']))
        (fun t ht => by
          have := hp (t + 1) (by simp only [List.length_cons]; omega)
          rw [show ki - 1 - t = ki - (t + 1) by omega, show kf + 1 + t = kf + (t + 1) by ring]
          exact this)
        (by simp only [List.length_cons] at hki; omega)]
      rw [Prod.mk.injEq]
      constructor
      · rw [show (List.map (fun v => 2 * s * v) (c.take len) : List Rq) =
            smulL (2 * s) (c.take len) from rfl,
          show (List.map (fun v => 2 * s * v) (c.drop len) : List Rq) =
            smulL (2 * s) (c.drop len) from rfl]
        rw [← smulL_append, List.take_append_drop, smulL_append]
      · simp only [List.length_cons]
        omega

/-- Flattening the split chunk list gives the flattened butterflied list. -/
theorem bfSplit_flatten : ∀ (cs : List (List Rq)) (len k : ℕ),
    (bfSplitM len k cs).flatten = (bfChunksM len k cs).flatten := by
  intro cs
  induction cs with
  | nil => intro len k; rfl
  | cons c cs ih =>
      intro len k
      simp only [bfSplitM, bfChunksM, List.flatten_cons, ih, List.append_assoc]

/-- The split chunk list has twice as many chunks. -/
theorem bfSplit_length : ∀ (cs : List (List Rq)) (len k : ℕ),
    (bfSplitM len k cs).length = 2 * cs.length := by
  intro cs
  induction cs with
  | nil => intro len k; rfl
  | cons c cs ih =>
      intro len k
      simp only [bfSplitM, List.length_cons, ih]
      omega

/-- Each split chunk has half the input chunk length. -/
theorem bfSplit_chunk_length : ∀ (cs : List (List Rq)) (len k : ℕ),
    (∀ c ∈ cs, c.length = 2 * len) → ∀ c' ∈ bfSplitM len k cs, c'.length = len := by
  intro cs
  induction cs with
  | nil => intro len k h c' hc'; simp [bfSplitM] at hc'
  | cons c cs ih =>
      intro len k h c' hc'
      have hc : c.length = 2 * len := h c (by simp)
      have hxl : (c.take len).length = len := by rw [List.length_take]; omega
      have hyl : (c.drop len).length = len := by rw [List.length_drop]; omega
      simp only [bfSplitM, List.mem_cons] at hc'
      rcases hc' with h1 | h1 | h1
      · rw [h1, List.length_zipWith, hxl, hyl]; omega
      · rw [h1, List.length_zipWith, hxl, hyl]; omega
      · exact ih len (k + 1) (fun c'' hc'' => h c'' (by simp [hc''])) c' h1

/-- The bitrev7 exponents of paired forward/inverse ZETA indices sum to
exactly 128 (finite check over all levels and block positions). -/
theorem bitrev7_pair_sum (l t : ℕ) (hl : l ≤ 6) (ht : t < 2 ^ (6 - l)) :
    bitrev7 (2 ^ (7 - l) - 1 - t) + bitrev7 (2 ^ (6 - l) + t) = 128 := by
  have hfin : ∀ (lf : Fin 7) (tf : Fin 64), tf.val < 2 ^ (6 - lf.val) →
      bitrev7 (2 ^ (7 - lf.val) - 1 - tf.val) + bitrev7 (2 ^ (6 - lf.val) + tf.val) = 128 := by
    decide
  have hb : (2 : ℕ) ^ (6 - l) ≤ 64 := by
    calc (2 : ℕ) ^ (6 - l) ≤ 2 ^ 6 := Nat.pow_le_pow_right (by norm_num) (by omega)
    _ = 64 := by norm_num
  exact hfin ⟨l, by omega⟩ ⟨t, by omega⟩ ht

/-- The paired ZETA entries of matching forward/inverse blocks multiply to
-1: their bitrev7 exponents sum to 128 and 17^128 = -1 in Z_q. -/
theorem zetam_pair (l t : ℕ) (hl : l ≤ 6) (ht : t < 2 ^ (6 - l)) :
    ZETAM.getD (2 ^ (7 - l) - 1 - t) 0 * ZETAM.getD (2 ^ (6 - l) + t) 0 = -1 := by
  have hb : (2 : ℕ) ^ (6 - l) ≤ 64 := by
    calc (2 : ℕ) ^ (6 - l) ≤ 2 ^ 6 := Nat.pow_le_pow_right (by norm_num) (by omega)
    _ = 64 := by norm_num
  have hb7 : (2 : ℕ) ^ (7 - l) ≤ 128 := by
    calc (2 : ℕ) ^ (7 - l) ≤ 2 ^ 7 := Nat.pow_le_pow_right (by norm_num) (by omega)
    _ = 128 := by norm_num
  have h1 : 2 ^ (7 - l) - 1 - t < 128 := by omega
  have h2 : 2 ^ (6 - l) + t < 128 := by omega
  rw [zetam_getD_pow _ h1, zetam_getD_pow _ h2, ← pow_add]
  rw [bitrev7_pair_sum l t hl ht]
  decide

/-- Seven-layer cancellation: running the full inverse layer stack over
the output of the forward layer stack from level l onward equals running
only the remaining (coarser) inverse layers over the input scaled by 2^l.
The ZETA indices consumed by the two stacks pair off to -1 blockwise. -/
theorem layers_cancel : ∀ (l : ℕ), l ≤ 7 → ∀ (cs : List (List Rq)),
    (∀ c ∈ cs, c.length = 2 ^ (l + 1)) → cs.length = 2 ^ (7 - l) →
    nttInvLayersM 7 127 ((nttLayersM l (2 ^ (7 - l)) cs.flatten).1) =
      nttInvLayersM (7 - l) (2 ^ (7 - l) - 1) (smulL ((2 : Rq) ^ l) cs.flatten) := by
  intro l
  induction l with
  | zero =>
      intro _ cs hlen hcount
      simp only [nttLayersM, pow_zero, smulL_one, Nat.sub_zero]
      norm_num
  | succ l ih =>
      intro hl cs hlen hcount
      have hl6 : l ≤ 6 := by omega
      have e3 : 7 - (l + 1) = 6 - l := by omega
      have e1 : (128 : ℕ) / 2 ^ (l + 1) = 2 ^ (6 - l) := by
        have h128 : (128 : ℕ) = 2 ^ (l + 1) * 2 ^ (6 - l) := by
          rw [← pow_add, show l + 1 + (6 - l) = 7 from by omega]
          norm_num
        rw [h128, Nat.mul_div_cancel_left _ (by positivity)]
      have e2 : (2 : ℕ) ^ (7 - l) = 2 ^ (6 - l) + 2 ^ (6 - l) := by
        rw [← two_mul, ← pow_succ']
        congr 1
        omega
      have e4 : (2 : ℕ) ^ (7 - (l + 1)) = 2 ^ (6 - l) := by rw [e3]
      have hclen : ∀ c ∈ cs, c.length = 2 * 2 ^ (l + 1) := by
        intro c hc
        rw [hlen c hc]
        ring
      have hcount' : cs.length = 2 ^ (6 - l) := by rw [hcount, e4]
      -- unfold one forward layer and convert to the butterflied chunk list
      simp only [nttLayersM]
      rw [e1, nttBlocksM_flatten cs (2 ^ (l + 1)) (2 ^ (7 - (l + 1))) (2 ^ (6 - l))
        hcount'.symm hclen]
      -- apply the induction hypothesis at the split chunk list
      rw [← bfSplit_flatten]
      have hcnt2 : (bfSplitM (2 ^ (l + 1)) (2 ^ (7 - (l + 1))) cs).length = 2 ^ (7 - l) := by
        rw [bfSplit_length, hcount', ← pow_succ']
        congr 1
        omega
      have hctr : 2 ^ (7 - (l + 1)) + 2 ^ (6 - l) = 2 ^ (7 - l) := by
        rw [e4, ← e2]
      rw [hctr]
      rw [ih (by omega) (bfSplitM (2 ^ (l + 1)) (2 ^ (7 - (l + 1))) cs)
        (bfSplit_chunk_length cs _ _ hclen) hcnt2]
      -- unfold one inverse layer on the right-hand side of the IH
      rw [show 7 - l = (6 - l) + 1 by omega]
      simp only [nttInvLayersM]
      rw [show 8 - (6 - l + 1) = l + 1 by omega, e1]
      rw [bfSplit_flatten]
      have hpair : ∀ t, t < cs.length →
          ZETAM.getD (2 ^ (6 - l + 1) - 1 - t) 0 *
            ZETAM.getD (2 ^ (7 - (l + 1)) + t) 0 = -1 := by
        intro t ht
        rw [e4]
        rw [show (6 - l + 1) = 7 - l by omega]
        exact zetam_pair l t hl6 (by rw [hcount'] at ht; exact ht)
      rw [nttInvBlocksM_cancel cs (2 ^ (l + 1)) (2 ^ (7 - (l + 1)))
        (2 ^ (6 - l + 1) - 1) (2 ^ (6 - l)) ((2 : Rq) ^ l) hcount'.symm hclen hpair
        (by rw [hcount', show (6 - l + 1) = 7 - l by omega]; omega)]
      rw [show (2 : Rq) * 2 ^ l = 2 ^ (l + 1) by rw [pow_succ']]
      rw [show 2 ^ (6 - l + 1) - 1 - 2 ^ (6 - l) = 2 ^ (7 - (l + 1)) - 1 by
        rw [e4, show (6 - l + 1) = 7 - l by omega, e2]
        omega]
      rw [e3]

/-- Z_q round trip: the inverse NTT undoes the forward NTT on any
256-coefficient input (the final scaling by 3303 cancels the 2^7 = 128
factor accumulated by the seven butterfly layers). -/
theorem nttInvM_nttM (F : List Rq) (h : F.length = 256) : nttInvM (nttM F) = F := by
  have hfl : [F].flatten = F := by simp
  have h7 := layers_cancel 7 (le_refl 7) [F]
    (by intro c hc; simp only [List.mem_singleton] at hc; rw [hc, h]; norm_num)
    (by simp)
  rw [hfl] at h7
  rw [nttInvM, nttM]
  norm_num at h7
  rw [h7]
  show (smulL (2 ^ 7) F).map (fun x => x * 3303) = F
  rw [smulL, List.map_map]
  have hid : ((fun x => x * 3303) ∘ fun x => (2 : Rq) ^ 7 * x) = id := by
    funext x
    show (2 : Rq) ^ 7 * x * 3303 = x
    have hu : (2 : Rq) ^ 7 * 3303 = 1 := by decide
    linear_combination x * hu
  rw [hid, List.map_id]

/-- Every coefficient the inverse NTT outputs lies in [0, Q). -/
theorem ntt_inv_mem (f : List ℤ) (x : ℤ) (hx : x ∈ ntt_inv f) : 0 ≤ x ∧ x < 3329 := by
  rw [ntt_inv] at hx
  rw [List.mem_map] at hx
  obtain ⟨y, _, rfl⟩ := hx
  constructor
  · exact Int.emod_nonneg _ (by norm_num [Q])
  · have := Int.emod_lt_of_pos (y * 3303) (show (0 : ℤ) < Q by norm_num [Q])
    rw [show Q = (3329 : ℤ) from rfl] at this
    exact this

/-- The coefficient cast is injective on lists with entries in [0, Q). -/
theorem mapc_inj : ∀ (g h : List ℤ), (∀ x ∈ g, 0 ≤ x ∧ x < 3329) →
    (∀ x ∈ h, 0 ≤ x ∧ x < 3329) → mapc g = mapc h → g = h := by
  intro g
  induction g with
  | nil =>
      intro h _ _ he
      cases h with
      | nil => rfl
      | cons b bs => simp [mapc] at he
  | cons a as ih =>
      intro h hg hh he
      cases h with
      | nil => simp [mapc] at he
      | cons b bs =>
          simp only [mapc, List.map_cons, List.cons.injEq] at he
          obtain ⟨h1, h2⟩ := he
          have ha := hg a (by simp)
          have hb := hh b (by simp)
          rw [castQ_inj a b ha.1 ha.2 hb.1 hb.2 h1,
            ih bs (fun x hx => hg x (by simp [hx])) (fun x hx => hh x (by simp [hx])) h2]

/-- C4: the inverse NTT undoes the forward NTT on every 256-coefficient
polynomial with entries in [0, q): ntt_inv(ntt(f)) = f. -/
theorem c4_ntt_roundtrip (f : List ℤ) (hlen : f.length = 256)
    (hrange : ∀ x ∈ f, 0 ≤ x ∧ x < 3329) : ntt_inv (ntt f) = f := by
  apply mapc_inj _ _ (fun x hx => ntt_inv_mem _ x hx) hrange
  rw [ntt_inv_mapc, ntt_mapc, nttInvM_nttM (mapc f) (by rw [mapc_length, hlen])]

/-- Witness for C4 at the zero polynomial. -/
theorem c4_ntt_roundtrip_witness :
    (List.replicate 256 (0 : ℤ)).length = 256 ∧
      ntt_inv (ntt (List.replicate 256 0)) = List.replicate 256 0 :=
  ⟨by simp, c4_ntt_roundtrip (List.replicate 256 0) (by simp)
    (fun x hx => by rw [List.eq_of_mem_replicate hx]; norm_num)⟩


/-- 17 has multiplicative order dividing 256 in Z_q. -/
theorem pow17_256 : (17 : Rq) ^ 256 = 1 := by decide

/-- 17^128 = -1 in Z_q (17 is a primitive 256th root of unity). -/
theorem pow17_128 : (17 : Rq) ^ 128 = -1 := by decide

/-- Exponents of 17 can be reduced mod 256. -/
theorem pow17_mod (a : ℕ) : (17 : Rq) ^ a = 17 ^ (a % 256) := by
  conv_lhs => rw [← Nat.div_add_mod a 256]
  rw [pow_add, pow_mul, pow17_256, one_pow, one_mul]

/-- The companion matrix squares to the scalar g. -/
theorem compM_sq (g : Rq) : compM g * compM g = g • 1 := by
  rw [compM]
  ext i j
  fin_cases i <;> fin_cases j <;>
    simp [Matrix.mul_apply, Fin.sum_univ_two, Matrix.one_apply]

/-- Even powers of the companion matrix are scalar. -/
theorem compM_pow_even (g : Rq) (m : ℕ) :
    compM g ^ (2 * m) = (g ^ m) • (1 : Matrix (Fin 2) (Fin 2) Rq) := by
  rw [pow_mul, pow_two, compM_sq, smul_pow, one_pow]

/-- Horner step of the matrix evaluation. -/
theorem matEval_cons (g a : Rq) (f : List Rq) :
    matEval g (a :: f) = a • 1 + compM g * matEval g f := rfl

/-- Matrix evaluation of the empty list. -/
theorem matEval_nil (g : Rq) : matEval g [] = 0 := rfl

/-- Every matrix evaluation lies in the 2-dimensional commutative algebra
spanned by 1 and the companion matrix. -/
theorem matEval_shape : ∀ (f : List Rq) (g : Rq), ∃ (e : Rq) (o : Rq),
    matEval g f = e • (1 : Matrix (Fin 2) (Fin 2) Rq) + o • compM g := by
  intro f
  induction f with
  | nil => intro g; exact ⟨0, 0, by simp [matEval]⟩
  | cons a f ih =>
      intro g
      obtain ⟨e, o, he⟩ := ih g
      refine ⟨a + g * o, e, ?_⟩
      rw [matEval_cons, he, mul_add, mul_smul_comm, mul_one, mul_smul_comm, compM_sq,
        smul_smul]
      match_scalars <;> ring

/-- Entries of an element of that algebra. -/
theorem shape_entries (g e o : Rq) :
    (e • (1 : Matrix (Fin 2) (Fin 2) Rq) + o • compM g) 0 0 = e ∧
      (e • (1 : Matrix (Fin 2) (Fin 2) Rq) + o • compM g) 1 0 = o ∧
      (e • (1 : Matrix (Fin 2) (Fin 2) Rq) + o • compM g) 0 1 = g * o ∧
      (e • (1 : Matrix (Fin 2) (Fin 2) Rq) + o • compM g) 1 1 = e := by
  refine ⟨?_, ?_, ?_, ?_⟩ <;> norm_num [compM, Matrix.one_apply, mul_comm]

/-- Matrix evaluation of a two-element chunk. -/
theorem matEval_two (g x y : Rq) : matEval g [x, y] =
    x • (1 : Matrix (Fin 2) (Fin 2) Rq) + y • compM g := by
  rw [matEval_cons, matEval_cons, matEval_nil, mul_zero, add_zero, mul_smul_comm, mul_one]

/-- Matrix evaluation splits along append with a companion-power twist. -/
theorem matEval_append (g : Rq) : ∀ (x y : List Rq),
    matEval g (x ++ y) = matEval g x + (compM g) ^ x.length * matEval g y := by
  intro x y
  induction x with
  | nil => simp [matEval]
  | cons a x ih =>
      simp only [List.cons_append, matEval_cons, ih, List.length_cons]
      rw [mul_add, ← mul_assoc, ← pow_succ']
      rw [add_assoc]

/-- Matrix evaluation of the forward butterfly's first half. -/
theorem matEval_zipAdd_smul (g z : Rq) : ∀ (x y : List Rq), x.length = y.length →
    matEval g (List.zipWith (fun a b => a + z * b) x y) =
      matEval g x + z • matEval g y := by
  intro x
  induction x with
  | nil =>
      intro y h
      rw [List.length_nil] at h
      rw [List.eq_nil_of_length_eq_zero h.symm]
      simp [matEval]
  | cons a as ih =>
      intro y h
      cases y with
      | nil => simp at h
      | cons b bs =>
          simp only [List.zipWith_cons_cons, matEval_cons]
          rw [ih bs (by simp only [List.length_cons] at h; omega)]
          rw [mul_add, mul_smul_comm, smul_add, smul_smul, add_smul]
          abel

/-- Matrix evaluation of the forward butterfly's second half. -/
theorem matEval_zipSub_smul (g z : Rq) : ∀ (x y : List Rq), x.length = y.length →
    matEval g (List.zipWith (fun a b => a - z * b) x y) =
      matEval g x - z • matEval g y := by
  intro x
  induction x with
  | nil =>
      intro y h
      rw [List.length_nil] at h
      rw [List.eq_nil_of_length_eq_zero h.symm]
      simp [matEval]
  | cons a as ih =>
      intro y h
      cases y with
      | nil => simp at h
      | cons b bs =>
          simp only [List.zipWith_cons_cons, matEval_cons]
          rw [ih bs (by simp only [List.length_cons] at h; omega)]
          rw [mul_sub, mul_smul_comm, sub_smul, smul_add, smul_smul]
          abel

/-- Finite check: bitrev8 of a left-child leaf index, scaled by the
subtree width, reduces mod 256 to the node's bitrev7 exponent. -/
theorem brv8_step_left : ∀ (lf : Fin 7) (tf : Fin 64) (indf : Fin 64),
    tf.val < 2 ^ (6 - lf.val) → indf.val < 2 ^ lf.val →
    bitrev8 ((2 ^ (6 - lf.val) + tf.val) * 2 ^ (lf.val + 1) + indf.val) * 2 ^ lf.val % 256 =
      bitrev7 (2 ^ (6 - lf.val) + tf.val) := by decide

/-- Finite check: same for a right-child leaf index, shifted by 128. -/
theorem brv8_step_right : ∀ (lf : Fin 7) (tf : Fin 64) (indf : Fin 64),
    tf.val < 2 ^ (6 - lf.val) → indf.val < 2 ^ lf.val →
    bitrev8 ((2 ^ (6 - lf.val) + tf.val) * 2 ^ (lf.val + 1) + 2 ^ lf.val + indf.val) *
        2 ^ lf.val % 256 =
      (bitrev7 (2 ^ (6 - lf.val) + tf.val) + 128) % 256 := by decide

/-- Finite check: the leaf index 128 + i has bitrev8 = 2 * bitrev7 i + 1,
the GAMMA exponent. -/
theorem brv8_leaf : ∀ i : Fin 128, bitrev8 (128 + i.val) = 2 * bitrev7 i.val + 1 := by
  decide

/-- brv8_step_left over naturals. -/
theorem brv8_left (l j i : ℕ) (hl : l ≤ 6) (hj1 : 2 ^ (6 - l) ≤ j)
    (hj2 : j < 2 ^ (7 - l)) (hi : i < 2 ^ l) :
    bitrev8 (j * 2 ^ (l + 1) + i) * 2 ^ l % 256 = bitrev7 j := by
  have hb6 : (2 : ℕ) ^ (6 - l) ≤ 64 := by
    calc (2 : ℕ) ^ (6 - l) ≤ 2 ^ 6 := Nat.pow_le_pow_right (by norm_num) (by omega)
    _ = 64 := by norm_num
  have hbl : (2 : ℕ) ^ l ≤ 64 := by
    calc (2 : ℕ) ^ l ≤ 2 ^ 6 := Nat.pow_le_pow_right (by norm_num) hl
    _ = 64 := by norm_num
  have hp : (2 : ℕ) ^ (7 - l) = 2 ^ (6 - l) * 2 := by
    rw [← pow_succ]
    congr 1
    omega
  have h := brv8_step_left ⟨l, by omega⟩ ⟨j - 2 ^ (6 - l), by omega⟩ ⟨i, by omega⟩
    (by show j - 2 ^ (6 - l) < 2 ^ (6 - l); omega) (by show i < 2 ^ l; exact hi)
  simpa [Nat.add_sub_cancel' hj1] using h

/-- brv8_step_right over naturals. -/
theorem brv8_right (l j i : ℕ) (hl : l ≤ 6) (hj1 : 2 ^ (6 - l) ≤ j)
    (hj2 : j < 2 ^ (7 - l)) (hi : i < 2 ^ l) :
    bitrev8 (j * 2 ^ (l + 1) + 2 ^ l + i) * 2 ^ l % 256 = (bitrev7 j + 128) % 256 := by
  have hb6 : (2 : ℕ) ^ (6 - l) ≤ 64 := by
    calc (2 : ℕ) ^ (6 - l) ≤ 2 ^ 6 := Nat.pow_le_pow_right (by norm_num) (by omega)
    _ = 64 := by norm_num
  have hbl : (2 : ℕ) ^ l ≤ 64 := by
    calc (2 : ℕ) ^ l ≤ 2 ^ 6 := Nat.pow_le_pow_right (by norm_num) hl
    _ = 64 := by norm_num
  have hp : (2 : ℕ) ^ (7 - l) = 2 ^ (6 - l) * 2 := by
    rw [← pow_succ]
    congr 1
    omega
  have h := brv8_step_right ⟨l, by omega⟩ ⟨j - 2 ^ (6 - l), by omega⟩ ⟨i, by omega⟩
    (by show j - 2 ^ (6 - l) < 2 ^ (6 - l); omega) (by show i < 2 ^ l; exact hi)
  simpa [Nat.add_sub_cancel' hj1] using h

/-- brv8_leaf over naturals. -/
theorem brv8_leaf_nat (i : ℕ) (h : i < 128) : bitrev8 (128 + i) = 2 * bitrev7 i + 1 :=
  brv8_leaf ⟨i, h⟩

/-- The depth-first recursion preserves the chunk length. -/
theorem nttRecM_length : ∀ (l j : ℕ) (f : List Rq), f.length = 2 ^ (l + 1) →
    (nttRecM l j f).length = 2 ^ (l + 1) := by
  intro l
  induction l with
  | zero => intro j f h; exact h
  | succ l ih =>
      intro j f h
      have hp2 : (2 : ℕ) ^ (l + 2) = 2 ^ (l + 1) * 2 := pow_succ 2 (l + 1)
      have h1 : (f.take (2 ^ (l + 1))).length = 2 ^ (l + 1) := by
        rw [List.length_take, h]
        omega
      have h2 : (f.drop (2 ^ (l + 1))).length = 2 ^ (l + 1) := by
        rw [List.length_drop, h]
        omega
      have hzA : (List.zipWith (fun x y => x + ZETAM.getD j 0 * y) (f.take (2 ^ (l + 1)))
          (f.drop (2 ^ (l + 1)))).length = 2 ^ (l + 1) := by
        rw [List.length_zipWith, h1, h2]
        omega
      have hzS : (List.zipWith (fun x y => x - ZETAM.getD j 0 * y) (f.take (2 ^ (l + 1)))
          (f.drop (2 ^ (l + 1)))).length = 2 ^ (l + 1) := by
        rw [List.length_zipWith, h1, h2]
        omega
      simp only [nttRecM, List.length_append]
      rw [ih _ _ hzA, ih _ _ hzS]
      omega

/-- Leaf characterisation of the depth-first forward NTT: leaf pair i of
the subtree rooted at (l, j) is the residue pair of the chunk modulo
X^2 - 17^bitrev8(leaf index), read off the companion-matrix evaluation. -/
theorem nttRecM_inv : ∀ (l : ℕ), l ≤ 7 → ∀ (j : ℕ), 2 ^ (7 - l) ≤ j → j < 2 ^ (8 - l) →
    ∀ (f : List Rq), f.length = 2 ^ (l + 1) → ∀ (i : ℕ), i < 2 ^ l →
    (nttRecM l j f).getD (2 * i) 0 =
        (matEval ((17 : Rq) ^ bitrev8 (j * 2 ^ l + i)) f) 0 0 ∧
      (nttRecM l j f).getD (2 * i + 1) 0 =
        (matEval ((17 : Rq) ^ bitrev8 (j * 2 ^ l + i)) f) 1 0 := by
  intro l
  induction l with
  | zero =>
      intro _ j hj1 hj2 f hf i hi
      interval_cases i
      match f, hf with
      | [], hf => simp at hf
      | [x], hf => simp at hf
      | x :: y :: z :: rest, hf =>
          simp only [List.length_cons] at hf
          omega
      | [x, y], _ =>
          refine ⟨?_, ?_⟩
          · rw [matEval_two, (shape_entries _ _ _).1]
            rfl
          · rw [matEval_two, (shape_entries _ _ _).2.1]
            rfl
  | succ l ih =>
      intro hl j hj1 hj2 f hf i hi
      have hl7 : l ≤ 7 := by omega
      have hp1 : (2 : ℕ) ^ (l + 1) = 2 ^ l * 2 := pow_succ 2 l
      have hp2 : (2 : ℕ) ^ (l + 2) = 2 ^ (l + 1) * 2 := pow_succ 2 (l + 1)
      have e5 : (2 : ℕ) ^ (8 - (l + 1)) = 2 ^ (7 - l) := by congr 1; omega
      have e6 : (2 : ℕ) ^ (7 - (l + 1)) = 2 ^ (6 - l) := by congr 1; omega
      have hp67 : (2 : ℕ) ^ (7 - l) = 2 ^ (6 - l) * 2 := by
        rw [← pow_succ]
        congr 1
        omega
      have hp78 : (2 : ℕ) ^ (8 - l) = 2 ^ (7 - l) * 2 := by
        rw [← pow_succ]
        congr 1
        omega
      have hj1' : 2 ^ (6 - l) ≤ j := by rw [← e6]; exact hj1
      have hj2' : j < 2 ^ (7 - l) := by rw [← e5]; exact hj2
      have hj128 : j < 128 := by
        have : (2 : ℕ) ^ (7 - l) ≤ 128 := by
          calc (2 : ℕ) ^ (7 - l) ≤ 2 ^ 7 := Nat.pow_le_pow_right (by norm_num) (by omega)
          _ = 128 := by norm_num
        omega
      have hx : (f.take (2 ^ (l + 1))).length = 2 ^ (l + 1) := by
        rw [List.length_take, hf]
        omega
      have hy : (f.drop (2 ^ (l + 1))).length = 2 ^ (l + 1) := by
        rw [List.length_drop, hf]
        omega
      have hzA : (List.zipWith (fun x y => x + ZETAM.getD j 0 * y) (f.take (2 ^ (l + 1)))
          (f.drop (2 ^ (l + 1)))).length = 2 ^ (l + 1) := by
        rw [List.length_zipWith, hx, hy]
        omega
      have hzS : (List.zipWith (fun x y => x - ZETAM.getD j 0 * y) (f.take (2 ^ (l + 1)))
          (f.drop (2 ^ (l + 1)))).length = 2 ^ (l + 1) := by
        rw [List.length_zipWith, hx, hy]
        omega
      have hrecl : (nttRecM l (2 * j) (List.zipWith (fun x y => x + ZETAM.getD j 0 * y)
          (f.take (2 ^ (l + 1))) (f.drop (2 ^ (l + 1))))).length = 2 ^ (l + 1) :=
        nttRecM_length l (2 * j) _ hzA
      simp only [nttRecM]
      by_cases hc : i < 2 ^ l
      · -- left subtree
        have hsplit : matEval ((17 : Rq) ^ bitrev8 (j * 2 ^ (l + 1) + i)) f =
            matEval ((17 : Rq) ^ bitrev8 (j * 2 ^ (l + 1) + i)) (f.take (2 ^ (l + 1))) +
              (((17 : Rq) ^ bitrev8 (j * 2 ^ (l + 1) + i)) ^ (2 ^ l)) •
                matEval ((17 : Rq) ^ bitrev8 (j * 2 ^ (l + 1) + i))
                  (f.drop (2 ^ (l + 1))) := by
          conv_lhs => rw [← List.take_append_drop (2 ^ (l + 1)) f]
          rw [matEval_append, hx, show (2 : ℕ) ^ (l + 1) = 2 * 2 ^ l by omega,
            compM_pow_even, smul_mul_assoc, one_mul]
        have hGz : ((17 : Rq) ^ bitrev8 (j * 2 ^ (l + 1) + i)) ^ (2 ^ l) =
            ZETAM.getD j 0 := by
          rw [← pow_mul, pow17_mod, brv8_left l j i (by omega) hj1' hj2' hc,
            ← zetam_getD_pow j hj128]
        obtain ⟨ihL0, ihL1⟩ := ih hl7 (2 * j) (by omega) (by omega) _ hzA i hc
        have hJ : 2 * j * 2 ^ l + i = j * 2 ^ (l + 1) + i := by
          rw [hp1]
          ring
        rw [hJ] at ihL0 ihL1
        have hMeq : matEval ((17 : Rq) ^ bitrev8 (j * 2 ^ (l + 1) + i))
            (List.zipWith (fun x y => x + ZETAM.getD j 0 * y) (f.take (2 ^ (l + 1)))
              (f.drop (2 ^ (l + 1)))) =
            matEval ((17 : Rq) ^ bitrev8 (j * 2 ^ (l + 1) + i)) f := by
          rw [matEval_zipAdd_smul _ _ _ _ (by rw [hx, hy]), hsplit, hGz]
        refine ⟨?_, ?_⟩
        · rw [List.getD_append _ _ _ _ (by rw [hrecl]; omega), ihL0, hMeq]
        · rw [List.getD_append _ _ _ _ (by rw [hrecl]; omega), ihL1, hMeq]
      · -- right subtree
        obtain ⟨idx, rfl⟩ : ∃ idx, i = 2 ^ l + idx := ⟨i - 2 ^ l, by omega⟩
        have hidx : idx < 2 ^ l := by omega
        have hsplit : matEval ((17 : Rq) ^ bitrev8 (j * 2 ^ (l + 1) + (2 ^ l + idx))) f =
            matEval ((17 : Rq) ^ bitrev8 (j * 2 ^ (l + 1) + (2 ^ l + idx)))
                (f.take (2 ^ (l + 1))) +
              (((17 : Rq) ^ bitrev8 (j * 2 ^ (l + 1) + (2 ^ l + idx))) ^ (2 ^ l)) •
                matEval ((17 : Rq) ^ bitrev8 (j * 2 ^ (l + 1) + (2 ^ l + idx)))
                  (f.drop (2 ^ (l + 1))) := by
          conv_lhs => rw [← List.take_append_drop (2 ^ (l + 1)) f]
          rw [matEval_append, hx, show (2 : ℕ) ^ (l + 1) = 2 * 2 ^ l by omega,
            compM_pow_even, smul_mul_assoc, one_mul]
        have hGz : ((17 : Rq) ^ bitrev8 (j * 2 ^ (l + 1) + (2 ^ l + idx))) ^ (2 ^ l) =
            -(ZETAM.getD j 0) := by
          rw [← pow_mul, pow17_mod,
            show j * 2 ^ (l + 1) + (2 ^ l + idx) = j * 2 ^ (l + 1) + 2 ^ l + idx by ring,
            brv8_right l j idx (by omega) hj1' hj2' hidx, ← pow17_mod, pow_add, pow17_128,
            ← zetam_getD_pow j hj128]
          ring
        obtain ⟨ihR0, ihR1⟩ := ih hl7 (2 * j + 1) (by omega) (by omega) _ hzS idx hidx
        have hJ : (2 * j + 1) * 2 ^ l + idx = j * 2 ^ (l + 1) + (2 ^ l + idx) := by
          rw [hp1]
          ring
        rw [hJ] at ihR0 ihR1
        have hMeq : matEval ((17 : Rq) ^ bitrev8 (j * 2 ^ (l + 1) + (2 ^ l + idx)))
            (List.zipWith (fun x y => x - ZETAM.getD j 0 * y) (f.take (2 ^ (l + 1)))
              (f.drop (2 ^ (l + 1)))) =
            matEval ((17 : Rq) ^ bitrev8 (j * 2 ^ (l + 1) + (2 ^ l + idx))) f := by
          rw [matEval_zipSub_smul _ _ _ _ (by rw [hx, hy]), hsplit, hGz, neg_smul,
            ← sub_eq_add_neg]
        refine ⟨?_, ?_⟩
        · rw [List.getD_append_right _ _ _ _ (by rw [hrecl]; omega), hrecl,
            show 2 * (2 ^ l + idx) - 2 ^ (l + 1) = 2 * idx by omega, ihR0, hMeq]
        · rw [List.getD_append_right _ _ _ _ (by rw [hrecl]; omega), hrecl,
            show 2 * (2 ^ l + idx) + 1 - 2 ^ (l + 1) = 2 * idx + 1 by omega, ihR1, hMeq]

/-- At depth 0 the chunk map is the identity. -/
theorem chunkMapM_zero : ∀ (cs : List (List Rq)) (base : ℕ), chunkMapM 0 base cs = cs := by
  intro cs
  induction cs with
  | nil => intro base; rfl
  | cons c cs ih =>
      intro base
      simp only [chunkMapM]
      rw [show nttRecM 0 base c = c from rfl, ih]

/-- A butterflied-and-split chunk list, mapped at depth l with doubled
base, flattens to the original chunk list mapped at depth l + 1. -/
theorem chunkMap_bfSplit : ∀ (cs : List (List Rq)) (l k : ℕ),
    (chunkMapM l (2 * k) (bfSplitM (2 ^ (l + 1)) k cs)).flatten =
      (chunkMapM (l + 1) k cs).flatten := by
  intro cs
  induction cs with
  | nil => intro l k; rfl
  | cons c cs ih =>
      intro l k
      simp only [bfSplitM, chunkMapM, List.flatten_cons]
      rw [show 2 * k + 1 + 1 = 2 * (k + 1) by ring, ih l (k + 1)]
      rw [show nttRecM (l + 1) k c =
        nttRecM l (2 * k) (List.zipWith (fun x y => x + ZETAM.getD k 0 * y)
            (c.take (2 ^ (l + 1))) (c.drop (2 ^ (l + 1)))) ++
          nttRecM l (2 * k + 1) (List.zipWith (fun x y => x - ZETAM.getD k 0 * y)
            (c.take (2 ^ (l + 1))) (c.drop (2 ^ (l + 1)))) from rfl]
      rw [List.append_assoc]

/-- Breadth-first layers equal the depth-first recursion chunkwise. -/
theorem bfs_dfs : ∀ (l : ℕ), l ≤ 7 → ∀ (cs : List (List Rq)),
    (∀ c ∈ cs, c.length = 2 ^ (l + 1)) → cs.length = 2 ^ (7 - l) →
    (nttLayersM l (2 ^ (7 - l)) cs.flatten).1 =
      (chunkMapM l (2 ^ (7 - l)) cs).flatten := by
  intro l
  induction l with
  | zero =>
      intro _ cs hlen hcnt
      rw [chunkMapM_zero]
      rfl
  | succ l ih =>
      intro hl cs hlen hcnt
      have e3 : 7 - (l + 1) = 6 - l := by omega
      have e1 : (128 : ℕ) / 2 ^ (l + 1) = 2 ^ (6 - l) := by
        have h128 : (128 : ℕ) = 2 ^ (l + 1) * 2 ^ (6 - l) := by
          rw [← pow_add, show l + 1 + (6 - l) = 7 from by omega]
          norm_num
        rw [h128, Nat.mul_div_cancel_left _ (by positivity)]
      have e4 : (2 : ℕ) ^ (7 - (l + 1)) = 2 ^ (6 - l) := by rw [e3]
      have hclen : ∀ c ∈ cs, c.length = 2 * 2 ^ (l + 1) := by
        intro c hc
        rw [hlen c hc]
        ring
      have hcount' : cs.length = 2 ^ (6 - l) := by rw [hcnt, e4]
      have hp67 : (2 : ℕ) ^ (7 - l) = 2 ^ (6 - l) * 2 := by
        rw [← pow_succ]
        congr 1
        omega
      simp only [nttLayersM]
      rw [e1, nttBlocksM_flatten cs (2 ^ (l + 1)) (2 ^ (7 - (l + 1))) (2 ^ (6 - l))
        hcount'.symm hclen]
      rw [← bfSplit_flatten]
      have hcnt2 : (bfSplitM (2 ^ (l + 1)) (2 ^ (7 - (l + 1))) cs).length = 2 ^ (7 - l) := by
        rw [bfSplit_length, hcount']
        omega
      have hctr : 2 ^ (7 - (l + 1)) + 2 ^ (6 - l) = 2 ^ (7 - l) := by
        rw [e4]
        omega
      rw [hctr]
      rw [ih (by omega) (bfSplitM (2 ^ (l + 1)) (2 ^ (7 - (l + 1))) cs)
        (bfSplit_chunk_length cs _ _ hclen) hcnt2]
      rw [show (2 : ℕ) ^ (7 - l) = 2 * 2 ^ (7 - (l + 1)) by rw [e4]; omega]
      exact chunkMap_bfSplit cs l (2 ^ (7 - (l + 1)))

/-- On 256-coefficient input the mirrored NTT is the depth-first
recursion from the root. -/
theorem nttM_eq_rec (F : List Rq) (h : F.length = 256) : nttM F = nttRecM 7 1 F := by
  have hb := bfs_dfs 7 le_rfl [F]
    (by intro c hc; simp only [List.mem_singleton] at hc; rw [hc, h]; norm_num)
    (by simp)
  norm_num at hb
  simpa [nttM, chunkMapM] using hb

/-- In-range GAMMA table entry as a power of 17 in Z_q. -/
theorem gammam_getD_pow (i : ℕ) (h : i < 128) :
    GAMMAM.getD i 0 = (17 : Rq) ^ (2 * bitrev7 i + 1) := by
  rw [gammam_getD_cast, GAMMA]
  rw [List.getD_eq_getElem _ _ (by simpa using h)]
  simp only [List.getElem_map, List.getElem_range]
  rw [castQ_mod]
  push_cast
  rfl

/-- Pair characterisation of the mirrored forward NTT: pair i of the
output is the residue pair of the input mod (X^2 - GAMMA[i]). -/
theorem nttM_pair (F : List Rq) (h : F.length = 256) (i : ℕ) (hi : i < 128) :
    (nttM F).getD (2 * i) 0 = (matEval (GAMMAM.getD i 0) F) 0 0 ∧
      (nttM F).getD (2 * i + 1) 0 = (matEval (GAMMAM.getD i 0) F) 1 0 := by
  rw [nttM_eq_rec F h]
  have hr := nttRecM_inv 7 le_rfl 1 (by norm_num) (by norm_num) F (by rw [h]; norm_num) i hi
  rw [show 1 * 2 ^ 7 + i = 128 + i by norm_num] at hr
  rw [brv8_leaf_nat i hi] at hr
  rw [gammam_getD_pow i hi]
  exact hr


/-- addL with an empty right argument. -/
theorem addL_nil : ∀ (c : List Rq), addL c [] = c := by
  intro c
  cases c <;> rfl

/-- addL head step. -/
theorem addL_cons_cons (x y : Rq) (xs ys : List Rq) :
    addL (x :: xs) (y :: ys) = (x + y) :: addL xs ys := rfl

/-- addL is associative. -/
theorem addL_assoc : ∀ (a b c : List Rq), addL (addL a b) c = addL a (addL b c) := by
  intro a
  induction a with
  | nil => intro b c; rfl
  | cons x xs ih =>
      intro b c
      cases b with
      | nil => rw [addL_nil]; rfl
      | cons y ys =>
          cases c with
          | nil => rw [addL_nil, addL_nil]
          | cons z zs =>
              rw [addL_cons_cons, addL_cons_cons, addL_cons_cons, addL_cons_cons,
                ih ys zs, add_assoc]

/-- Length of addL is the max of the lengths. -/
theorem addL_length : ∀ (a b : List Rq), (addL a b).length = max a.length b.length := by
  intro a
  induction a with
  | nil => intro b; simp [addL]
  | cons x xs ih =>
      intro b
      cases b with
      | nil => rw [addL_nil]; simp
      | cons y ys =>
          rw [addL_cons_cons, List.length_cons, List.length_cons, List.length_cons, ih ys]
          omega

/-- A short block of zeros added on the right is absorbed. -/
theorem addL_zero_right : ∀ (c : List Rq) (m : ℕ), m ≤ c.length →
    addL c (List.replicate m 0) = c := by
  intro c
  induction c with
  | nil =>
      intro m h
      obtain rfl : m = 0 := by simpa using h
      rfl
  | cons x xs ih =>
      intro m h
      cases m with
      | zero => exact addL_nil _
      | succ m =>
          rw [List.replicate_succ, addL_cons_cons, add_zero,
            ih m (by simp only [List.length_cons] at h; omega)]

/-- Adding to a long block of zeros pads the summand. -/
theorem addL_zero_pad : ∀ (u : List Rq) (m : ℕ), u.length ≤ m →
    addL (List.replicate m 0) u = u ++ List.replicate (m - u.length) 0 := by
  intro u
  induction u with
  | nil =>
      intro m h
      rw [addL_nil]
      simp
  | cons x xs ih =>
      intro m h
      cases m with
      | zero => simp at h
      | succ m =>
          rw [List.replicate_succ, addL_cons_cons, zero_add,
            ih m (by simp only [List.length_cons] at h; omega)]
          simp only [List.length_cons, List.cons_append]
          rw [show m + 1 - (xs.length + 1) = m - xs.length by omega]

/-- shiftN at zero. -/
theorem shiftN_zero (f : List Rq) : shiftN 0 f = f := rfl

/-- shiftN at a successor. -/
theorem shiftN_succ (n : ℕ) (f : List Rq) : shiftN (n + 1) f = 0 :: shiftN n f := rfl

/-- A leading zero coefficient folds into the shift. -/
theorem shiftN_cons_zero (s : ℕ) (f : List Rq) : shiftN s (0 :: f) = shiftN (s + 1) f := by
  rw [shiftN, shiftN, List.replicate_succ', List.append_assoc]
  rfl

/-- shiftN length. -/
theorem shiftN_length (n : ℕ) (f : List Rq) : (shiftN n f).length = n + f.length := by
  simp [shiftN]

/-- shiftN distributes over addL. -/
theorem shiftN_addL : ∀ (n : ℕ) (a b : List Rq),
    shiftN n (addL a b) = addL (shiftN n a) (shiftN n b) := by
  intro n
  induction n with
  | zero => intro a b; rfl
  | succ n ih =>
      intro a b
      rw [shiftN_succ, shiftN_succ, shiftN_succ, ih, addL_cons_cons, zero_add]

/-- Accumulating one value into a cell commutes with shifting the
remaining additions one step right. -/
theorem addL_set_shift : ∀ (c : List Rq) (p : ℕ) (v : Rq) (u : List Rq), p < c.length →
    addL (c.set p (c.getD p 0 + v)) (shiftN (p + 1) u) = addL c (shiftN p (v :: u)) := by
  intro c
  induction c with
  | nil => intro p v u h; simp at h
  | cons a as ih =>
      intro p v u h
      cases p with
      | zero =>
          show addL ((a + v) :: as) (0 :: shiftN 0 u) = addL (a :: as) (v :: u)
          rw [addL_cons_cons, addL_cons_cons, shiftN_zero, add_zero]
      | succ p =>
          show addL (a :: as.set p (as.getD p 0 + v)) (0 :: shiftN (p + 1) u) =
            addL (a :: as) (0 :: shiftN p (v :: u))
          rw [addL_cons_cons, addL_cons_cons,
            ih p v u (by simp only [List.length_cons] at h; omega)]

/-- The inner accumulation loop of the schoolbook multiplier adds the
shifted, scaled copy of the first factor's coefficient table. -/
theorem inner_loop : ∀ (n s : ℕ) (c : List Rq) (A : List Rq) (bi : Rq) (i : ℕ),
    s + n = 256 → i + 256 ≤ c.length →
    (List.range' s n).foldl
        (fun c j => c.set (i + j) (c.getD (i + j) 0 + A.getD j 0 * bi)) c =
      addL c (shiftN (i + s) ((List.range' s n).map (fun j => A.getD j 0 * bi))) := by
  intro n
  induction n with
  | zero =>
      intro s c A bi i hs hc
      show c = addL c (shiftN (i + s) [])
      rw [shiftN, List.append_nil, addL_zero_right c (i + s) (by omega)]
  | succ n ih =>
      intro s c A bi i hs hc
      rw [List.range'_succ s n 1, List.foldl_cons, List.map_cons]
      rw [ih (s + 1) _ A bi i (by omega) (by rw [List.length_set]; exact hc)]
      rw [show i + (s + 1) = (i + s) + 1 by ring]
      rw [addL_set_shift _ _ _ _ (by omega)]

/-- The outer loop of the schoolbook multiplier accumulates the
convolution of the coefficient tables. -/
theorem outer_loop : ∀ (n s : ℕ) (c : List Rq) (A B : List Rq),
    s + n = 256 → c.length = 511 →
    (List.range' s n).foldl (fun c i => (List.range 256).foldl
        (fun c j => c.set (i + j) (c.getD (i + j) 0 + A.getD j 0 * B.getD i 0)) c) c =
      addL c (shiftN s (convR (tab256 A)
        ((List.range' s n).map (fun i => B.getD i 0)))) := by
  intro n
  induction n with
  | zero =>
      intro s c A B hs hc
      show c = addL c (shiftN s (convR (tab256 A) []))
      rw [show convR (tab256 A) [] = [] from rfl, shiftN, List.append_nil,
        addL_zero_right c s (by omega)]
  | succ n ih =>
      intro s c A B hs hc
      rw [List.range'_succ s n 1]
      simp only [List.foldl_cons]
      have hinner : (List.range 256).foldl
          (fun c j => c.set (s + j) (c.getD (s + j) 0 + A.getD j 0 * B.getD s 0)) c =
          addL c (shiftN s ((tab256 A).map (fun x => x * B.getD s 0))) := by
        rw [show (List.range 256) = List.range' 0 256 from List.range_eq_range' 256]
        rw [inner_loop 256 0 c A (B.getD s 0) s (by omega) (by omega)]
        rw [show s + 0 = s by ring]
        rw [show (List.range' 0 256).map (fun j => A.getD j 0 * B.getD s 0) =
            (tab256 A).map (fun x => x * B.getD s 0) by
          rw [tab256, List.range_eq_range' 256, List.map_map]
          rfl]
      rw [hinner]
      rw [ih (s + 1) _ A B (by omega) (by
        rw [addL_length, hc, shiftN_length, List.length_map, tab256, List.length_map,
          List.length_range]
        omega)]
      rw [List.map_cons]
      rw [addL_assoc]
      rw [show convR (tab256 A) (B.getD s 0 ::
            (List.range' (s + 1) n).map (fun i => B.getD i 0)) =
          addL ((tab256 A).map (fun x => x * B.getD s 0))
            (0 :: convR (tab256 A) ((List.range' (s + 1) n).map (fun i => B.getD i 0)))
          from rfl]
      rw [shiftN_addL, shiftN_cons_zero]

/-- The length of the convolution of two 256-entry tables is 511. -/
theorem convR_length : ∀ (bs a : List Rq), a.length = 256 →
    (convR a bs).length = if bs.length = 0 then 0 else 255 + bs.length := by
  intro bs
  induction bs with
  | nil => intro a ha; rfl
  | cons b bs ih =>
      intro a ha
      rw [show convR a (b :: bs) = addL (a.map (fun x => x * b)) (0 :: convR a bs) from rfl]
      rw [addL_length, List.length_map, ha, List.length_cons, ih a ha]
      cases bs with
      | nil => simp
      | cons b' bs' =>
          simp only [List.length_cons]
          rw [if_neg (by omega), if_neg (by omega)]
          omega

/-- Phase 1 of the schoolbook multiplier computes exactly the coefficient
convolution of the two tables. -/
theorem phase1_eq (A B : List Rq) :
    (List.range 256).foldl (fun c i => (List.range 256).foldl
        (fun c j => c.set (i + j) (c.getD (i + j) 0 + A.getD j 0 * B.getD i 0)) c)
      (List.replicate 511 0) = convR (tab256 A) (tab256 B) := by
  have h := outer_loop 256 0 (List.replicate 511 0) A B (by omega) (by simp)
  rw [show (List.range' 0 256) = List.range 256 from (List.range_eq_range' 256).symm] at h
  rw [h]
  rw [show (List.range 256).map (fun i => B.getD i 0) = tab256 B from rfl]
  rw [shiftN_zero]
  have h511 : (convR (tab256 A) (tab256 B)).length = 511 := by
    rw [convR_length (tab256 B) (tab256 A) (by simp [tab256])]
    simp [tab256]
  rw [addL_zero_pad _ _ (by rw [h511])]
  rw [h511]
  simp

/-- getD of a set cell. -/
theorem getD_set_rq (l : List Rq) (n m : ℕ) (a : Rq) :
    (l.set n a).getD m 0 = if n = m ∧ n < l.length then a else l.getD m 0 := by
  induction l generalizing n m with
  | nil => simp [List.getD]
  | cons h t ih =>
      cases n with
      | zero => cases m <;> simp [List.getD]
      | succ n =>
          cases m with
          | zero => simp [List.getD]
          | succ m =>
              simp only [List.set, List.getD_cons_succ, List.length_cons, ih]
              have heq : (n = m ∧ n < t.length) ↔ (n + 1 = m + 1 ∧ n + 1 < t.length + 1) := by
                omega
              rw [if_congr heq rfl rfl]

/-- Fold of single-cell updates preserves length. -/
theorem foldl_pres_length : ∀ (is : List ℕ) (c : List Rq) (F : List Rq → ℕ → List Rq),
    (∀ c i, (F c i).length = c.length) → (is.foldl F c).length = c.length := by
  intro is
  induction is with
  | nil => intro c F h; rfl
  | cons x xs ih =>
      intro c F h
      rw [List.foldl_cons, ih _ F h, h]

/-- Entrywise description of phase 2 (the negacyclic folding pass). -/
theorem phase2_getD : ∀ (n s : ℕ) (c : List Rq), c.length = 511 → s + n = 255 →
    ∀ m : ℕ,
    ((List.range' s n).foldl (fun c i => c.set i (c.getD i 0 - c.getD (i + 256) 0))
        c).getD m 0 =
      if s ≤ m ∧ m < 255 then c.getD m 0 - c.getD (m + 256) 0 else c.getD m 0 := by
  intro n
  induction n with
  | zero =>
      intro s c hlen hs m
      rw [if_neg (by omega)]
      rfl
  | succ n ih =>
      intro s c hlen hs m
      rw [List.range'_succ s n 1, List.foldl_cons]
      rw [ih (s + 1) _ (by rw [List.length_set]; exact hlen) (by omega) m]
      by_cases h1 : s = m
      · subst h1
        rw [if_neg (by omega), if_pos (by omega)]
        rw [getD_set_rq, if_pos (And.intro rfl (by rw [hlen]; omega))]
      · by_cases h2 : s ≤ m ∧ m < 255
        · rw [if_pos (by omega), if_pos h2]
          rw [getD_set_rq, if_neg (fun hcon => h1 hcon.1)]
          rw [getD_set_rq, if_neg (fun hcon => by omega)]
        · rw [if_neg (by omega), if_neg h2]
          rw [getD_set_rq, if_neg (fun hcon => h1 hcon.1)]

/-- Two lists agreeing on getD at every index below their common length
are equal. -/
theorem list_eq_of_getD : ∀ (u v : List Rq), u.length = v.length →
    (∀ m, m < u.length → u.getD m 0 = v.getD m 0) → u = v := by
  intro u v hlen h
  apply List.ext_getElem hlen
  intro n h1 h2
  have hh := h n h1
  rwa [List.getD_eq_getElem _ _ h1, List.getD_eq_getElem _ _ h2] at hh

/-- getD through take, below the cut. -/
theorem getD_take_lt (l : List Rq) (n m : ℕ) (hm : m < n) :
    (l.take n).getD m 0 = l.getD m 0 := by
  by_cases h : m < l.length
  · rw [List.getD_eq_getElem _ _ (by rw [List.length_take]; omega),
      List.getD_eq_getElem _ _ h]
    simp [List.getElem_take]
  · rw [List.getD_eq_default _ _ (by rw [List.length_take]; omega),
      List.getD_eq_default _ _ (by omega)]

/-- The schoolbook multiplier, as a subtraction of the low and wrapped
high halves of the convolution. -/
theorem getD_drop_rq : ∀ (n : ℕ) (l : List Rq) (m : ℕ),
    (l.drop n).getD m 0 = l.getD (n + m) 0 := by
  intro n
  induction n with
  | zero => intro l m; rw [List.drop_zero, Nat.zero_add]
  | succ n ih =>
      intro l m
      cases l with
      | nil => rfl
      | cons x xs =>
          rw [List.drop_succ_cons, ih xs m, show n + 1 + m = (n + m) + 1 by omega,
            List.getD_cons_succ]

/-- getD of an entrywise difference. -/
theorem getD_zip_sub : ∀ (u v : List Rq) (m : ℕ), m < u.length → m < v.length →
    (List.zipWith (fun a b => a - b) u v).getD m 0 = u.getD m 0 - v.getD m 0 := by
  intro u
  induction u with
  | nil => intro v m h hv; simp at h
  | cons x xs ih =>
      intro v m h hv
      cases v with
      | nil => simp at hv
      | cons y ys =>
          cases m with
          | zero => rfl
          | succ m =>
              rw [List.zipWith_cons_cons, List.getD_cons_succ, List.getD_cons_succ,
                List.getD_cons_succ,
                ih ys m (by simp only [List.length_cons] at h; omega)
                  (by simp only [List.length_cons] at hv; omega)]

/-- The schoolbook multiplier equals the subtraction of the low and
wrapped high halves of the convolution. -/
theorem slowMulM_eq_zip (A B : List Rq) :
    slowMulM A B = List.zipWith (fun a b => a - b)
      ((convR (tab256 A) (tab256 B)).take 256)
      ((convR (tab256 A) (tab256 B)).drop 256 ++ [0]) := by
  have hcv : (convR (tab256 A) (tab256 B)).length = 511 := by
    rw [convR_length (tab256 B) (tab256 A) (by simp [tab256])]
    simp [tab256]
  simp only [slowMulM]
  rw [phase1_eq A B]
  rw [show (List.range 255) = List.range' 0 255 from List.range_eq_range' 255]
  have hfl : ((List.range' 0 255).foldl
      (fun c i => c.set i (c.getD i 0 - c.getD (i + 256) 0))
      (convR (tab256 A) (tab256 B))).length = 511 := by
    rw [foldl_pres_length _ _ _ (fun c i => List.length_set c i _), hcv]
  apply list_eq_of_getD
  · rw [List.length_take, hfl, List.length_zipWith, List.length_take, hcv,
      List.length_append, List.length_drop, hcv]
    norm_num
  · intro m hm
    have hm256 : m < 256 := by
      rw [List.length_take, hfl] at hm
      omega
    rw [getD_take_lt _ _ _ hm256]
    rw [phase2_getD 255 0 _ hcv (by omega) m]
    rw [getD_zip_sub _ _ m (by rw [List.length_take, hcv]; omega)
      (by simp only [List.length_append, List.length_drop, List.length_singleton, hcv]; omega)]
    rw [getD_take_lt _ _ _ hm256]
    by_cases hm2 : m < 255
    · rw [if_pos (by omega)]
      rw [List.getD_append _ _ _ _ (by rw [List.length_drop, hcv]; omega)]
      rw [getD_drop_rq, show 256 + m = m + 256 by omega]
    · have hm255 : m = 255 := by omega
      subst hm255
      rw [if_neg (by omega)]
      rw [List.getD_append_right _ _ _ _ (by rw [List.length_drop, hcv])]
      rw [List.length_drop, hcv]
      simp

/-- Coefficient cast through cons. -/
theorem mapc_cons (x : ℤ) (l : List ℤ) :
    mapc (x :: l) = ((x : ℤ) : Rq) :: mapc l := rfl

/-- Coefficient cast through set. -/
theorem mapc_set (l : List ℤ) (n : ℕ) (v : ℤ) :
    mapc (l.set n v) = (mapc l).set n ((v : ℤ) : Rq) := by
  simp only [mapc, List.map_set]

/-- Matrix evaluation is additive over the padded sum. -/
theorem matEval_addL : ∀ (x y : List Rq) (g : Rq),
    matEval g (addL x y) = matEval g x + matEval g y := by
  intro x
  induction x with
  | nil => intro y g; rw [show addL [] y = y from rfl, matEval_nil, zero_add]
  | cons a xs ih =>
      intro y g
      cases y with
      | nil => rw [addL_nil, matEval_nil, add_zero]
      | cons b ys =>
          show matEval g ((a + b) :: addL xs ys) = matEval g (a :: xs) + matEval g (b :: ys)
          rw [matEval_cons, matEval_cons, matEval_cons, ih ys g]
          rw [add_smul, mul_add]
          abel

/-- Matrix evaluation of a scalar multiple of the coefficient list. -/
theorem matEval_map_mul (b : Rq) : ∀ (a : List Rq) (g : Rq),
    matEval g (a.map (fun x => x * b)) = b • matEval g a := by
  intro a
  induction a with
  | nil => intro g; rw [List.map_nil, matEval_nil, smul_zero]
  | cons x xs ih =>
      intro g
      rw [List.map_cons, matEval_cons, ih g, matEval_cons]
      rw [smul_add, smul_smul, mul_smul_comm]
      rw [mul_comm b x]

/-- A leading zero coefficient multiplies the evaluation by the companion
matrix. -/
theorem matEval_zero_cons (g : Rq) (u : List Rq) :
    matEval g (0 :: u) = compM g * matEval g u := by
  rw [matEval_cons, zero_smul, zero_add]

/-- The companion matrix commutes with every matrix evaluation. -/
theorem matEval_comm (g : Rq) (f : List Rq) :
    compM g * matEval g f = matEval g f * compM g := by
  obtain ⟨e, o, he⟩ := matEval_shape f g
  rw [he, mul_add, add_mul, mul_smul_comm, mul_smul_comm, smul_mul_assoc, smul_mul_assoc,
    mul_one, one_mul]

/-- Matrix evaluation turns the convolution into a product. -/
theorem convR_matEval : ∀ (bs a : List Rq) (g : Rq),
    matEval g (convR a bs) = matEval g a * matEval g bs := by
  intro bs
  induction bs with
  | nil => intro a g; rw [show convR a [] = [] from rfl, matEval_nil, mul_zero]
  | cons b bs ih =>
      intro a g
      rw [show convR a (b :: bs) = addL (a.map (fun x => x * b)) (0 :: convR a bs) from rfl]
      rw [matEval_addL, matEval_map_mul, matEval_zero_cons, ih a g, matEval_cons]
      rw [mul_add, mul_smul_comm, mul_one, ← mul_assoc, matEval_comm, mul_assoc]

/-- Matrix evaluation is subtractive over the entrywise difference. -/
theorem matEval_zipSub (g : Rq) : ∀ (x y : List Rq), x.length = y.length →
    matEval g (List.zipWith (fun a b => a - b) x y) = matEval g x - matEval g y := by
  intro x
  induction x with
  | nil =>
      intro y h
      rw [List.length_nil] at h
      rw [List.eq_nil_of_length_eq_zero h.symm]
      show matEval g [] = matEval g [] - matEval g []
      rw [matEval_nil, sub_zero]
  | cons a as ih =>
      intro y h
      cases y with
      | nil => simp at h
      | cons b bs =>
          rw [List.zipWith_cons_cons, matEval_cons, matEval_cons, matEval_cons,
            ih bs (by simp only [List.length_cons] at h; omega)]
          rw [mul_sub, sub_smul]
          abel

/-- Product of two elements of the commutative algebra spanned by 1 and
the companion matrix. -/
theorem shape_mul (g e o f p : Rq) :
    (e • (1 : Matrix (Fin 2) (Fin 2) Rq) + o • compM g) *
        (f • (1 : Matrix (Fin 2) (Fin 2) Rq) + p • compM g) =
      (e * f + g * (o * p)) • (1 : Matrix (Fin 2) (Fin 2) Rq) +
        (e * p + o * f) • compM g := by
  rw [add_mul, mul_add, mul_add]
  simp only [smul_mul_assoc, mul_smul_comm, one_mul, mul_one, compM_sq, smul_smul]
  match_scalars <;> ring

/-- Top-left entry of a shape element. -/
theorem shape_e00 (g e o : Rq) :
    (e • (1 : Matrix (Fin 2) (Fin 2) Rq) + o • compM g) 0 0 = e :=
  (shape_entries g e o).1

/-- Bottom-left entry of a shape element. -/
theorem shape_e10 (g e o : Rq) :
    (e • (1 : Matrix (Fin 2) (Fin 2) Rq) + o • compM g) 1 0 = o :=
  (shape_entries g e o).2.1

/-- The coefficient table of a 256-entry list is the list itself. -/
theorem tab256_eq_self (a : List Rq) (h : a.length = 256) : tab256 a = a := by
  apply list_eq_of_getD _ _ (by rw [tab256, List.length_map, List.length_range, h])
  intro m hm
  rw [tab256, List.length_map, List.length_range] at hm
  rw [tab256, List.getD_eq_getElem _ _ (by rw [List.length_map, List.length_range]; omega)]
  simp only [List.getElem_map, List.getElem_range]

/-- Each GAMMA entry is a square root of -1 raised properly: its 128th
power is -1. -/
theorem gammam_pow128 (t : ℕ) (ht : t < 128) : (GAMMAM.getD t 0) ^ 128 = -1 := by
  rw [gammam_getD_pow t ht, ← pow_mul, pow17_mod,
    show (2 * bitrev7 t + 1) * 128 % 256 = 128 from by omega, pow17_128]

/-- Matrix evaluation of the schoolbook product is the product of the
evaluations, whenever the evaluation point g satisfies g^128 = -1. -/
theorem slowMulM_matEval (A B : List Rq) (g : Rq) (hg : g ^ 128 = -1) :
    matEval g (slowMulM A B) = matEval g (tab256 A) * matEval g (tab256 B) := by
  rw [slowMulM_eq_zip]
  have hcv : (convR (tab256 A) (tab256 B)).length = 511 := by
    rw [convR_length (tab256 B) (tab256 A) (by simp [tab256])]
    simp [tab256]
  have hconv : matEval g (convR (tab256 A) (tab256 B)) =
      matEval g (tab256 A) * matEval g (tab256 B) := convR_matEval _ _ g
  revert hcv hconv
  generalize convR (tab256 A) (tab256 B) = cv
  intro hcv hconv
  rw [matEval_zipSub g _ _ (by
    rw [List.length_take, hcv, List.length_append, List.length_drop, hcv,
      List.length_singleton]
    omega)]
  have hC : compM g ^ 256 = -1 := by
    rw [show (256 : ℕ) = 2 * 128 from by norm_num, compM_pow_even, hg, neg_smul, one_smul]
  have hsplit : matEval g cv =
      matEval g (cv.take 256) + compM g ^ 256 * matEval g (cv.drop 256) := by
    conv_lhs => rw [← List.take_append_drop 256 cv]
    rw [matEval_append, List.length_take, hcv]
    norm_num
  have hz : matEval g (cv.drop 256 ++ [0]) = matEval g (cv.drop 256) := by
    rw [matEval_append,
      show matEval g [0] = 0 from by
        rw [matEval_cons, matEval_nil, mul_zero, add_zero, zero_smul],
      mul_zero, add_zero]
  rw [hC, neg_one_mul] at hsplit
  rw [hz, ← hconv, hsplit]
  abel

/-- Length of the mirrored pointwise product. -/
theorem nttMulGoM_length : ∀ (n : ℕ) (a b : List Rq) (i : ℕ), a.length = 2 * n →
    b.length = 2 * n → (nttMulGoM i a b).length = 2 * n := by
  intro n
  induction n with
  | zero =>
      intro a b i ha hb
      obtain rfl : a = [] := List.eq_nil_of_length_eq_zero (by omega)
      obtain rfl : b = [] := List.eq_nil_of_length_eq_zero (by omega)
      rfl
  | succ n ih =>
      intro a b i ha hb
      cases a with
      | nil => rw [List.length_nil] at ha; omega
      | cons a0 ta =>
          cases ta with
          | nil => simp only [List.length_cons, List.length_nil] at ha; omega
          | cons a1 a2 =>
              cases b with
              | nil => rw [List.length_nil] at hb; omega
              | cons b0 tb =>
                  cases tb with
                  | nil => simp only [List.length_cons, List.length_nil] at hb; omega
                  | cons b1 b2 =>
                      show ((a0 * b0 + a1 * b1 * GAMMAM.getD i 0) ::
                        ((a0 * b1 + a1 * b0) :: nttMulGoM (i + 1) a2 b2)).length = 2 * (n + 1)
                      rw [List.length_cons, List.length_cons,
                        ih a2 b2 (i + 1) (by simp only [List.length_cons] at ha; omega)
                          (by simp only [List.length_cons] at hb; omega)]
                      omega

/-- Pair description of the mirrored pointwise product. -/
theorem nttMulGoM_pair : ∀ (n : ℕ) (a b : List Rq) (i : ℕ), a.length = 2 * n →
    b.length = 2 * n → ∀ t, t < n →
    (nttMulGoM i a b).getD (2 * t) 0 =
        a.getD (2 * t) 0 * b.getD (2 * t) 0 +
          a.getD (2 * t + 1) 0 * b.getD (2 * t + 1) 0 * GAMMAM.getD (i + t) 0 ∧
      (nttMulGoM i a b).getD (2 * t + 1) 0 =
        a.getD (2 * t) 0 * b.getD (2 * t + 1) 0 + a.getD (2 * t + 1) 0 * b.getD (2 * t) 0 := by
  intro n
  induction n with
  | zero => intro a b i ha hb t ht; exact absurd ht (Nat.not_lt_zero t)
  | succ n ih =>
      intro a b i ha hb t ht
      cases a with
      | nil => rw [List.length_nil] at ha; omega
      | cons a0 ta =>
          cases ta with
          | nil => simp only [List.length_cons, List.length_nil] at ha; omega
          | cons a1 a2 =>
              cases b with
              | nil => rw [List.length_nil] at hb; omega
              | cons b0 tb =>
                  cases tb with
                  | nil => simp only [List.length_cons, List.length_nil] at hb; omega
                  | cons b1 b2 =>
                      cases t with
                      | zero => exact ⟨rfl, rfl⟩
                      | succ t =>
                          obtain ⟨ih1, ih2⟩ := ih a2 b2 (i + 1)
                            (by simp only [List.length_cons] at ha; omega)
                            (by simp only [List.length_cons] at hb; omega) t (by omega)
                          constructor
                          · rw [show 2 * (t + 1) = 2 * t + 1 + 1 from by ring]
                            simp only [nttMulGoM, List.getD_cons_succ]
                            rw [ih1, show i + 1 + t = i + (t + 1) from by ring]
                          · rw [show 2 * (t + 1) + 1 = 2 * t + 1 + 1 + 1 from by ring,
                              show 2 * (t + 1) = 2 * t + 1 + 1 from by ring]
                            simp only [nttMulGoM, List.getD_cons_succ]
                            rw [ih2]

/-- Two 256-entry lists agreeing pairwise are equal. -/
theorem list256_ext (u v : List Rq) (hu : u.length = 256) (hv : v.length = 256)
    (h : ∀ t, t < 128 → u.getD (2 * t) 0 = v.getD (2 * t) 0 ∧
      u.getD (2 * t + 1) 0 = v.getD (2 * t + 1) 0) : u = v := by
  apply list_eq_of_getD u v (by rw [hu, hv])
  intro m hm
  rw [hu] at hm
  rcases Nat.even_or_odd m with ⟨t, ht⟩ | ⟨t, ht⟩
  · have h1 := (h t (by omega)).1
    rwa [show 2 * t = m from by omega] at h1
  · have h1 := (h t (by omega)).2
    rwa [show 2 * t + 1 = m from by omega] at h1

/-- The schoolbook multiplier always returns 256 coefficients. -/
theorem slowMulM_length (A B : List Rq) : (slowMulM A B).length = 256 := by
  simp only [slowMulM]
  rw [List.length_take]
  rw [foldl_pres_length _ _ _ (fun c i => List.length_set c i _)]
  rw [foldl_pres_length _ _ _
    (fun c i => foldl_pres_length _ _ _ (fun d j => List.length_set d _ _))]
  simp

/-- The mirrored forward NTT preserves the length 256. -/
theorem nttM_length (F : List Rq) (h : F.length = 256) : (nttM F).length = 256 := by
  rw [nttM_eq_rec F h]
  have h8 := nttRecM_length 7 1 F (by rw [h]; norm_num)
  norm_num at h8
  exact h8

/-- Main Z_q identity: the pointwise product in the NTT basis is the
forward NTT of the schoolbook product. -/
theorem mulM_eq (A B : List Rq) (hA : A.length = 256) (hB : B.length = 256) :
    nttMulM (nttM A) (nttM B) = nttM (slowMulM A B) := by
  have hnS : (slowMulM A B).length = 256 := slowMulM_length A B
  have hu : (nttMulM (nttM A) (nttM B)).length = 256 := by
    rw [show nttMulM (nttM A) (nttM B) = nttMulGoM 0 (nttM A) (nttM B) from rfl]
    have h := nttMulGoM_length 128 (nttM A) (nttM B) 0
      (by rw [nttM_length A hA]) (by rw [nttM_length B hB])
    omega
  apply list256_ext _ _ hu (nttM_length _ hnS)
  intro t ht
  rw [show nttMulM (nttM A) (nttM B) = nttMulGoM 0 (nttM A) (nttM B) from rfl]
  obtain ⟨hm0, hm1⟩ := nttMulGoM_pair 128 (nttM A) (nttM B) 0
    (by rw [nttM_length A hA]) (by rw [nttM_length B hB]) t ht
  obtain ⟨hA0, hA1⟩ := nttM_pair A hA t ht
  obtain ⟨hB0, hB1⟩ := nttM_pair B hB t ht
  obtain ⟨hS0, hS1⟩ := nttM_pair (slowMulM A B) hnS t ht
  have hprod : matEval (GAMMAM.getD t 0) (slowMulM A B) =
      matEval (GAMMAM.getD t 0) A * matEval (GAMMAM.getD t 0) B := by
    rw [slowMulM_matEval A B _ (gammam_pow128 t ht), tab256_eq_self A hA, tab256_eq_self B hB]
  obtain ⟨eA, oA, hsA⟩ := matEval_shape A (GAMMAM.getD t 0)
  obtain ⟨eB, oB, hsB⟩ := matEval_shape B (GAMMAM.getD t 0)
  constructor
  · rw [hm0, hS0, hprod, hA0, hA1, hB0, hB1, hsA, hsB, shape_mul]
    simp only [shape_e00, shape_e10, Nat.zero_add]
    ring
  · rw [hm1, hS1, hprod, hA0, hA1, hB0, hB1, hsA, hsB, shape_mul]
    simp only [shape_e00, shape_e10]

/-- The coefficient cast commutes with the pointwise product worker. -/
theorem nttMulGo_mapc : ∀ (n : ℕ) (a b : List ℤ) (i : ℕ), a.length ≤ n →
    mapc (nttMulGo i a b) = nttMulGoM i (mapc a) (mapc b) := by
  intro n
  induction n with
  | zero =>
      intro a b i h
      obtain rfl : a = [] := List.eq_nil_of_length_eq_zero (by omega)
      cases b with
      | nil => rfl
      | cons b0 tb =>
          cases tb with
          | nil => rfl
          | cons b1 b2 => rfl
  | succ n ih =>
      intro a b i h
      cases a with
      | nil =>
          cases b with
          | nil => rfl
          | cons b0 tb =>
              cases tb with
              | nil => rfl
              | cons b1 b2 => rfl
      | cons a0 ta =>
          cases ta with
          | nil =>
              cases b with
              | nil => rfl
              | cons b0 tb =>
                  cases tb with
                  | nil => rfl
                  | cons b1 b2 => rfl
          | cons a1 a2 =>
              cases b with
              | nil => rfl
              | cons b0 tb =>
                  cases tb with
                  | nil => rfl
                  | cons b1 b2 =>
                      rw [show nttMulGo i (a0 :: a1 :: a2) (b0 :: b1 :: b2) =
                          (a0 * b0 + a1 * b1 * GAMMA.getD i 0) % Q ::
                            ((a0 * b1 + a1 * b0) % Q :: nttMulGo (i + 1) a2 b2) from rfl]
                      rw [mapc_cons, mapc_cons, mapc_cons, mapc_cons, mapc_cons, mapc_cons]
                      simp only [nttMulGoM]
                      congr 1
                      · rw [castQ_mod, gammam_getD_cast]
                        push_cast
                        ring
                      congr 1
                      · rw [castQ_mod]
                        push_cast
                        ring
                      · exact ih a2 b2 (i + 1) (by simp only [List.length_cons] at h; omega)

/-- The coefficient cast commutes with ntt_mul. -/
theorem ntt_mul_mapc (a b : List ℤ) :
    mapc (ntt_mul a b) = nttMulM (mapc a) (mapc b) :=
  nttMulGo_mapc a.length a b 0 le_rfl

/-- The coefficient cast commutes with a fold whose step it commutes
with. -/
theorem foldl_mapc : ∀ (is : List ℕ) (c : List ℤ) (F : List ℤ → ℕ → List ℤ)
    (G : List Rq → ℕ → List Rq), (∀ c i, mapc (F c i) = G (mapc c) i) →
    mapc (is.foldl F c) = is.foldl G (mapc c) := by
  intro is
  induction is with
  | nil => intro c F G h; rfl
  | cons x xs ih =>
      intro c F G h
      rw [List.foldl_cons, List.foldl_cons, ih (F c x) F G h, h]

/-- The coefficient cast commutes with the schoolbook multiplier. -/
theorem slow_mul_mapc (a b : List ℤ) :
    mapc (poly256_slow_mul a b) = slowMulM (mapc a) (mapc b) := by
  have hcomm1 : ∀ (c : List ℤ) (i : ℕ),
      mapc ((List.range 256).foldl (fun c j =>
          c.set (i + j) ((c.getD (i + j) 0 + a.getD j 0 * b.getD i 0) % Q)) c) =
        (List.range 256).foldl (fun c j =>
          c.set (i + j) (c.getD (i + j) 0 + (mapc a).getD j 0 * (mapc b).getD i 0))
          (mapc c) := by
    intro c i
    refine foldl_mapc _ _ _ _ ?_
    intro d j
    rw [mapc_set]
    refine congrArg (List.set (mapc d) (i + j)) ?_
    rw [castQ_mod]
    push_cast
    rw [getD_mapc, getD_mapc, getD_mapc]
  have hcomm2 : ∀ (c : List ℤ) (i : ℕ),
      mapc (c.set i ((c.getD i 0 - c.getD (i + 256) 0) % Q)) =
        (mapc c).set i ((mapc c).getD i 0 - (mapc c).getD (i + 256) 0) := by
    intro c i
    rw [mapc_set]
    refine congrArg (List.set (mapc c) i) ?_
    rw [castQ_mod]
    push_cast
    rw [getD_mapc, getD_mapc]
  have hc1 : mapc ((List.range 256).foldl (fun c i => (List.range 256).foldl (fun c j =>
        c.set (i + j) ((c.getD (i + j) 0 + a.getD j 0 * b.getD i 0) % Q)) c)
        (List.replicate 511 (0 : ℤ))) =
      (List.range 256).foldl (fun c i => (List.range 256).foldl (fun c j =>
        c.set (i + j) (c.getD (i + j) 0 + (mapc a).getD j 0 * (mapc b).getD i 0)) c)
        (List.replicate 511 (0 : Rq)) := by
    rw [foldl_mapc _ _ _ (fun c i => (List.range 256).foldl (fun c j =>
      c.set (i + j) (c.getD (i + j) 0 + (mapc a).getD j 0 * (mapc b).getD i 0)) c) hcomm1]
    rw [show mapc (List.replicate 511 (0 : ℤ)) = List.replicate 511 (0 : Rq) from by
      simp [mapc]]
  simp only [poly256_slow_mul, slowMulM]
  rw [mapc_take]
  rw [foldl_mapc _ _ _ (fun c i => c.set i (c.getD i 0 - c.getD (i + 256) 0)) hcomm2]
  rw [hc1]

/-- A fold whose step preserves the coefficient range preserves it
overall. -/
theorem foldl_range_pres : ∀ (is : List ℕ) (c : List ℤ) (F : List ℤ → ℕ → List ℤ),
    (∀ c i, (∀ y ∈ c, 0 ≤ y ∧ y < 3329) → ∀ x ∈ F c i, 0 ≤ x ∧ x < 3329) →
    (∀ y ∈ c, 0 ≤ y ∧ y < 3329) → ∀ x ∈ is.foldl F c, 0 ≤ x ∧ x < 3329 := by
  intro is
  induction is with
  | nil => intro c F hF hc; exact hc
  | cons i it ih =>
      intro c F hF hc
      rw [List.foldl_cons]
      exact ih _ F hF (hF c i hc)

/-- Every coefficient of the schoolbook product is reduced mod q. -/
theorem slow_mul_mem (a b : List ℤ) : ∀ x ∈ poly256_slow_mul a b, 0 ≤ x ∧ x < 3329 := by
  have hmodQ : ∀ y : ℤ, 0 ≤ y % Q ∧ y % Q < 3329 := by
    intro y
    constructor
    · exact Int.emod_nonneg _ (by norm_num [Q])
    · have h := Int.emod_lt_of_pos y (show (0 : ℤ) < Q from by norm_num [Q])
      simpa [Q] using h
  intro x hx
  simp only [poly256_slow_mul] at hx
  have hx2 := List.take_subset 256 _ hx
  refine foldl_range_pres _ _ _ ?_ ?_ x hx2
  · intro c i hc y hy
    rcases List.mem_or_eq_of_mem_set hy with hmem | rfl
    · exact hc y hmem
    · exact hmodQ _
  · refine foldl_range_pres _ _ _ ?_ ?_
    · intro c i hc
      refine foldl_range_pres _ _ _ ?_ hc
      intro d j hd y hy
      rcases List.mem_or_eq_of_mem_set hy with hmem | rfl
      · exact hd y hmem
      · exact hmodQ _
    · intro y hy
      rw [List.eq_of_mem_replicate hy]
      norm_num

/-- C5: for every pair of 256-coefficient polynomials a and b with entries
in [0, 3329), the O(n) pointwise product in the NTT basis, mapped back by
the inverse NTT, equals the O(n^2) textbook negacyclic convolution:
ntt_inv (ntt_mul (ntt a) (ntt b)) = poly256_slow_mul a b. -/
theorem c5_ntt_mul_refines_slow_mul (a b : List ℤ) (ha : a.length = 256)
    (hb : b.length = 256) (hra : ∀ x ∈ a, 0 ≤ x ∧ x < 3329)
    (hrb : ∀ x ∈ b, 0 ≤ x ∧ x < 3329) :
    ntt_inv (ntt_mul (ntt a) (ntt b)) = poly256_slow_mul a b := by
  have hl : (poly256_slow_mul a b).length = 256 := by
    rw [← mapc_length, slow_mul_mapc, slowMulM_length]
  apply mapc_inj _ _ (fun x hx => ntt_inv_mem _ x hx) (slow_mul_mem a b)
  rw [ntt_inv_mapc, ntt_mul_mapc, ntt_mapc, ntt_mapc]
  rw [mulM_eq (mapc a) (mapc b) (by rw [mapc_length, ha]) (by rw [mapc_length, hb])]
  rw [← slow_mul_mapc a b]
  exact nttInvM_nttM _ (by rw [mapc_length, hl])

/-- Witness for C5 at the zero polynomial. -/
theorem c5_ntt_mul_refines_slow_mul_witness :
    (List.replicate 256 (0 : ℤ)).length = 256 ∧
      ntt_inv (ntt_mul (ntt (List.replicate 256 (0 : ℤ)))
          (ntt (List.replicate 256 (0 : ℤ)))) =
        poly256_slow_mul (List.replicate 256 (0 : ℤ)) (List.replicate 256 (0 : ℤ)) := by
  constructor
  · simp
  · exact c5_ntt_mul_refines_slow_mul _ _ (by simp) (by simp)
      (fun x hx => by rw [List.eq_of_mem_replicate hx]; norm_num)
      (fun x hx => by rw [List.eq_of_mem_replicate hx]; norm_num)


end MLKEM
